import Mathlib

/-!
# Verification of the Fastbuild target-dependency-ordered emission engine

Shallow embedding of the readiness scheduler, per-target generator and
name/path normalizer implemented in `Source/cmGlobalFastbuildGenerator.cxx`
and `Source/cmFastbuildNormalTargetGenerator.cxx`, together with proofs and
refutations of the specified properties.

Strings manipulated by position (`std::string::find` / `rfind` / `substr`)
are modelled as `List Char`; `String` wrappers are provided where concrete
evaluation is convenient.
-/

namespace FastbuildSpec

/-! ## Positional string helpers (models of std::string operations) -/

/-- Model of `s.rfind(c)`: index of the last occurrence of `c`, if any. -/
def rfindIdx (c : Char) : List Char → Option Nat
  | [] => none
  | a :: t =>
    match rfindIdx c t with
    | some i => some (i + 1)
    | none => if a = c then some 0 else none

/-- Model of `s.find(c)`: index of the first occurrence of `c`, if any. -/
def ffindIdx (c : Char) : List Char → Option Nat
  | [] => none
  | a :: t => if a = c then some 0 else (ffindIdx c t).map (· + 1)

/-- Model of `s.find(needle) != std::string::npos` (substring containment). -/
def containsSub (needle : List Char) : List Char → Bool
  | [] => needle.isEmpty
  | a :: t => needle.isPrefixOf (a :: t) || containsSub needle t

theorem rfindIdx_eq_none {c : Char} {p : List Char} :
    rfindIdx c p = none ↔ c ∉ p := by
  induction p with
  | nil => simp [rfindIdx]
  | cons a t ih =>
    simp only [rfindIdx]
    cases h : rfindIdx c t with
    | some i =>
      have hct : c ∈ t := by
        by_contra hc
        rw [← ih] at hc
        simp [h] at hc
      simp [List.mem_cons, hct]
    | none =>
      have hct : c ∉ t := ih.mp h
      by_cases hac : a = c
      · simp [hac]
      · simp [hac, List.mem_cons, hct]
        exact fun hc => hac hc.symm

theorem rfindIdx_append_cons {c s : Char} {u v : List Char} (hv : c ∉ v) :
    rfindIdx c (u ++ s :: v) = if s = c then some u.length else rfindIdx c u := by
  induction u with
  | nil =>
    simp only [List.nil_append, rfindIdx, rfindIdx_eq_none.mpr hv, List.length_nil]
  | cons a t ih =>
    simp only [List.cons_append, rfindIdx, List.append_eq]
    rw [ih]
    by_cases hs : s = c
    · simp [hs]
    · simp only [hs, if_false]

theorem rfindIdx_lt_length {c : Char} {u : List Char} {i : Nat}
    (h : rfindIdx c u = some i) : i < u.length := by
  induction u generalizing i with
  | nil => simp [rfindIdx] at h
  | cons a t ih =>
    simp only [rfindIdx] at h
    cases ht : rfindIdx c t with
    | some j =>
      rw [ht] at h
      cases h
      exact Nat.succ_lt_succ (ih ht)
    | none =>
      rw [ht] at h
      by_cases hac : a = c
      · simp [hac] at h
        simp [← h]
      · simp [hac] at h

theorem takeWhile_append_cons {P : Char → Bool} {u v : List Char} {s : Char}
    (hu : ∀ x ∈ u, P x) (hs : ¬ P s) :
    (u ++ s :: v).takeWhile P = u := by
  induction u with
  | nil => simp [List.takeWhile_cons, hs]
  | cons a t ih =>
    have ha : P a := hu a (by simp)
    simp only [List.cons_append, List.takeWhile_cons, ha, if_true]
    rw [ih (fun x hx => hu x (by simp [hx]))]

theorem takeWhile_of_all {P : Char → Bool} {u : List Char}
    (hu : ∀ x ∈ u, P x) : u.takeWhile P = u := by
  induction u with
  | nil => rfl
  | cons a t ih =>
    simp only [List.takeWhile_cons, hu a (by simp), if_true]
    rw [ih (fun x hx => hu x (by simp [hx]))]

theorem find?_append_cons {P : Char → Bool} {u v : List Char} {s : Char}
    (hu : ∀ x ∈ u, ¬ P x) (hs : P s) :
    (u ++ s :: v).find? P = some s := by
  induction u with
  | nil => simp [List.find?_cons, hs]
  | cons a t ih =>
    have ha : ¬ P a := hu a (by simp)
    rw [List.cons_append, List.find?_cons_of_neg _ ha]
    exact ih (fun x hx => hu x (by simp [hx]))

theorem drop_append_length {u w : List Char} : (u ++ w).drop u.length = w := by
  simp

theorem drop_append_length_succ {u v : List Char} {s : Char} :
    (u ++ s :: v).drop (u.length + 1) = v := by
  have : u ++ s :: v = (u ++ [s]) ++ v := by simp
  rw [this]
  have hl : u.length + 1 = (u ++ [s]).length := by simp
  rw [hl]
  simp

/-- `match ffindIdx` followed by `take` is truncation at the first occurrence. -/
theorem take_ffindIdx_eq_takeWhile (c : Char) (s : List Char) :
    (match ffindIdx c s with
      | some k => s.take k
      | none => s) = s.takeWhile (fun x => x ≠ c) := by
  induction s with
  | nil => rfl
  | cons a t ih =>
    by_cases hac : a = c
    · simp [ffindIdx, hac, List.takeWhile_cons]
    · have hb : (decide (a ≠ c)) = true := by simp [hac]
      cases ht : ffindIdx c t with
      | some k =>
        simp only [ffindIdx, hac, if_false, ht, Option.map_some, List.takeWhile_cons, hb, if_true,
          List.take_succ_cons]
        simp only [ht] at ih
        exact congrArg (fun l => a :: l) ih
      | none =>
        simp only [ffindIdx, hac, if_false, ht, Option.map_none, List.takeWhile_cons, hb, if_true]
        simp only [ht] at ih
        exact congrArg (fun l => a :: l) ih

/-! ## Name/Path Normalizer: `cmFastbuildNormalTargetGenerator::GetNameFile` -/

/-- Embedding of `cmFastbuildNormalTargetGenerator::GetNameFile`
(`cmFastbuildNormalTargetGenerator.cxx`, lines 155-181): compute the cut
position from `rfind('/')` and `rfind('\\')` exactly as the source does
(including the missing `+ 1` in the both-separators branch), take the
suffix, then truncate at the first `.` found by `nameFile.find('.')`. -/
def getNameFile (namePathFile : List Char) : List Char :=
  let found1 := rfindIdx '/' namePathFile
  let found2 := rfindIdx '\\' namePathFile
  let found : Nat :=
    match found1, found2 with
    | some i, none => i + 1
    | none, some j => j + 1
    | some i, some j => if i < j then j else i
    | none, none => 0
  let nameFile := namePathFile.drop found
  match ffindIdx '.' nameFile with
  | some k => nameFile.take k
  | none => nameFile

/-- String wrapper for concrete evaluation of `GetNameFile`. -/
def getNameFileS (s : String) : String := ⟨getNameFile s.data⟩

/-- A path-separator character of either family. -/
def isSepChar (c : Char) : Bool := c = '/' || c = '\\'

/-- The last path component: characters after the last separator of either
family (independent description used to characterize the code). -/
def lastComp (p : List Char) : List Char :=
  (p.reverse.takeWhile (fun c => !isSepChar c)).reverse

/-- The separator character the code retains at the front of its result when
the path contains both separator families (the both-separators branch of
`GetNameFile` omits the `+ 1`). -/
def keptSep (p : List Char) : List Char :=
  if '/' ∈ p ∧ '\\' ∈ p then (p.reverse.find? isSepChar).toList else []

/-- Truncation at the first dot (the code truncates at the first dot, not
the last one). -/
def dropFromFirstDot (s : List Char) : List Char :=
  s.takeWhile (fun c => c ≠ '.')

theorem sep_decomposition (p : List Char) :
    (∀ c ∈ p, ¬ isSepChar c) ∨
      ∃ u s v, p = u ++ s :: v ∧ isSepChar s ∧ ∀ c ∈ v, ¬ isSepChar c := by
  induction p with
  | nil => exact Or.inl (by simp)
  | cons a t ih =>
    rcases ih with hfree | ⟨u, s, v, rfl, hs, hv⟩
    · by_cases ha : isSepChar a
      · exact Or.inr ⟨[], a, t, rfl, ha, hfree⟩
      · refine Or.inl ?_
        intro c hc
        rcases List.mem_cons.mp hc with rfl | hct
        · exact ha
        · exact hfree c hct
    · exact Or.inr ⟨a :: u, s, v, rfl, hs, hv⟩

theorem lastComp_of_sep_free {p : List Char} (h : ∀ c ∈ p, ¬ isSepChar c) :
    lastComp p = p := by
  unfold lastComp
  rw [takeWhile_of_all (fun x hx => by
    simp only [Bool.not_eq_true']
    exact Bool.not_eq_true _ ▸ by
      have := h x (List.mem_reverse.mp hx)
      simp [this])]
  exact List.reverse_reverse p

theorem lastComp_append_sep {u v : List Char} {s : Char}
    (hs : isSepChar s) (hv : ∀ c ∈ v, ¬ isSepChar c) :
    lastComp (u ++ s :: v) = v := by
  unfold lastComp
  have hrev : (u ++ s :: v).reverse = v.reverse ++ s :: u.reverse := by
    simp
  rw [hrev, takeWhile_append_cons (fun x hx => by
      have := hv x (List.mem_reverse.mp hx)
      simp [this]) (by simp [hs]), List.reverse_reverse]

theorem getNameFile_of_sep_free {p : List Char} (h : ∀ c ∈ p, ¬ isSepChar c) :
    getNameFile p = dropFromFirstDot p := by
  have h1 : '/' ∉ p := fun hmem => by simpa [isSepChar] using h _ hmem
  have h2 : '\\' ∉ p := fun hmem => by simpa [isSepChar] using h _ hmem
  unfold getNameFile
  rw [rfindIdx_eq_none.mpr h1, rfindIdx_eq_none.mpr h2]
  simp only [List.drop_zero]
  exact take_ffindIdx_eq_takeWhile '.' p

/-- C8 amended behavior on paths with at least one separator. -/
theorem getNameFile_append_sep {u v : List Char} {s : Char}
    (hs : isSepChar s) (hv : ∀ c ∈ v, ¬ isSepChar c) :
    getNameFile (u ++ s :: v) =
      (if ('/' ∈ u ++ s :: v ∧ '\\' ∈ u ++ s :: v) then [s] else [])
        ++ dropFromFirstDot v := by
  have hv1 : '/' ∉ v := fun hmem => by simpa [isSepChar] using hv _ hmem
  have hv2 : '\\' ∉ v := fun hmem => by simpa [isSepChar] using hv _ hmem
  have hss : s = '/' ∨ s = '\\' := by
    rcases Bool.or_eq_true_iff.mp hs with h | h
    · exact Or.inl (by simpa using h)
    · exact Or.inr (by simpa using h)
  unfold getNameFile
  rcases hss with rfl | rfl
  · rw [rfindIdx_append_cons hv1, rfindIdx_append_cons hv2]
    rw [if_pos rfl, if_neg (by decide)]
    by_cases hbu : '\\' ∈ u
    · rcases Option.ne_none_iff_exists'.mp
        (fun hn => (rfindIdx_eq_none.mp hn) hbu) with ⟨j, hj⟩
      rw [hj]
      have hjl : j < u.length := rfindIdx_lt_length hj
      dsimp only
      rw [if_neg (Nat.not_lt.mpr (Nat.le_of_lt hjl))]
      rw [drop_append_length]
      have hcond : ('/' ∈ u ++ '/' :: v ∧ '\\' ∈ u ++ '/' :: v) := by
        constructor
        · exact List.mem_append.mpr (Or.inr (by simp))
        · exact List.mem_append.mpr (Or.inl hbu)
      rw [if_pos hcond]
      rw [take_ffindIdx_eq_takeWhile]
      unfold dropFromFirstDot
      rw [List.takeWhile_cons]
      simp
    · rw [rfindIdx_eq_none.mpr hbu]
      dsimp only
      rw [drop_append_length_succ]
      have hcond : ¬ ('/' ∈ u ++ '/' :: v ∧ '\\' ∈ u ++ '/' :: v) := by
        rintro ⟨-, hmem⟩
        rcases List.mem_append.mp hmem with h | h
        · exact hbu h
        · rcases List.mem_cons.mp h with h | h
          · exact absurd h (by decide)
          · exact hv2 h
      rw [if_neg hcond, List.nil_append]
      exact take_ffindIdx_eq_takeWhile '.' v
  · rw [rfindIdx_append_cons hv1, rfindIdx_append_cons hv2]
    rw [if_pos rfl, if_neg (by decide)]
    by_cases hbu : '/' ∈ u
    · rcases Option.ne_none_iff_exists'.mp
        (fun hn => (rfindIdx_eq_none.mp hn) hbu) with ⟨i, hi⟩
      rw [hi]
      have hil : i < u.length := rfindIdx_lt_length hi
      dsimp only
      rw [if_pos hil]
      rw [drop_append_length]
      have hcond : ('/' ∈ u ++ '\\' :: v ∧ '\\' ∈ u ++ '\\' :: v) := by
        constructor
        · exact List.mem_append.mpr (Or.inl hbu)
        · exact List.mem_append.mpr (Or.inr (by simp))
      rw [if_pos hcond]
      rw [take_ffindIdx_eq_takeWhile]
      unfold dropFromFirstDot
      rw [List.takeWhile_cons]
      simp
    · rw [rfindIdx_eq_none.mpr hbu]
      dsimp only
      rw [drop_append_length_succ]
      have hcond : ¬ ('/' ∈ u ++ '\\' :: v ∧ '\\' ∈ u ++ '\\' :: v) := by
        rintro ⟨hmem, -⟩
        rcases List.mem_append.mp hmem with h | h
        · exact hbu h
        · rcases List.mem_cons.mp h with h | h
          · exact absurd h (by decide)
          · exact hv1 h
      rw [if_neg hcond, List.nil_append]
      exact take_ffindIdx_eq_takeWhile '.' v

/-- C8 counterexample: the claim says `base_name` strips the *final*
extension, so a component with several dots keeps everything before the
last dot; on `"dir/a.b.c"` that would be `"a.b"`, but `GetNameFile`
truncates at the *first* dot (`nameFile.find('.')`) and returns `"a"`. -/
theorem claim_C8_counterexample :
    getNameFileS "dir/a.b.c" = "a" ∧ getNameFileS "dir/a.b.c" ≠ "a.b" := by
  constructor
  · rfl
  · decide

/-- C8 amended: `base_name` strips directory components recognizing both
separator families, except that when the path contains both kinds of
separators the last separator character itself is kept at the front of the
result (the both-separators branch omits the `+ 1`); and it strips
everything from the first dot of the remaining component onward (not just
the final extension). -/
theorem claim_C8_amended (p : List Char) :
    getNameFile p = keptSep p ++ dropFromFirstDot (lastComp p) := by
  rcases sep_decomposition p with hfree | ⟨u, s, v, rfl, hs, hv⟩
  · have hks : keptSep p = [] := by
      unfold keptSep
      rw [if_neg]
      rintro ⟨h1, -⟩
      simpa [isSepChar] using hfree _ h1
    rw [getNameFile_of_sep_free hfree, hks, lastComp_of_sep_free hfree,
      List.nil_append]
  · rw [getNameFile_append_sep hs hv, lastComp_append_sep hs hv]
    congr 1
    unfold keptSep
    by_cases hcond : ('/' ∈ u ++ s :: v ∧ '\\' ∈ u ++ s :: v)
    · rw [if_pos hcond, if_pos hcond]
      have hrev : (u ++ s :: v).reverse = v.reverse ++ s :: u.reverse := by
        simp
      rw [hrev, find?_append_cons (fun x hx => by
        have := hv x (List.mem_reverse.mp hx)
        simp [this]) hs]
      rfl
    · rw [if_neg hcond, if_neg hcond]

/-! ## `GetNameTargetLibrary` / `RemoveDuplicateName` / `GetNameTargetLibraries` -/

/-- Embedding of `cmFastbuildNormalTargetGenerator::GetNameTargetLibrary`
(lines 234-273): same directory-cut computation as `GetNameFile`, then the
suffix classification at the *last* dot (`rfind`): `.lib`/`.a` map to a
`_lib` suffix, a `.so` substring anywhere maps to `_dll`, `.manifest` at
the last dot returns the empty string immediately (before the
multi-config suffix); `nameTarget` stays empty when there is no dot. -/
def getNameTargetLibrary (namePathFile : List Char) (isMultiConfig : Bool)
    (config : List Char) : List Char :=
  let found1 := rfindIdx '/' namePathFile
  let found2 := rfindIdx '\\' namePathFile
  let found : Nat :=
    match found1, found2 with
    | some i, none => i + 1
    | none, some j => j + 1
    | some i, some j => if i < j then j else i
    | none, none => 0
  let nameFile := namePathFile.drop found
  let nameTarget0 : Option (List Char) :=
    match rfindIdx '.' nameFile with
    | some fp =>
      let nameTarget := nameFile.take fp
      if (nameFile.drop fp).take 4 = ".lib".data ∨ (nameFile.drop fp).take 2 = ".a".data then
        some (nameTarget ++ "_lib".data)
      else if containsSub ".so".data nameFile then
        some (nameTarget ++ "_dll".data)
      else if (nameFile.drop fp).take 9 = ".manifest".data then
        none
      else some nameTarget
    | none => some []
  match nameTarget0 with
  | none => []
  | some nameTarget =>
    if isMultiConfig then nameTarget ++ '_' :: config else nameTarget

/-- String wrapper for `GetNameTargetLibrary`. -/
def getNameTargetLibraryS (p : String) (isMultiConfig : Bool) (config : String) : String :=
  ⟨getNameTargetLibrary p.data isMultiConfig config.data⟩

/-- Sorted-unique insertion: the effect of `mapTemp[name] = name` on the
ordered key set of a `std::map`. -/
def insertSortedUniq (n : String) : List String → List String
  | [] => [n]
  | a :: t => if n < a then n :: a :: t else if n = a then a :: t else a :: insertSortedUniq n t

/-- Embedding of `cmFastbuildNormalTargetGenerator::RemoveDuplicateName`
(lines 142-153): collect the names into a `std::map` keyed by name and
output the keys in map (sorted) order. -/
def removeDuplicateName (listName : List String) : List String :=
  (listName.foldl (fun m n => insertSortedUniq n m) [])

theorem mem_insertSortedUniq {x n : String} {m : List String} :
    x ∈ insertSortedUniq n m ↔ x = n ∨ x ∈ m := by
  induction m with
  | nil => simp [insertSortedUniq]
  | cons a t ih =>
    unfold insertSortedUniq
    by_cases h1 : n < a
    · simp [h1]
    · by_cases h2 : n = a
      · subst h2
        rw [if_neg h1, if_pos rfl]
        simp only [List.mem_cons]
        tauto
      · simp only [h1, if_false, h2, List.mem_cons, ih]
        tauto

theorem mem_removeDuplicateName {x : String} {l : List String} :
    x ∈ removeDuplicateName l ↔ x ∈ l := by
  unfold removeDuplicateName
  suffices h : ∀ acc, x ∈ l.foldl (fun m n => insertSortedUniq n m) acc ↔ x ∈ acc ∨ x ∈ l by
    rw [h []]
    simp
  induction l with
  | nil => intro acc; simp
  | cons a t ih =>
    intro acc
    rw [List.foldl_cons, ih (insertSortedUniq a acc), mem_insertSortedUniq]
    simp only [List.mem_cons]
    tauto

/-- The `lib` name-stripping applied for the GNU/Clang toolchain family in
`GetNameTargetLibraries` (lines 214-222). -/
def stripLibIfGnu (compilerId : String) (s : List Char) : List Char :=
  if compilerId = "GNU" ∨ compilerId = "Clang" then
    if s.take 3 = "lib".data then s.drop 3 else s
  else s

/-- The per-dependency contribution in `GetNameTargetLibraries`: the
adjusted dependency name if it is nonempty and its ledger key is
registered, nothing otherwise. -/
def libraryDepContribution (ledgerKeys : List String) (compilerId : String)
    (isMultiConfig : Bool) (config : String) (implicitDep : String) : Option String :=
  let nameTarget := stripLibIfGnu compilerId
    (getNameTargetLibrary implicitDep.data isMultiConfig config.data)
  let nameInfoTargetGFB := stripLibIfGnu compilerId
    (getNameFile implicitDep.data ++ config.data)
  if nameTarget ≠ [] ∧ (⟨nameInfoTargetGFB⟩ : String) ∈ ledgerKeys then
    some ⟨nameTarget⟩
  else none

/-- Embedding of `cmFastbuildNormalTargetGenerator::GetNameTargetLibraries`
(lines 200-232): walk the resolved link dependencies, adjust each name
(`GetNameTargetLibrary` plus the GNU/Clang `lib`-stripping, applied to both
the emitted name and the ledger key), keep only nonempty names whose ledger
key is registered in `MapFastbuildInfoTargets`, and deduplicate. -/
def getNameTargetLibraries (ledgerKeys : List String) (compilerId : String)
    (isMultiConfig : Bool) (config : String) (implicitDeps : List String) : List String :=
  let listImplicitDeps := implicitDeps.foldl (fun acc implicitDep =>
    match libraryDepContribution ledgerKeys compilerId isMultiConfig config implicitDep with
    | some name => acc ++ [name]
    | none => acc) []
  removeDuplicateName listImplicitDeps

theorem foldl_contrib_eq_filterMap (ledgerKeys : List String) (compilerId : String)
    (isMultiConfig : Bool) (config : String) (implicitDeps : List String) :
    ∀ acc, implicitDeps.foldl (fun acc implicitDep =>
      match libraryDepContribution ledgerKeys compilerId isMultiConfig config implicitDep with
      | some name => acc ++ [name]
      | none => acc) acc
      = acc ++ implicitDeps.filterMap
          (libraryDepContribution ledgerKeys compilerId isMultiConfig config) := by
  induction implicitDeps with
  | nil => intro acc; simp
  | cons d t ih =>
    intro acc
    rw [List.foldl_cons, List.filterMap_cons]
    cases h : libraryDepContribution ledgerKeys compilerId isMultiConfig config d with
    | some name => rw [ih (acc ++ [name])]; simp
    | none => rw [ih acc]

/-- C10: a dependency name appears in the emitted `Libraries`/alias
dependency list only if its ledger key is registered at the moment the
depending target generates (first conjunct); a dependency whose adjusted
name is empty or whose key is unregistered is silently omitted (second
conjunct); and a file name ending in `.manifest` at its last dot has the
empty string as canonical name (third conjunct), hence is omitted. -/
theorem claim_C10_library_deps :
    (∀ (ledgerKeys : List String) (compilerId config : String) (isMultiConfig : Bool)
       (implicitDeps : List String) (name : String),
       name ∈ getNameTargetLibraries ledgerKeys compilerId isMultiConfig config implicitDeps →
       ∃ d ∈ implicitDeps,
         name = ⟨stripLibIfGnu compilerId (getNameTargetLibrary d.data isMultiConfig config.data)⟩ ∧
         name ≠ "" ∧
         (⟨stripLibIfGnu compilerId (getNameFile d.data ++ config.data)⟩ : String) ∈ ledgerKeys)
    ∧
    (∀ (ledgerKeys : List String) (compilerId config : String) (isMultiConfig : Bool)
       (deps1 deps2 : List String) (d : String),
       (stripLibIfGnu compilerId (getNameTargetLibrary d.data isMultiConfig config.data) = [] ∨
        (⟨stripLibIfGnu compilerId (getNameFile d.data ++ config.data)⟩ : String) ∉ ledgerKeys) →
       getNameTargetLibraries ledgerKeys compilerId isMultiConfig config (deps1 ++ d :: deps2)
         = getNameTargetLibraries ledgerKeys compilerId isMultiConfig config (deps1 ++ deps2))
    ∧
    (∀ (stem : List Char) (isMultiConfig : Bool) (config : List Char),
       (∀ c ∈ stem, ¬ isSepChar c) →
       containsSub ".so".data (stem ++ ".manifest".data) = false →
       getNameTargetLibrary (stem ++ ".manifest".data) isMultiConfig config = []) := by
  refine ⟨?_, ?_, ?_⟩
  · intro ledgerKeys compilerId config isMultiConfig implicitDeps name hmem
    unfold getNameTargetLibraries at hmem
    rw [mem_removeDuplicateName, foldl_contrib_eq_filterMap, List.nil_append,
      List.mem_filterMap] at hmem
    rcases hmem with ⟨d, hd, hcontrib⟩
    refine ⟨d, hd, ?_⟩
    unfold libraryDepContribution at hcontrib
    by_cases hcond : (stripLibIfGnu compilerId
        (getNameTargetLibrary d.data isMultiConfig config.data) ≠ [] ∧
        (⟨stripLibIfGnu compilerId (getNameFile d.data ++ config.data)⟩ : String) ∈ ledgerKeys)
    · rw [if_pos hcond] at hcontrib
      cases hcontrib
      refine ⟨rfl, ?_, hcond.2⟩
      intro hemp
      apply hcond.1
      have : (⟨stripLibIfGnu compilerId
          (getNameTargetLibrary d.data isMultiConfig config.data)⟩ : String).data = ("" : String).data := by
        rw [hemp]
      simpa using this
    · rw [if_neg hcond] at hcontrib
      cases hcontrib
  · intro ledgerKeys compilerId config isMultiConfig deps1 deps2 d hdrop
    have hnone : libraryDepContribution ledgerKeys compilerId isMultiConfig config d = none := by
      unfold libraryDepContribution
      rw [if_neg]
      rintro ⟨hne, hmem⟩
      rcases hdrop with h | h
      · exact hne h
      · exact h hmem
    unfold getNameTargetLibraries
    rw [foldl_contrib_eq_filterMap, foldl_contrib_eq_filterMap,
      List.filterMap_append, List.filterMap_append, List.filterMap_cons, hnone]
  · intro stem isMultiConfig config hsf hso
    have h1 : '/' ∉ stem ++ ".manifest".data := by
      intro hmem
      rcases List.mem_append.mp hmem with h | h
      · simpa [isSepChar] using hsf _ h
      · exact absurd h (by decide)
    have h2 : '\\' ∉ stem ++ ".manifest".data := by
      intro hmem
      rcases List.mem_append.mp hmem with h | h
      · simpa [isSepChar] using hsf _ h
      · exact absurd h (by decide)
    unfold getNameTargetLibrary
    rw [rfindIdx_eq_none.mpr h1, rfindIdx_eq_none.mpr h2]
    dsimp only
    rw [List.drop_zero]
    have hsplit : stem ++ ".manifest".data = stem ++ '.' :: "manifest".data := rfl
    rw [hsplit, rfindIdx_append_cons (by decide), if_pos rfl]
    dsimp only
    rw [drop_append_length]
    rw [if_neg (by decide)]
    rw [← hsplit, hso]
    simp only [Bool.false_eq_true, if_false]
    rw [if_pos (by decide : ((".manifest".data : List Char).take 9 = ".manifest".data))]

/-- Witness for C10 at concrete inputs. -/
theorem claim_C10_witness :
    (∃ d ∈ (["C:/x/foo.lib"] : List String),
       ("foo_lib" : String) = ⟨stripLibIfGnu "MSVC" (getNameTargetLibrary d.data false "Release".data)⟩ ∧
       ("foo_lib" : String) ≠ "" ∧
       (⟨stripLibIfGnu "MSVC" (getNameFile d.data ++ "Release".data)⟩ : String) ∈ ["fooRelease"]) ∧
    getNameTargetLibraries ["fooRelease"] "MSVC" false "Release" ([] ++ "a.manifest" :: ["C:/x/foo.lib"])
      = getNameTargetLibraries ["fooRelease"] "MSVC" false "Release" ([] ++ ["C:/x/foo.lib"]) ∧
    getNameTargetLibrary ("a".data ++ ".manifest".data) false [] = [] := by
  refine ⟨?_, ?_, ?_⟩
  · exact claim_C10_library_deps.1 ["fooRelease"] "MSVC" "Release" false ["C:/x/foo.lib"]
      "foo_lib" (by decide)
  · exact claim_C10_library_deps.2.1 ["fooRelease"] "MSVC" "Release" false
      [] ["C:/x/foo.lib"] "a.manifest" (Or.inl (by decide))
  · exact claim_C10_library_deps.2.2 "a".data false [] (by decide) (by decide)

/-! ## `WriteExecutableFB` alias records (C9) -/

/-- A recorded alias (`TargetAliasFB` submitted through
`cmGlobalFastbuildGenerator::AddTargetAliasFB`). -/
structure TargetAliasFB where
  aliasName : String
  listDeps : String
  config : String
  excludeFromAll : Bool
deriving DecidableEq, Repr

/-- `cmGlobalFastbuildGenerator::Quote` (line 119): empty input stays
empty, otherwise the string is wrapped in the BFF quotation mark (the
default quotation argument, declared in the header). -/
def quoteFB (s : String) : String := if s = "" then "" else "'" ++ s ++ "'"

/-- Embedding of the naming and alias-recording logic of
`cmFastbuildNormalTargetGenerator::WriteExecutableFB` (lines 922-994):
derive `executable_name` and `alias_name` from the short output name and
the configuration, record one unconditional per-target deps alias, and
record the canonical-name alias only when the compiler is MSVC in a
non-multi-config build, or the configuration is the default one in a
multi-config build. `implicitDeps` is the `GetNameTargetLibraries`
result. -/
def writeExecutableAliasesFB (compilerId : String) (isMultiConfig : Bool)
    (defaultFileConfig config short_name target_name : String)
    (implicitDeps : List String) : List TargetAliasFB :=
  let executable_name :=
    if !isMultiConfig then short_name ++ "_exe" else short_name ++ "_exe_" ++ config
  let alias_name :=
    if !isMultiConfig then short_name ++ "_exe_deps"
    else short_name ++ "_exe_" ++ config ++ "_deps"
  let listImplicitDepsAlias := implicitDeps.foldl (fun acc implicitDep =>
    if implicitDep ≠ "" then acc ++ quoteFB (implicitDep ++ "_deps") else acc) ""
  let listDeps := listImplicitDepsAlias ++ quoteFB executable_name
  let base : List TargetAliasFB := [⟨quoteFB alias_name, listDeps, config, false⟩]
  if (compilerId = "MSVC" ∧ !isMultiConfig) ∨ (isMultiConfig ∧ defaultFileConfig = config) then
    base ++ [⟨quoteFB target_name, quoteFB executable_name, config, true⟩]
  else base

/-- C9 counterexample: for a GNU non-multi-config build the claim requires
the canonical-name alias (the build is non-multi-config), but the code
additionally requires MSVC: only the single deps alias is recorded and no
recorded alias carries the canonical target name. -/
theorem claim_C9_counterexample :
    (writeExecutableAliasesFB "GNU" false "" "Release" "t" "t" []).length = 1 ∧
    ∀ r ∈ writeExecutableAliasesFB "GNU" false "" "Release" "t" "t" [],
      r.aliasName ≠ quoteFB "t" := by
  decide

/-- C9 amended: exactly one unconditional per-target deps alias is always
recorded (first, not excluded from the default build), and the
canonical-name alias (named after the target, pointing at the generated
executable name, excluded from the default build) is recorded precisely
when the compiler is MSVC and the build is non-multi-config, or the build
is multi-config and the configuration is the default file configuration. -/
theorem claim_C9_amended (compilerId : String) (isMultiConfig : Bool)
    (defaultFileConfig config short_name target_name : String)
    (implicitDeps : List String) :
    (∃ r, (writeExecutableAliasesFB compilerId isMultiConfig defaultFileConfig config
        short_name target_name implicitDeps).head? = some r ∧
      r.aliasName = quoteFB (if !isMultiConfig then short_name ++ "_exe_deps"
        else short_name ++ "_exe_" ++ config ++ "_deps") ∧
      r.config = config ∧ r.excludeFromAll = false) ∧
    ((∃ r ∈ writeExecutableAliasesFB compilerId isMultiConfig defaultFileConfig config
        short_name target_name implicitDeps,
        r.excludeFromAll = true ∧ r.aliasName = quoteFB target_name ∧
        r.listDeps = quoteFB (if !isMultiConfig then short_name ++ "_exe"
          else short_name ++ "_exe_" ++ config)) ↔
      ((compilerId = "MSVC" ∧ !isMultiConfig) ∨ (isMultiConfig ∧ defaultFileConfig = config))) := by
  unfold writeExecutableAliasesFB
  by_cases hcond : ((compilerId = "MSVC" ∧ !isMultiConfig) ∨
      (isMultiConfig ∧ defaultFileConfig = config))
  · rw [if_pos hcond]
    constructor
    · exact ⟨_, rfl, rfl, rfl, rfl⟩
    · constructor
      · intro _; exact hcond
      · intro _
        exact ⟨⟨quoteFB target_name,
          quoteFB (if !isMultiConfig then short_name ++ "_exe" else short_name ++ "_exe_" ++ config),
          config, true⟩, List.mem_append.mpr (Or.inr (by simp)), rfl, rfl, rfl⟩
  · rw [if_neg hcond]
    constructor
    · exact ⟨_, rfl, rfl, rfl, rfl⟩
    · constructor
      · rintro ⟨r, hr, hexc, -, -⟩
        rcases List.mem_singleton.mp hr with rfl
        simp at hexc
      · intro h; exact absurd h hcond

/-! ## `WriteObjectListsFB` object grouping (C6) -/

/-- Embedding of `cmFastbuildNormalTargetGenerator::GetPath` (lines
287-295): the prefix up to and including the last `/`, empty when there is
none. -/
def getPathFB (fullPath : List Char) : List Char :=
  match rfindIdx '/' fullPath with
  | some found => fullPath.take (found + 1)
  | none => []

/-- String wrapper for `GetPath`. -/
def getPathS (s : String) : String := ⟨getPathFB s.data⟩

/-- One source file of a target as seen by `WriteObjectListsFB`: its full
path, its extension, its derived compile options (computed flags ++
defines ++ includes, the combined `compilerOptionsTemp` string) and its
entry of `output_objects`. -/
structure FbSource where
  fullPath : String
  ext : String
  opts : String
  outObj : String
deriving DecidableEq, Repr

/-- One emitted compile group (`WriteObjectListFB` call). -/
structure ObjGroup where
  members : List String
  opts : String
  outPath : String
  ext : String
deriving DecidableEq, Repr

/-- The grouping key compared by the loop: derived compile options, output
object sub-directory, and source extension. -/
def srcKey (sf : FbSource) : String × String × String :=
  (sf.opts, getPathS sf.outObj, sf.ext)

/-- `cmStrCat("\x22", path, "\x22")` around a member source path. -/
def quoteSrc (s : String) : String := "\"" ++ s ++ "\""

/-- One iteration of the grouping loop (lines 675-708): compute the
per-source triple, flush the accumulated sub-list when it differs from the
running triple, then append the source to the (possibly fresh) sub-list. -/
def objListStep (st : (String × String × String) × List String × List ObjGroup)
    (sf : FbSource) : (String × String × String) × List String × List ObjGroup :=
  let prev := st.1
  let objectList := st.2.1
  let groups := st.2.2
  let tOpts := sf.opts
  let tPath := getPathS sf.outObj
  let tExt := sf.ext
  if tOpts ≠ prev.1 ∨ tPath ≠ prev.2.1 ∨ tExt ≠ prev.2.2 then
    ((tOpts, tPath, tExt),
      ([quoteSrc sf.fullPath], groups ++ [⟨objectList, prev.1, prev.2.1, prev.2.2⟩]))
  else
    ((tOpts, tPath, tExt), (objectList ++ [quoteSrc sf.fullPath], groups))

/-- The flush of the final sub-list after the loop (lines 710-714). -/
def finishGroups (r : (String × String × String) × List String × List ObjGroup) :
    List ObjGroup :=
  r.2.2 ++ [⟨r.2.1, r.1.1, r.1.2.1, r.1.2.2⟩]

/-- Embedding of the grouping loop of
`cmFastbuildNormalTargetGenerator::WriteObjectListsFB` (lines 610-714):
the running `(compilerOptions, output_object_path, extension)` triple is
seeded from the first source (with `GetPath` applied twice to the first
output object), each source whose triple differs from the running one
flushes the accumulated sub-list as a group, and the final sub-list is
flushed after the loop. -/
def writeObjectListsGroupsFB (srcs : List FbSource) : List ObjGroup :=
  let init : String × String × String :=
    match srcs with
    | [] => ("", "", "")
    | s0 :: _ => (s0.opts, getPathS (getPathS s0.outObj), s0.ext)
  finishGroups (srcs.foldl objListStep (init, ([], [])))

/-- Order-preserving partition of a source list into maximal contiguous
runs of equal grouping key (independent description of the claimed
behavior). -/
def runsBy : List FbSource → List (List FbSource)
  | [] => []
  | [s] => [[s]]
  | s :: s2 :: rest =>
    match runsBy (s2 :: rest) with
    | [] => [[s]]
    | g :: gs => if srcKey s = srcKey s2 then (s :: g) :: gs else [s] :: g :: gs

theorem runsBy_cons_ne_nil (s : FbSource) (l : List FbSource) :
    runsBy (s :: l) ≠ [] := by
  cases l with
  | nil => simp [runsBy]
  | cons s2 rest =>
    unfold runsBy
    cases runsBy (s2 :: rest) with
    | nil => simp
    | cons g gs =>
      by_cases h : srcKey s = srcKey s2 <;> simp [h]

theorem rfindIdx_take {c : Char} {s : List Char} {i : Nat}
    (h : rfindIdx c s = some i) : s.take (i + 1) = s.take i ++ [c] := by
  induction s generalizing i with
  | nil => simp [rfindIdx] at h
  | cons a t ih =>
    simp only [rfindIdx] at h
    cases ht : rfindIdx c t with
    | some j =>
      rw [ht] at h
      cases h
      simp only [List.take_succ_cons, List.cons_append]
      rw [← ih ht]
    | none =>
      rw [ht] at h
      by_cases hac : a = c
      · simp only [hac, if_pos rfl] at h
        cases h
        simp [hac]
      · simp [hac] at h

theorem getPathFB_idem (s : List Char) : getPathFB (getPathFB s) = getPathFB s := by
  unfold getPathFB
  cases h : rfindIdx '/' s with
  | none => simp [rfindIdx]
  | some i =>
    dsimp only
    have htake : s.take (i + 1) = s.take i ++ ['/'] := rfindIdx_take h
    have hlen : (s.take i).length = i := by
      have := rfindIdx_lt_length h
      simp only [List.length_take]
      omega
    have hrf : rfindIdx '/' (s.take (i + 1)) = some i := by
      rw [htake]
      have := rfindIdx_append_cons (u := s.take i) (v := ([] : List Char))
        (s := '/') (c := '/') (by simp)
      simpa [hlen] using this
    rw [hrf]
    exact List.take_of_length_le (by
      simp only [List.length_take]
      omega)

theorem getPathS_idem (s : String) : getPathS (getPathS s) = getPathS s := by
  unfold getPathS
  exact congrArg String.mk (getPathFB_idem s.data)

/-- The flush decision compares exactly the grouping key. -/
theorem flush_cond_iff (sf : FbSource) (prev : String × String × String) :
    (sf.opts ≠ prev.1 ∨ getPathS sf.outObj ≠ prev.2.1 ∨ sf.ext ≠ prev.2.2) ↔
      srcKey sf ≠ prev := by
  obtain ⟨a, b, c⟩ := prev
  simp only [srcKey, ne_eq, Prod.ext_iff]
  tauto

/-- The fold state read as the still-open run (carry) after closed groups. -/
def runsWithCarry (prev : String × String × String) (carry : List String) :
    List FbSource → List (List String)
  | [] => [carry]
  | s :: rest =>
    if srcKey s = prev then runsWithCarry prev (carry ++ [quoteSrc s.fullPath]) rest
    else carry :: runsWithCarry (srcKey s) [quoteSrc s.fullPath] rest

theorem foldl_objListStep (rest : List FbSource) :
    ∀ (prev : String × String × String) (carry : List String) (groups : List ObjGroup),
    (finishGroups (rest.foldl objListStep (prev, (carry, groups)))).map ObjGroup.members
      = groups.map ObjGroup.members ++ runsWithCarry prev carry rest := by
  induction rest with
  | nil =>
    intro prev carry groups
    simp [finishGroups, runsWithCarry]
  | cons s rest ih =>
    intro prev carry groups
    rw [List.foldl_cons, runsWithCarry]
    by_cases hk : srcKey s = prev
    · have hnc : ¬ (s.opts ≠ prev.1 ∨ getPathS s.outObj ≠ prev.2.1 ∨ s.ext ≠ prev.2.2) :=
        fun hc => (flush_cond_iff s prev).mp hc hk
      have hstep : objListStep (prev, (carry, groups)) s
          = (srcKey s, (carry ++ [quoteSrc s.fullPath], groups)) := by
        unfold objListStep
        rw [if_neg hnc]
        rfl
      rw [hstep, ih, if_pos hk, hk]
    · have hc : (s.opts ≠ prev.1 ∨ getPathS s.outObj ≠ prev.2.1 ∨ s.ext ≠ prev.2.2) :=
        (flush_cond_iff s prev).mpr hk
      have hstep : objListStep (prev, (carry, groups)) s
          = (srcKey s, ([quoteSrc s.fullPath], groups ++ [⟨carry, prev.1, prev.2.1, prev.2.2⟩])) := by
        unfold objListStep
        rw [if_pos hc]
        rfl
      rw [hstep, ih, if_neg hk]
      simp

theorem runsWithCarry_eq_runsBy (rest : List FbSource) :
    ∀ (s : FbSource) (carry : List String) (g : List FbSource) (gs : List (List FbSource)),
    runsBy (s :: rest) = g :: gs →
    runsWithCarry (srcKey s) (carry ++ [quoteSrc s.fullPath]) rest
      = (carry ++ g.map (fun sf => quoteSrc sf.fullPath))
          :: gs.map (List.map (fun sf => quoteSrc sf.fullPath)) := by
  induction rest with
  | nil =>
    intro s carry g gs hruns
    simp only [runsBy] at hruns
    cases hruns
    simp [runsWithCarry]
  | cons s2 rest2 ih =>
    intro s carry g gs hruns
    rw [runsWithCarry]
    rcases hr2 : runsBy (s2 :: rest2) with _ | ⟨g2, gs2⟩
    · exact absurd hr2 (runsBy_cons_ne_nil s2 rest2)
    · by_cases hk : srcKey s = srcKey s2
      · have hruns2 : runsBy (s :: s2 :: rest2) = (s :: g2) :: gs2 := by
          unfold runsBy
          rw [hr2]
          dsimp only
          rw [if_pos hk]
        rw [hruns2] at hruns
        cases hruns
        rw [if_pos hk.symm]
        have hih := ih s2 (carry ++ [quoteSrc s.fullPath]) g2 gs hr2
        rw [← hk] at hih
        rw [hih]
        simp
      · have hruns2 : runsBy (s :: s2 :: rest2) = [s] :: g2 :: gs2 := by
          unfold runsBy
          rw [hr2]
          dsimp only
          rw [if_neg hk]
        rw [hruns2] at hruns
        cases hruns
        rw [if_neg (fun hh => hk hh.symm)]
        have := ih s2 [] g2 gs2 hr2
        rw [List.nil_append] at this
        rw [this]
        simp

/-- C6: object grouping is an order-preserving partition into maximal
contiguous runs: walking the source list in order, a new compile group
starts exactly when the derived compile options, the output object
sub-directory, or the source extension changes from the previous source
(the emitted member lists are exactly the maximal contiguous runs of equal
grouping key, in order). -/
theorem claim_C6_object_grouping (srcs : List FbSource) (h : srcs ≠ []) :
    (writeObjectListsGroupsFB srcs).map ObjGroup.members
      = (runsBy srcs).map (List.map (fun sf => quoteSrc sf.fullPath)) := by
  obtain ⟨s0, rest, rfl⟩ := List.exists_cons_of_ne_nil h
  unfold writeObjectListsGroupsFB
  have hinit : ((s0.opts, getPathS (getPathS s0.outObj), s0.ext) : String × String × String)
      = srcKey s0 := by
    unfold srcKey
    rw [getPathS_idem]
  dsimp only
  rw [hinit, List.foldl_cons]
  have hnc : ¬ (s0.opts ≠ (srcKey s0).1 ∨ getPathS s0.outObj ≠ (srcKey s0).2.1 ∨
      s0.ext ≠ (srcKey s0).2.2) := by
    intro hc
    exact (flush_cond_iff s0 (srcKey s0)).mp hc rfl
  have hstep : objListStep (srcKey s0, (([] : List String), ([] : List ObjGroup))) s0
      = (srcKey s0, ([quoteSrc s0.fullPath], [])) := by
    unfold objListStep
    rw [if_neg hnc]
    rfl
  rw [hstep, foldl_objListStep]
  rcases hr : runsBy (s0 :: rest) with _ | ⟨g, gs⟩
  · exact absurd hr (runsBy_cons_ne_nil s0 rest)
  · have := runsWithCarry_eq_runsBy rest s0 [] g gs hr
    rw [List.nil_append] at this
    rw [this]
    simp

/-- Witness for C6: the spec scenario `[s1(A), s2(A), s3(B), s4(A)]`
partitions into exactly three groups `{s1,s2}`, `{s3}`, `{s4}`. -/
theorem claim_C6_witness :
    (([⟨"s1.cpp", "cpp", "A", "o/s1.o"⟩, ⟨"s2.cpp", "cpp", "A", "o/s2.o"⟩,
       ⟨"s3.cpp", "cpp", "B", "o/s3.o"⟩, ⟨"s4.cpp", "cpp", "A", "o/s4.o"⟩] : List FbSource) ≠ []) ∧
    (writeObjectListsGroupsFB
        [⟨"s1.cpp", "cpp", "A", "o/s1.o"⟩, ⟨"s2.cpp", "cpp", "A", "o/s2.o"⟩,
         ⟨"s3.cpp", "cpp", "B", "o/s3.o"⟩, ⟨"s4.cpp", "cpp", "A", "o/s4.o"⟩]).map ObjGroup.members
      = [["\"s1.cpp\"", "\"s2.cpp\""], ["\"s3.cpp\""], ["\"s4.cpp\""]] := by
  constructor
  · decide
  · rw [claim_C6_object_grouping _ (by decide)]
    decide

/-! ## The Dependency Ledger (`MapFastbuildInfoTargets`) -/

/-- The (target, configuration)-resolved upstream queries the scheduler
consumes about one generator target: its name, whether the resolved link
language for the configuration is empty
(`TargetLinkLanguage(config).empty()`), and its canonicalized dependency
key list (the `GetNameDepsTargets(config)` result). These are opaque
already-resolved inputs of the engine (spec §6). -/
structure CmTarget where
  name : String
  linkLangEmpty : Bool
  deps : List String
deriving DecidableEq, Repr

instance : Inhabited CmTarget := ⟨⟨"", false, []⟩⟩

/-- Modelled from the spec: the struct `cmFastbuildInfoTarget` is declared
in `cmGlobalFastbuildGenerator.h`, which is not among the sources; its
fields follow spec §3 Ledger Entry and the uses in
`cmGlobalFastbuildGenerator.cxx`: the finished flag `is_treated`, the
owning configuration, the ordered dependency key list `name_target_deps`,
the outstanding count `number_untrated_deps` (a C++ `int`) and the
back-reference `gt`. `std::map::operator[]` on a missing key
value-initializes an entry: false flag, zero count, empty strings/lists. -/
structure FbInfoTarget where
  is_treated : Bool
  config : String
  name_target_deps : List String
  number_untrated_deps : Int
  gt : CmTarget
deriving DecidableEq, Repr

instance : Inhabited FbInfoTarget := ⟨⟨false, "", [], 0, default⟩⟩

/-- `MapFastbuildInfoTargets`: a `std::map` kept as its association list in
ascending key order (the iteration order of `std::map`). -/
abbrev Ledger := List (String × FbInfoTarget)

/-- `map.find(k)` (presence and value lookup). -/
def mapFindFB (m : Ledger) (k : String) : Option FbInfoTarget :=
  match m with
  | [] => none
  | (k', v) :: t => if k = k' then some v else mapFindFB t k

/-- `map.insert({k, v})`: inserts at the sorted position, keeping the
existing entry when the key is already present. -/
def mapInsertFB (k : String) (v : FbInfoTarget) : Ledger → Ledger
  | [] => [(k, v)]
  | (k', v') :: t =>
    if k < k' then (k, v) :: (k', v') :: t
    else if k = k' then (k', v') :: t
    else (k', v') :: mapInsertFB k v t

/-- In-place update of the entry at key `k` (the effect of writing through
the reference returned by `operator[]` for a present key). -/
def mapSetFB (m : Ledger) (k : String) (f : FbInfoTarget → FbInfoTarget) : Ledger :=
  m.map (fun p => if p.1 = k then (p.1, f p.2) else p)

/-- `std::map::operator[]`: return the entry, inserting a value-initialized
one first when the key is absent. -/
def mapIndexFB (m : Ledger) (k : String) : FbInfoTarget × Ledger :=
  match mapFindFB m k with
  | some e => (e, m)
  | none => (default, mapInsertFB k default m)

theorem mapFindFB_insert_self {m : Ledger} {k : String} {v : FbInfoTarget}
    (h : mapFindFB m k = none) : mapFindFB (mapInsertFB k v m) k = some v := by
  induction m with
  | nil => simp [mapInsertFB, mapFindFB]
  | cons p t ih =>
    obtain ⟨k', v'⟩ := p
    simp only [mapFindFB] at h
    by_cases hk : k = k'
    · simp [hk] at h
    · rw [if_neg hk] at h
      unfold mapInsertFB
      by_cases h1 : k < k'
      · simp [mapFindFB, h1]
      · rw [if_neg h1, if_neg hk]
        simp only [mapFindFB, if_neg hk]
        exact ih h

theorem mapFindFB_insert_ne {m : Ledger} {k k' : String} {v : FbInfoTarget}
    (h : k' ≠ k) : mapFindFB (mapInsertFB k v m) k' = mapFindFB m k' := by
  induction m with
  | nil => simp [mapInsertFB, mapFindFB, h]
  | cons p t ih =>
    obtain ⟨k2, v2⟩ := p
    unfold mapInsertFB
    by_cases h1 : k < k2
    · rw [if_pos h1]
      simp only [mapFindFB, if_neg h]
    · rw [if_neg h1]
      by_cases h2 : k = k2
      · rw [if_pos h2]
      · rw [if_neg h2]
        simp only [mapFindFB]
        by_cases h3 : k' = k2
        · rw [if_pos h3, if_pos h3]
        · rw [if_neg h3, if_neg h3]
          exact ih

theorem mapSetFB_cons {k k' : String} {v : FbInfoTarget} {t : Ledger}
    {f : FbInfoTarget → FbInfoTarget} :
    mapSetFB ((k', v) :: t) k f
      = (if k' = k then (k', f v) else (k', v)) :: mapSetFB t k f := by
  simp only [mapSetFB, List.map_cons]

theorem mapFindFB_set_self {m : Ledger} {k : String} {f : FbInfoTarget → FbInfoTarget} :
    mapFindFB (mapSetFB m k f) k = (mapFindFB m k).map f := by
  induction m with
  | nil => simp [mapSetFB, mapFindFB]
  | cons p t ih =>
    obtain ⟨k', v⟩ := p
    rw [mapSetFB_cons]
    by_cases hk : k' = k
    · subst hk
      rw [if_pos rfl]
      simp [mapFindFB]
    · rw [if_neg hk]
      simp only [mapFindFB]
      rw [if_neg (fun hh => hk hh.symm), if_neg (fun hh => hk hh.symm)]
      exact ih

theorem mapFindFB_set_ne {m : Ledger} {k k' : String} {f : FbInfoTarget → FbInfoTarget}
    (h : k' ≠ k) : mapFindFB (mapSetFB m k f) k' = mapFindFB m k' := by
  induction m with
  | nil => simp [mapSetFB, mapFindFB]
  | cons p t ih =>
    obtain ⟨k2, v⟩ := p
    rw [mapSetFB_cons]
    by_cases hk : k2 = k
    · rw [if_pos hk]
      simp only [mapFindFB]
      rw [if_neg (hk ▸ h), if_neg (hk ▸ h)]
      exact ih
    · rw [if_neg hk]
      simp only [mapFindFB]
      by_cases h3 : k' = k2
      · rw [if_pos h3, if_pos h3]
      · rw [if_neg h3, if_neg h3]
        exact ih

theorem keys_mapSetFB {m : Ledger} {k : String} {f : FbInfoTarget → FbInfoTarget} :
    (mapSetFB m k f).map Prod.fst = m.map Prod.fst := by
  induction m with
  | nil => rfl
  | cons p t ih =>
    obtain ⟨k', v⟩ := p
    rw [mapSetFB_cons]
    by_cases hk : k' = k
    · rw [if_pos hk]
      simp only [List.map_cons, ih]
    · rw [if_neg hk]
      simp only [List.map_cons, ih]

theorem mapInsertFB_perm {m : Ledger} {k : String} {v : FbInfoTarget}
    (h : mapFindFB m k = none) : (mapInsertFB k v m).Perm ((k, v) :: m) := by
  induction m with
  | nil => simp [mapInsertFB]
  | cons p t ih =>
    obtain ⟨k', v'⟩ := p
    simp only [mapFindFB] at h
    by_cases hk : k = k'
    · simp [hk] at h
    · rw [if_neg hk] at h
      unfold mapInsertFB
      by_cases h1 : k < k'
      · rw [if_pos h1]
      · rw [if_neg h1, if_neg hk]
        exact ((ih h).cons (k', v')).trans (List.Perm.swap (k, v) (k', v') t)

/-! ## `CanTreatTargetFB` (C3) -/

/-- Embedding of `cmGlobalFastbuildGenerator::CanTreatTargetFB` (lines
268-277): reads the entry through `std::map::operator[]` — inserting a
value-initialized entry when the key is absent — and reports whether the
target can be treated (`number_untrated_deps > 0` or `is_treated` forbid
it). Returns the answer together with the possibly extended ledger. -/
def canTreatTargetFB (m : Ledger) (gtName config : String) : Bool × Ledger :=
  let target_name := gtName ++ config
  let em := mapIndexFB m target_name
  if em.1.number_untrated_deps > 0 || em.1.is_treated then (false, em.2)
  else (true, em.2)

/-- C3 counterexample: on an empty ledger and the never-registered key
`"X"`, the claim requires `can_generate` to be false (no entry exists) and
to leave the ledger unchanged; `CanTreatTargetFB` returns true and inserts
a value-initialized entry for `"X"` (`std::map::operator[]`). -/
theorem claim_C3_counterexample :
    (canTreatTargetFB [] "X" "").1 = true ∧
    (canTreatTargetFB [] "X" "").2 ≠ ([] : Ledger) ∧
    mapFindFB ([] : Ledger) ("X" ++ "") = none := by
  decide

/-- C3 amended: when an entry for the key exists, `CanTreatTargetFB`
returns true iff its outstanding count is at most zero (not: exactly zero)
and its finished flag is false, and leaves the ledger unchanged; when no
entry exists, it returns true and inserts a value-initialized entry for
the key as a side effect. -/
theorem claim_C3_amended (m : Ledger) (gtName config : String) :
    (∀ e, mapFindFB m (gtName ++ config) = some e →
      ((canTreatTargetFB m gtName config).1 = true ↔
        (e.number_untrated_deps ≤ 0 ∧ e.is_treated = false)) ∧
      (canTreatTargetFB m gtName config).2 = m) ∧
    (mapFindFB m (gtName ++ config) = none →
      (canTreatTargetFB m gtName config).1 = true ∧
      (canTreatTargetFB m gtName config).2
        = mapInsertFB (gtName ++ config) default m ∧
      mapFindFB (canTreatTargetFB m gtName config).2 (gtName ++ config)
        = some default) := by
  constructor
  · intro e he
    unfold canTreatTargetFB mapIndexFB
    dsimp only
    rw [he]
    dsimp only
    by_cases hb : e.number_untrated_deps > 0 ∨ e.is_treated = true
    · rw [if_pos (by
        rcases hb with hb | hb
        · simp [hb]
        · simp [hb])]
      constructor
      · constructor
        · intro hf
          cases hf
        · rintro ⟨h1, h2⟩
          rcases hb with hb | hb
          · omega
          · rw [h2] at hb
            cases hb
      · rfl
    · push_neg at hb
      rw [if_neg (by
        simp only [Bool.or_eq_true, decide_eq_true_eq, Bool.not_eq_true]
        push_neg
        exact ⟨hb.1, by simpa using hb.2⟩)]
      constructor
      · constructor
        · intro _
          exact ⟨by omega, by simpa using hb.2⟩
        · intro _
          rfl
      · rfl
  · intro he
    unfold canTreatTargetFB mapIndexFB
    dsimp only
    rw [he]
    dsimp only
    rw [if_neg (by decide)]
    exact ⟨rfl, rfl, mapFindFB_insert_self he⟩

/-- Witness for C3 amended at a concrete present entry and a concrete
absent key. -/
theorem claim_C3_witness :
    (((canTreatTargetFB [("A", ⟨false, "", [], 0, default⟩)] "A" "").1 = true ↔
      ((0 : Int) ≤ 0 ∧ false = false)) ∧
     (canTreatTargetFB [("A", ⟨false, "", [], 0, default⟩)] "A" "").2
        = [("A", ⟨false, "", [], 0, default⟩)]) ∧
    ((canTreatTargetFB [] "X" "").1 = true ∧
     (canTreatTargetFB [] "X" "").2 = mapInsertFB ("X" ++ "") default [] ∧
     mapFindFB (canTreatTargetFB [] "X" "").2 ("X" ++ "") = some default) := by
  constructor
  · have h := (claim_C3_amended [("A", ⟨false, "", [], 0, default⟩)] "A" "").1
      ⟨false, "", [], 0, default⟩ (by decide)
    exact h
  · exact (claim_C3_amended [] "X" "").2 (by decide)

/-! ## Registration and the Readiness Scheduler -/

/-- Embedding of `cmGlobalFastbuildGenerator::GetNumberUntratedDepsTarget`
(lines 251-266): count the dependency occurrences other than the target
itself that are either registered and untreated, or not registered at
all. -/
def getNumberUntratedDepsTarget (m : Ledger) (target_name : String)
    (name_target_deps : List String) : Int :=
  name_target_deps.foldl (fun numberDepsTarget name_target =>
    if name_target ≠ target_name then
      match mapFindFB m name_target with
      | some e => if !e.is_treated then numberDepsTarget + 1 else numberDepsTarget
      | none => numberDepsTarget + 1
    else numberDepsTarget) 0

/-- Embedding of `cmGlobalFastbuildGenerator::AddFastbuildInfoTarget`
(lines 234-249): idempotent registration of a `(target, config)` key with
its dependency list and initial outstanding count. -/
def addFastbuildInfoTarget (m : Ledger) (gt : CmTarget)
    (name_target_deps : List String) (config : String) : Ledger :=
  let target_name := gt.name ++ config
  match mapFindFB m target_name with
  | some _ => m
  | none =>
    mapInsertFB target_name
      { is_treated := false, config := config, name_target_deps := name_target_deps,
        number_untrated_deps := getNumberUntratedDepsTarget m target_name name_target_deps,
        gt := gt } m

/-- Observable events of a generation pass. `genBegin`/`genEnd` bracket
one `WriteTargetFB` invocation; `genBody` stands for its emission body
(the compiler, object-list and artifact blocks, all written before
`TargetTreatedFinish` runs); `decT` records every decrement of an
outstanding count together with the value written; `errLang` is the
missing-linker-language error. -/
inductive Ev where
  | errLang (name : String)
  | genBegin (key : String)
  | genBody (key : String)
  | decT (key : String) (newCount : Int)
  | genEnd (key : String)
deriving DecidableEq, Repr

/-- The inner dependency walk of `TargetTreatedFinish` on one visited
entry (lines 285-288): one decrement per occurrence of the finished key in
the visited entry's dependency list, with a `decT` event recording each
intermediate count value. -/
def decDepsFold (finishedKey entryKey : String) (count : Int) :
    List String → Int × List Ev
  | [] => (count, [])
  | dep :: rest =>
    if finishedKey = dep then
      let r := decDepsFold finishedKey entryKey (count - 1) rest
      (r.1, Ev.decT entryKey (count - 1) :: r.2)
    else decDepsFold finishedKey entryKey count rest

mutual

/-- Embedding of `cmFastbuildNormalTargetGenerator::Generate` (lines
63-121) restricted to its ledger-relevant actions: the linker-language
check with its error report and early return, the registration of the
`(target, config)` key, the `CanTreatTargetFB` query and the conditional
`WriteTargetFB` call. The per-config build-statement emission between
those steps does not touch the ledger and is not modelled. -/
def generateFB (fuel : Nat) (m : Ledger) (gt : CmTarget) (config : String) :
    Ledger × List Ev :=
  if gt.linkLangEmpty then (m, [Ev.errLang gt.name])
  else
    let m1 := addFastbuildInfoTarget m gt gt.deps config
    let cm := canTreatTargetFB m1 gt.name config
    if cm.1 then writeTargetFB fuel cm.2 gt config else (cm.2, [])
termination_by (fuel, 0, 2)

/-- Embedding of `cmFastbuildNormalTargetGenerator::WriteTargetFB` (lines
354-410): the emission body (begin/body events) followed by
`TargetTreatedFinish` as its final statement — the invocation returns
(`genEnd`) only after the completion cascade. -/
def writeTargetFB (fuel : Nat) (m : Ledger) (gt : CmTarget) (config : String) :
    Ledger × List Ev :=
  let key := gt.name ++ config
  let r := targetTreatedFinish fuel m gt config
  (r.1, Ev.genBegin key :: Ev.genBody key :: r.2 ++ [Ev.genEnd key])
termination_by (fuel, 0, 1)

/-- Embedding of `cmGlobalFastbuildGenerator::TargetTreatedFinish` (lines
279-296): set the finished flag through `operator[]`, then walk every
ledger entry. `fuel` bounds the cascade depth; the lemmas below show a
fuel exceeding the number of untreated entries is never exhausted. -/
def targetTreatedFinish (fuel : Nat) (m : Ledger) (gt : CmTarget) (config : String) :
    Ledger × List Ev :=
  match fuel with
  | 0 => (m, [])
  | fuel' + 1 =>
    let target_name := gt.name ++ config
    let em := mapIndexFB m target_name
    let m2 := mapSetFB em.2 target_name (fun x => { x with is_treated := true })
    finishLoop fuel' m2 target_name (m2.map Prod.fst)
termination_by (fuel, 0, 0)

/-- The per-entry body of the `TargetTreatedFinish` loop (lines 283-295):
decrement the visited entry once per occurrence of the finished key in its
dependency list, then — reading the live map for the config argument as
the source does — treat it immediately when `CanTreatTargetFB` allows it,
recursing into the full `Generate`. The `gt` back-reference is never
mutated, so the snapshot `fit.gt` equals the live value the source reads. -/
def finishLoop (fuel : Nat) (m : Ledger) (target_name : String) :
    List String → Ledger × List Ev
  | [] => (m, [])
  | f :: rest =>
    match mapFindFB m f with
    | none => finishLoop fuel m target_name rest
    | some fit =>
      let dc := decDepsFold target_name f fit.number_untrated_deps fit.name_target_deps
      let m1 := mapSetFB m f (fun x => { x with number_untrated_deps := dc.1 })
      let liveCfg :=
        match mapFindFB m1 f with
        | some x => x.config
        | none => ""
      let cm := canTreatTargetFB m1 fit.gt.name liveCfg
      if cm.1 then
        let g := generateFB fuel cm.2 fit.gt liveCfg
        let r := finishLoop fuel g.1 target_name rest
        (r.1, dc.2 ++ g.2 ++ r.2)
      else
        let r := finishLoop fuel cm.2 target_name rest
        (r.1, dc.2 ++ r.2)
termination_by l => (fuel, 1, l.length)

end

/-- One organically processed (target, configuration) item of the global
generation pass. The driver that walks the local generators and calls
`cmFastbuildNormalTargetGenerator::Generate` per target and configuration
(`this->cmGlobalGenerator::Generate()` at line 887) is outside these
sources, so per spec §2 the organic pass is modelled as an arbitrary list
of such items. -/
structure OrganicItem where
  gt : CmTarget
  config : String
deriving DecidableEq, Repr

/-- The organic per-target pass: `Generate` once per item, in order. -/
def organicPass (fuel : Nat) (m : Ledger) : List OrganicItem → Ledger × List Ev
  | [] => (m, [])
  | it :: rest =>
    let g := generateFB fuel m it.gt it.config
    let r := organicPass fuel g.1 rest
    (r.1, g.2 ++ r.2)

/-- The treatment of one unfinished entry by
`cmGlobalFastbuildGenerator::DecrementNbDepsTargetUnexist` (lines
298-313): one decrement per dependency occurrence that has no ledger
entry. -/
def sweepEntry (m : Ledger) (f : String) : Ledger × List Ev :=
  match mapFindFB m f with
  | none => (m, [])
  | some fit =>
    if fit.is_treated then (m, [])
    else
      let dc := fit.name_target_deps.foldl (fun (st : Int × List Ev) dep =>
        match mapFindFB m dep with
        | some _ => st
        | none => (st.1 - 1, st.2 ++ [Ev.decT f (st.1 - 1)])) (fit.number_untrated_deps, [])
      (mapSetFB m f (fun x => { x with number_untrated_deps := dc.1 }), dc.2)

/-- Embedding of `cmGlobalFastbuildGenerator::DecrementNbDepsTargetUnexist`
(lines 298-313): walk every entry, decrementing unfinished entries once
per unregistered dependency occurrence. -/
def decrementNbDepsTargetUnexist (m : Ledger) : Ledger × List Ev :=
  (m.map Prod.fst).foldl (fun (st : Ledger × List Ev) f =>
    let r := sweepEntry st.1 f
    (r.1, st.2 ++ r.2)) (m, [])

/-- The loop of `lastChanceToTreatTargets` (lines 318-326): for every
entry still unfinished at its visit, query `CanTreatTargetFB` and run the
full `Generate` on the live entry when it allows it. -/
def lastChanceLoop (fuel : Nat) (m : Ledger) : List String → Ledger × List Ev
  | [] => (m, [])
  | f :: rest =>
    match mapFindFB m f with
    | none => lastChanceLoop fuel m rest
    | some fit =>
      if !fit.is_treated then
        let cm := canTreatTargetFB m fit.gt.name fit.config
        if cm.1 then
          let g :=
            match mapFindFB cm.2 f with
            | some live => generateFB fuel cm.2 live.gt live.config
            | none => (cm.2, [])
          let r := lastChanceLoop fuel g.1 rest
          (r.1, g.2 ++ r.2)
        else lastChanceLoop fuel cm.2 rest
      else lastChanceLoop fuel m rest

/-- Embedding of `cmGlobalFastbuildGenerator::lastChanceToTreatTargets`
(lines 315-327): the unregistered-dependency sweep followed by the forced
generation loop. -/
def lastChanceToTreatTargets (fuel : Nat) (m : Ledger) : Ledger × List Ev :=
  let s := decrementNbDepsTargetUnexist m
  let r := lastChanceLoop fuel s.1 (s.1.map Prod.fst)
  (r.1, s.2 ++ r.2)

/-- A full generation pass (`cmGlobalFastbuildGenerator::Generate`, lines
837-892, ledger-relevant part): the organic per-target pass followed by
`lastChanceToTreatTargets`, starting from an empty ledger. The fuel bound
`items.length + 1` is shown sufficient by the lemmas below. -/
def runFB (items : List OrganicItem) : Ledger × List Ev :=
  let fuel := items.length + 1
  let o := organicPass fuel [] items
  let r := lastChanceToTreatTargets fuel o.1
  (r.1, o.2 ++ r.2)

/-! ## Concrete refutations (C1 literal ordering, C4 non-negativity) -/

/-- C1 counterexample: for the project `{A → [B], B → []}` processed in
the order `A, B` (one configuration, both targets registered), `A` is
generated recursively from inside `B`'s completion cascade, which runs as
the final statement of `B`'s `WriteTargetFB`: `A`'s Per-Target Generator
invocation begins (index 3) strictly before `B`'s invocation completes
(index 6), refuting the claim that `B`'s invocation completes before
`A`'s begins. -/
theorem claim_C1_counterexample :
    (runFB [⟨⟨"A", false, ["B"]⟩, ""⟩, ⟨⟨"B", false, []⟩, ""⟩]).2
      = [Ev.genBegin "B", Ev.genBody "B", Ev.decT "A" 0, Ev.genBegin "A",
         Ev.genBody "A", Ev.genEnd "A", Ev.genEnd "B"] ∧
    (runFB [⟨⟨"A", false, ["B"]⟩, ""⟩, ⟨⟨"B", false, []⟩, ""⟩]).2.get? 3
      = some (Ev.genBegin "A") ∧
    (runFB [⟨⟨"A", false, ["B"]⟩, ""⟩, ⟨⟨"B", false, []⟩, ""⟩]).2.get? 6
      = some (Ev.genEnd "B") ∧
    (∃ e, mapFindFB (runFB [⟨⟨"A", false, ["B"]⟩, ""⟩, ⟨⟨"B", false, []⟩, ""⟩]).1 "A"
        = some e ∧ "B" ∈ e.name_target_deps) ∧
    (mapFindFB (runFB [⟨⟨"A", false, ["B"]⟩, ""⟩, ⟨⟨"B", false, []⟩, ""⟩]).1 "B").isSome
      = true := by
  simp +decide [runFB, organicPass, generateFB, writeTargetFB, targetTreatedFinish,
    finishLoop, canTreatTargetFB, mapIndexFB, addFastbuildInfoTarget,
    getNumberUntratedDepsTarget, mapFindFB, mapInsertFB, mapSetFB, decDepsFold,
    sweepEntry, decrementNbDepsTargetUnexist, lastChanceLoop, lastChanceToTreatTargets]

/-- C4 counterexample: a target whose dependency list contains its own key
(the case the claim explicitly includes) has its outstanding count
decremented to `-1` by its own completion cascade — registration excludes
the self-dependency from the count but `TargetTreatedFinish` decrements
for every occurrence of the finished key, the entry's own included. -/
theorem claim_C4_counterexample :
    Ev.decT "T" (-1) ∈ (runFB [⟨⟨"T", false, ["T"]⟩, ""⟩]).2 ∧
    mapFindFB (runFB [⟨⟨"T", false, ["T"]⟩, ""⟩]).1 "T"
      = some ⟨true, "", ["T"], -1, ⟨"T", false, ["T"]⟩⟩ := by
  simp +decide [runFB, organicPass, generateFB, writeTargetFB, targetTreatedFinish,
    finishLoop, canTreatTargetFB, mapIndexFB, addFastbuildInfoTarget,
    getNumberUntratedDepsTarget, mapFindFB, mapInsertFB, mapSetFB, decDepsFold,
    sweepEntry, decrementNbDepsTargetUnexist, lastChanceLoop, lastChanceToTreatTargets]

/-- The initial outstanding count computed at registration is never
negative. -/
theorem getNumberUntratedDepsTarget_nonneg (m : Ledger) (target_name : String)
    (deps : List String) : 0 ≤ getNumberUntratedDepsTarget m target_name deps := by
  unfold getNumberUntratedDepsTarget
  suffices h : ∀ (init : Int), init ≤ deps.foldl (fun numberDepsTarget name_target =>
      if name_target ≠ target_name then
        match mapFindFB m name_target with
        | some e => if !e.is_treated then numberDepsTarget + 1 else numberDepsTarget
        | none => numberDepsTarget + 1
      else numberDepsTarget) init by
    exact h 0
  induction deps with
  | nil => intro init; simp
  | cons d rest ih =>
    intro init
    rw [List.foldl_cons]
    refine le_trans ?_ (ih _)
    by_cases hd : d ≠ target_name
    · rw [if_pos hd]
      cases mapFindFB m d with
      | some e =>
        dsimp only
        by_cases ht : e.is_treated
        · simp [ht]
        · simp [ht]
      | none => simp
    · rw [if_neg hd]

/-! ## Ledger support lemmas for the scheduler proofs -/

theorem mapFindFB_eq_none_iff {m : Ledger} {k : String} :
    mapFindFB m k = none ↔ k ∉ m.map Prod.fst := by
  induction m with
  | nil => simp [mapFindFB]
  | cons p t ih =>
    obtain ⟨k', v⟩ := p
    simp only [mapFindFB, List.map_cons, List.mem_cons]
    by_cases hk : k = k'
    · simp [hk]
    · simp only [if_neg hk, ih]
      constructor
      · rintro h (h1 | h2)
        · exact hk h1
        · exact h h2
      · intro h hmem
        exact h (Or.inr hmem)

theorem mem_of_mapFindFB {m : Ledger} {k : String} {e : FbInfoTarget}
    (h : mapFindFB m k = some e) : (k, e) ∈ m := by
  induction m with
  | nil => simp [mapFindFB] at h
  | cons p t ih =>
    obtain ⟨k', v⟩ := p
    simp only [mapFindFB] at h
    by_cases hk : k = k'
    · rw [if_pos hk] at h
      cases h
      simp [hk]
    · rw [if_neg hk] at h
      exact List.mem_cons_of_mem _ (ih h)

theorem mapFindFB_of_mem {m : Ledger} {k : String} {e : FbInfoTarget}
    (hnd : (m.map Prod.fst).Nodup) (h : (k, e) ∈ m) : mapFindFB m k = some e := by
  induction m with
  | nil => simp at h
  | cons p t ih =>
    obtain ⟨k', v⟩ := p
    simp only [List.map_cons, List.nodup_cons] at hnd
    rcases List.mem_cons.mp h with h1 | h2
    · cases h1
      simp [mapFindFB]
    · have hk : k ≠ k' := by
        intro hkk
        subst hkk
        exact hnd.1 (List.mem_map.mpr ⟨(k, e), h2, rfl⟩)
      simp only [mapFindFB, if_neg hk]
      exact ih hnd.2 h2

theorem nodup_keys_mapInsertFB {m : Ledger} {k : String} {v : FbInfoTarget}
    (h : mapFindFB m k = none) (hnd : (m.map Prod.fst).Nodup) :
    ((mapInsertFB k v m).map Prod.fst).Nodup := by
  have hperm := (mapInsertFB_perm (v := v) h).map Prod.fst
  rw [List.Perm.nodup_iff hperm]
  simp only [List.map_cons, List.nodup_cons]
  exact ⟨mapFindFB_eq_none_iff.mp h, hnd⟩

theorem nodup_keys_mapSetFB {m : Ledger} {k : String} {f : FbInfoTarget → FbInfoTarget}
    (hnd : (m.map Prod.fst).Nodup) : ((mapSetFB m k f).map Prod.fst).Nodup := by
  rw [keys_mapSetFB]
  exact hnd

/-- The number of entries not yet finished. -/
def untreatedCount (m : Ledger) : Nat :=
  (m.filter (fun p => !p.2.is_treated)).length

/-- Whether the key has a finished entry. -/
def isTreatedIn (m : Ledger) (k : String) : Bool :=
  match mapFindFB m k with
  | some e => e.is_treated
  | none => false

/-- Whether the key has a ledger entry. -/
def presentIn (m : Ledger) (k : String) : Bool := (mapFindFB m k).isSome

/-- Whether a dependency occurrence still counts toward an outstanding
count: a registered untreated dependency always counts; an unregistered
one counts before the unregistered-dependency sweep (`ph = false`) and no
longer counts after it (`ph = true`). -/
def countedDep (ph : Bool) (m : Ledger) (d : String) : Bool :=
  match mapFindFB m d with
  | some e => !e.is_treated
  | none => !ph

/-- The number of counted non-self dependency occurrences of an entry. -/
def countedOcc (ph : Bool) (m : Ledger) (selfKey : String) (deps : List String) : Nat :=
  (deps.filter (fun d => d ≠ selfKey && countedDep ph m d)).length

/-- The dependency list of the entry at a key (empty when absent; never
changes once registered). -/
def depsOfKey (m : Ledger) (j : String) : List String :=
  match mapFindFB m j with
  | some e => e.name_target_deps
  | none => []

theorem mapSetFB_of_absent {m : Ledger} {k : String} {f : FbInfoTarget → FbInfoTarget}
    (h : mapFindFB m k = none) : mapSetFB m k f = m := by
  induction m with
  | nil => rfl
  | cons p t ih =>
    obtain ⟨k', v⟩ := p
    simp only [mapFindFB] at h
    by_cases hk : k = k'
    · simp [hk] at h
    · rw [if_neg hk] at h
      rw [mapSetFB_cons, if_neg (fun hh => hk hh.symm), ih h]

theorem untreatedCount_perm {m m' : Ledger} (h : m.Perm m') :
    untreatedCount m = untreatedCount m' := by
  unfold untreatedCount
  exact (h.filter _).length_eq

theorem untreatedCount_insert {m : Ledger} {k : String} {v : FbInfoTarget}
    (h : mapFindFB m k = none) (hv : v.is_treated = false) :
    untreatedCount (mapInsertFB k v m) = untreatedCount m + 1 := by
  rw [untreatedCount_perm (mapInsertFB_perm h)]
  unfold untreatedCount
  simp [List.filter_cons, hv, Nat.add_comm]

theorem untreatedCount_set_treated {m : Ledger} {k : String} {e : FbInfoTarget}
    (hnd : (m.map Prod.fst).Nodup) (hfind : mapFindFB m k = some e)
    (he : e.is_treated = false) :
    untreatedCount m
      = untreatedCount (mapSetFB m k (fun x => { x with is_treated := true })) + 1 := by
  induction m with
  | nil => simp [mapFindFB] at hfind
  | cons p t ih =>
    obtain ⟨k', v⟩ := p
    simp only [List.map_cons, List.nodup_cons] at hnd
    simp only [mapFindFB] at hfind
    rw [mapSetFB_cons]
    by_cases hk : k = k'
    · rw [if_pos hk] at hfind
      cases hfind
      rw [if_pos hk.symm]
      have habs : mapFindFB t k = none := by
        rw [mapFindFB_eq_none_iff]
        rw [hk]
        exact hnd.1
      rw [mapSetFB_of_absent habs]
      unfold untreatedCount
      simp only [List.filter_cons]
      simp [he]
    · rw [if_neg hk] at hfind
      rw [if_neg (fun hh => hk hh.symm)]
      have hih := ih hnd.2 hfind
      unfold untreatedCount at hih ⊢
      simp only [List.filter_cons]
      by_cases hvt : v.is_treated
      · simp only [hvt]
        simpa using hih
      · simp only [Bool.not_eq_true] at hvt
        simp only [hvt]
        simp only [Bool.not_false, if_true]
        simp only [List.length_cons]
        omega

theorem untreatedCount_set_count {m : Ledger} {k : String}
    {f : FbInfoTarget → FbInfoTarget} (hf : ∀ x, (f x).is_treated = x.is_treated) :
    untreatedCount (mapSetFB m k f) = untreatedCount m := by
  induction m with
  | nil => rfl
  | cons p t ih =>
    obtain ⟨k', v⟩ := p
    rw [mapSetFB_cons]
    unfold untreatedCount at ih ⊢
    by_cases hk : k' = k
    · rw [if_pos hk]
      simp only [List.filter_cons, hf v]
      by_cases hvt : v.is_treated
      · simp only [hvt]
        simpa using ih
      · simp only [Bool.not_eq_true] at hvt
        simp only [hvt, Bool.not_false, if_true, List.length_cons]
        omega
    · rw [if_neg hk]
      simp only [List.filter_cons]
      by_cases hvt : v.is_treated
      · simp only [hvt]
        simpa using ih
      · simp only [Bool.not_eq_true] at hvt
        simp only [hvt, Bool.not_false, if_true, List.length_cons]
        omega

/-! ### Counted-occurrence transformation lemmas -/

theorem countedDep_insert_untreated {ph : Bool} {m : Ledger} {k0 : String}
    {v : FbInfoTarget} (h : mapFindFB m k0 = none) (hv : v.is_treated = false)
    (hph : ph = false) (d : String) :
    countedDep ph (mapInsertFB k0 v m) d = countedDep ph m d := by
  subst hph
  unfold countedDep
  by_cases hd : d = k0
  · subst hd
    rw [mapFindFB_insert_self h, h]
    simp [hv]
  · rw [mapFindFB_insert_ne hd]

theorem countedOcc_insert_untreated {m : Ledger} {k0 : String} {v : FbInfoTarget}
    (h : mapFindFB m k0 = none) (hv : v.is_treated = false)
    (selfKey : String) (deps : List String) :
    countedOcc false (mapInsertFB k0 v m) selfKey deps = countedOcc false m selfKey deps := by
  unfold countedOcc
  congr 1
  apply List.filter_congr
  intro d _
  rw [countedDep_insert_untreated h hv rfl]

theorem countedDep_set_count {ph : Bool} {m : Ledger} {j : String}
    {f : FbInfoTarget → FbInfoTarget} (hf : ∀ x, (f x).is_treated = x.is_treated)
    (d : String) : countedDep ph (mapSetFB m j f) d = countedDep ph m d := by
  unfold countedDep
  by_cases hd : d = j
  · subst hd
    rw [mapFindFB_set_self]
    cases mapFindFB m d with
    | none => rfl
    | some e => simp [hf e]
  · rw [mapFindFB_set_ne hd]

theorem countedOcc_set_count {ph : Bool} {m : Ledger} {j : String}
    {f : FbInfoTarget → FbInfoTarget} (hf : ∀ x, (f x).is_treated = x.is_treated)
    (selfKey : String) (deps : List String) :
    countedOcc ph (mapSetFB m j f) selfKey deps = countedOcc ph m selfKey deps := by
  unfold countedOcc
  congr 1
  apply List.filter_congr
  intro d _
  rw [countedDep_set_count hf]

theorem countedDep_set_treated {ph : Bool} {m : Ledger} {k : String}
    (d : String) :
    countedDep ph (mapSetFB m k (fun x => { x with is_treated := true })) d
      = if d = k then (if presentIn m k then false else countedDep ph m d)
        else countedDep ph m d := by
  unfold countedDep presentIn
  by_cases hd : d = k
  · subst hd
    rw [mapFindFB_set_self]
    cases h : mapFindFB m d with
    | none => simp [h]
    | some e => simp [h]
  · rw [if_neg hd, mapFindFB_set_ne hd]

theorem countedOcc_set_treated {ph : Bool} {m : Ledger} {k : String} {e : FbInfoTarget}
    (hfind : mapFindFB m k = some e) (he : e.is_treated = false)
    (selfKey : String) (deps : List String) :
    countedOcc ph m selfKey deps
      = countedOcc ph (mapSetFB m k (fun x => { x with is_treated := true })) selfKey deps
        + (if k = selfKey then 0 else deps.count k) := by
  have hcd : countedDep ph m k = true := by
    unfold countedDep
    rw [hfind]
    simp [he]
  have hpres : presentIn m k = true := by
    unfold presentIn
    rw [hfind]
    rfl
  induction deps with
  | nil => simp [countedOcc]
  | cons d rest ih =>
    unfold countedOcc at ih ⊢
    simp only [List.filter_cons, List.count_cons]
    by_cases hd : d = k
    · by_cases hself : k = selfKey
      · have hds : decide (d ≠ selfKey) = false := by
          simp [hd, hself]
        rw [hds]
        simp only [Bool.false_and, Bool.false_eq_true, if_false]
        simp only [if_pos hself] at ih ⊢
        simpa using ih
      · have h1 : (decide (d ≠ selfKey) && countedDep ph m d) = true := by
          rw [hd]
          simp [hself, hcd]
        have h2 : (decide (d ≠ selfKey) &&
            countedDep ph (mapSetFB m k (fun x => { x with is_treated := true })) d) = false := by
          rw [hd, countedDep_set_treated, if_pos rfl, if_pos hpres]
          simp
        have h2' : ¬ ((decide (d ≠ selfKey) &&
            countedDep ph (mapSetFB m k (fun x => { x with is_treated := true })) d) = true) := by
          rw [h2]
          simp
        rw [if_pos h1, if_neg h2']
        simp only [if_neg hself] at ih ⊢
        have hdk : (d == k) = true := by simp [hd]
        rw [hdk]
        simp only [List.length_cons, if_true]
        omega
    · have hsame : countedDep ph (mapSetFB m k (fun x => { x with is_treated := true })) d
          = countedDep ph m d := by
        rw [countedDep_set_treated, if_neg hd]
      rw [hsame]
      have hdk : (d == k) = false := by simp [hd]
      rw [hdk]
      simp only [Bool.false_eq_true, if_false, Nat.add_zero]
      by_cases hkeep : (decide (d ≠ selfKey) && countedDep ph m d) = true
      · rw [if_pos hkeep, if_pos hkeep]
        by_cases hks : k = selfKey
        · simp only [if_pos hks] at ih ⊢
          simp only [List.length_cons]
          omega
        · simp only [if_neg hks] at ih ⊢
          simp only [List.length_cons]
          omega
      · rw [if_neg hkeep, if_neg hkeep]
        exact ih

theorem countedOcc_phase_sweep {m : Ledger} {selfKey : String}
    (hpres : presentIn m selfKey = true) (deps : List String) :
    countedOcc false m selfKey deps
      = countedOcc true m selfKey deps
        + (deps.filter (fun d => (mapFindFB m d).isNone)).length := by
  induction deps with
  | nil => simp [countedOcc]
  | cons d rest ih =>
    unfold countedOcc at ih ⊢
    simp only [List.filter_cons]
    cases hfd : mapFindFB m d with
    | none =>
      have hdself : d ≠ selfKey := by
        intro hh
        subst hh
        unfold presentIn at hpres
        rw [hfd] at hpres
        cases hpres
      have h1 : (decide (d ≠ selfKey) && countedDep false m d) = true := by
        unfold countedDep
        rw [hfd]
        simp [hdself]
      have h2 : (decide (d ≠ selfKey) && countedDep true m d) = false := by
        unfold countedDep
        rw [hfd]
        simp
      have h2' : ¬ ((decide (d ≠ selfKey) && countedDep true m d) = true) := by
        rw [h2]
        simp
      rw [if_pos h1, if_neg h2',
        if_pos (show (none : Option FbInfoTarget).isNone = true from rfl)]
      simp only [List.length_cons]
      omega
    | some e =>
      have hsame : countedDep false m d = countedDep true m d := by
        unfold countedDep
        rw [hfd]
      rw [hsame, if_neg (show ¬ ((some e).isNone = true) by simp)]
      by_cases hkeep : (decide (d ≠ selfKey) && countedDep true m d) = true
      · rw [if_pos hkeep, if_pos hkeep]
        simp only [List.length_cons]
        omega
      · rw [if_neg hkeep, if_neg hkeep]
        exact ih

/-- The registration count equals the counted non-self occurrences before
the sweep. -/
theorem getNumberUntratedDepsTarget_eq_countedOcc (m : Ledger) (target_name : String)
    (deps : List String) :
    getNumberUntratedDepsTarget m target_name deps
      = (countedOcc false m target_name deps : Int) := by
  unfold getNumberUntratedDepsTarget
  suffices h : ∀ (init : Int), deps.foldl (fun numberDepsTarget name_target =>
      if name_target ≠ target_name then
        match mapFindFB m name_target with
        | some e => if !e.is_treated then numberDepsTarget + 1 else numberDepsTarget
        | none => numberDepsTarget + 1
      else numberDepsTarget) init = init + (countedOcc false m target_name deps : Int) by
    simpa using h 0
  induction deps with
  | nil => intro init; simp [countedOcc]
  | cons d rest ih =>
    intro init
    rw [List.foldl_cons]
    unfold countedOcc at ih ⊢
    simp only [List.filter_cons]
    by_cases hd : d ≠ target_name
    · rw [if_pos hd]
      cases hfd : mapFindFB m d with
      | none =>
        have hc : (decide (d ≠ target_name) && countedDep false m d) = true := by
          unfold countedDep
          rw [hfd]
          simp [hd]
        rw [if_pos hc]
        dsimp only
        rw [ih]
        push_cast [List.length_cons]
        ring
      | some e =>
        dsimp only
        by_cases ht : e.is_treated
        · have hc : (decide (d ≠ target_name) && countedDep false m d) = false := by
            unfold countedDep
            rw [hfd]
            simp [ht]
          have hc' : ¬ ((decide (d ≠ target_name) && countedDep false m d) = true) := by
            rw [hc]
            simp
          rw [if_neg hc']
          have ht1 : e.is_treated = true := by simpa using ht
          rw [ht1]
          simp only [Bool.not_true, Bool.false_eq_true, if_false]
          exact ih init
        · have hc : (decide (d ≠ target_name) && countedDep false m d) = true := by
            unfold countedDep
            rw [hfd]
            simp [hd, ht]
          rw [if_pos hc]
          have ht2 : e.is_treated = false := by simpa using ht
          rw [ht2]
          simp only [Bool.not_false, if_true]
          rw [ih]
          push_cast [List.length_cons]
          ring
    · rw [if_neg hd]
      have hc : (decide (d ≠ target_name) && countedDep false m d) = false := by
        simp only [ne_eq, Decidable.not_not] at hd
        simp [hd]
      have hc' : ¬ ((decide (d ≠ target_name) && countedDep false m d) = true) := by
        rw [hc]
        simp
      rw [if_neg hc']
      exact ih init

/-! ### Decrement fold characterizations -/

theorem decDepsFold_fst (key f : String) (deps : List String) :
    ∀ c : Int, (decDepsFold key f c deps).1 = c - (deps.count key : Int) := by
  induction deps with
  | nil => intro c; simp [decDepsFold]
  | cons d rest ih =>
    intro c
    unfold decDepsFold
    by_cases hk : key = d
    · rw [if_pos hk]
      dsimp only
      rw [ih]
      rw [List.count_cons, if_pos (by simp [hk])]
      push_cast
      ring
    · rw [if_neg hk]
      rw [ih]
      rw [List.count_cons,
        if_neg (by simp only [beq_iff_eq]; exact fun hh => hk hh.symm)]
      simp

theorem decDepsFold_events (key f : String) (deps : List String) :
    ∀ (c : Int) (ev : Ev), ev ∈ (decDepsFold key f c deps).2 →
      ∃ v, ev = Ev.decT f v ∧ c - (deps.count key : Int) ≤ v := by
  induction deps with
  | nil => intro c ev hev; simp [decDepsFold] at hev
  | cons d rest ih =>
    intro c ev hev
    unfold decDepsFold at hev
    by_cases hk : key = d
    · rw [if_pos hk] at hev
      dsimp only at hev
      rw [List.count_cons, if_pos (by simp [hk])]
      rcases List.mem_cons.mp hev with rfl | hmem
      · refine ⟨c - 1, rfl, ?_⟩
        have : (0 : Int) ≤ (rest.count key : Int) := Int.natCast_nonneg _
        push_cast
        omega
      · rcases ih (c - 1) ev hmem with ⟨v, rfl, hv⟩
        refine ⟨v, rfl, ?_⟩
        push_cast
        omega
    · rw [if_neg hk] at hev
      rw [List.count_cons,
        if_neg (by simp only [beq_iff_eq]; exact fun hh => hk hh.symm)]
      rcases ih c ev hev with ⟨v, rfl, hv⟩
      exact ⟨v, rfl, by simpa using hv⟩

theorem decDepsFold_no_gen (key f : String) (deps : List String) (c : Int) (j : String) :
    (decDepsFold key f c deps).2.count (Ev.genBegin j) = 0 ∧
    (decDepsFold key f c deps).2.count (Ev.genBody j) = 0 := by
  constructor <;>
  · rw [List.count_eq_zero]
    intro hmem
    rcases decDepsFold_events key f deps c _ hmem with ⟨v, hv, -⟩
    cases hv

/-! ### Ordering helpers on event prefixes -/

theorem mem_takeWhile_ne_trans {T : List Ev} {a c x : Ev}
    (hc : c ∈ T.takeWhile (fun e => e ≠ a))
    (hx : x ∈ T.takeWhile (fun e => e ≠ c)) :
    x ∈ T.takeWhile (fun e => e ≠ a) := by
  induction T with
  | nil => simp [List.takeWhile] at hc
  | cons h t ih =>
    by_cases hha : h = a
    · rw [List.takeWhile_cons, if_neg (by simp [hha])] at hc
      cases hc
    · rw [List.takeWhile_cons, if_pos (by simp [hha])] at hc ⊢
      by_cases hhc : h = c
      · rw [List.takeWhile_cons, if_neg (by simp [hhc])] at hx
        cases hx
      · rw [List.takeWhile_cons, if_pos (by simp [hhc])] at hx
        rcases List.mem_cons.mp hx with rfl | hx2
        · exact List.mem_cons_self _ _
        · rcases List.mem_cons.mp hc with rfl | hc2
          · exact absurd rfl hhc
          · exact List.mem_cons_of_mem _ (ih hc2 hx2)

theorem mem_takeWhile_mono_append {T E : List Ev} {P : Ev → Bool} {x : Ev}
    (h : x ∈ T.takeWhile P) : x ∈ (T ++ E).takeWhile P := by
  induction T with
  | nil => simp [List.takeWhile] at h
  | cons a t ih =>
    rw [List.takeWhile_cons] at h
    by_cases hp : P a
    · rw [if_pos hp] at h
      rw [List.cons_append, List.takeWhile_cons, if_pos hp]
      rcases List.mem_cons.mp h with rfl | h2
      · exact List.mem_cons_self _ _
      · exact List.mem_cons_of_mem _ (ih h2)
    · rw [if_neg hp] at h
      cases h

theorem takeWhile_append_all {T E : List Ev} {P : Ev → Bool}
    (hall : ∀ y ∈ T, P y) : (T ++ E).takeWhile P = T ++ E.takeWhile P := by
  induction T with
  | nil => simp
  | cons a t ih =>
    rw [List.cons_append, List.takeWhile_cons, if_pos (hall a (by simp))]
    rw [ih (fun y hy => hall y (by simp [hy]))]
    simp

theorem count_takeWhile_self_zero (T : List Ev) (a : Ev) :
    a ∉ T.takeWhile (fun e => e ≠ a) := by
  intro hmem
  have := List.mem_takeWhile_imp hmem
  simp at this

theorem mem_takeWhile_of_not_mem {T : List Ev} {a x : Ev}
    (hna : a ∉ T) (hx : x ∈ T) : x ∈ T.takeWhile (fun e => e ≠ a) := by
  induction T with
  | nil => cases hx
  | cons h t ih =>
    have hha : ¬ (h = a) := fun hh => hna (by simp [hh])
    rw [List.takeWhile_cons, if_pos (by simp [hha])]
    rcases List.mem_cons.mp hx with rfl | h2
    · exact List.mem_cons_self _ _
    · exact List.mem_cons_of_mem _
        (ih (fun hmem => hna (List.mem_cons_of_mem _ hmem)) h2)

/-! ### The scheduler invariant -/

/-- The quantitative per-entry invariant with pending-decrement debt `D`:
an untreated entry's count equals its counted non-self occurrences plus
its debt; a treated entry's count equals its debt minus its
self-occurrences, and all its non-self occurrences are discharged. -/
def EntryInv (ph : Bool) (m : Ledger) (D : String → Nat) (k : String)
    (e : FbInfoTarget) : Prop :=
  if e.is_treated then
    e.number_untrated_deps = (D k : Int) - (e.name_target_deps.count k : Int) ∧
    ∀ d ∈ e.name_target_deps, d ≠ k → countedDep ph m d = false
  else
    e.number_untrated_deps = (countedOcc ph m k e.name_target_deps : Int) + (D k : Int)

/-- The full scheduler invariant relating the ledger and the trace emitted
so far. `begins` ties the finished flags to the `genBegin` events (each
key generates at most once); `ordOk` states that a finished entry's
registered non-self dependencies all began before it did; `decsOk` states
that every decrement so far left a self-free entry's count non-negative. -/
structure SchedInv (ph : Bool) (m : Ledger) (D : String → Nat) (T : List Ev) : Prop where
  nodup : (m.map Prod.fst).Nodup
  wf : ∀ p ∈ m, p.2.gt.linkLangEmpty = false ∧ p.1 = p.2.gt.name ++ p.2.config ∧
      p.2.name_target_deps = p.2.gt.deps
  qinv : ∀ p ∈ m, EntryInv ph m D p.1 p.2
  begins : ∀ j, T.count (Ev.genBegin j) = (if isTreatedIn m j then 1 else 0)
  bodies : ∀ j, T.count (Ev.genBody j) = T.count (Ev.genBegin j)
  ordOk : ∀ k e, mapFindFB m k = some e → e.is_treated = true →
      ∀ d ∈ e.name_target_deps, d ≠ k → presentIn m d = true →
      Ev.genBegin d ∈ T.takeWhile (fun ev => ev ≠ Ev.genBegin k)
  decsOk : ∀ j v, Ev.decT j v ∈ T →
      (∀ e, mapFindFB m j = some e → j ∉ e.name_target_deps) → 0 ≤ v

/-- `CanTreatTargetFB` on a present key: no mutation, and the boolean
answer. -/
theorem canTreatTargetFB_present {m : Ledger} {n c : String} {e : FbInfoTarget}
    (h : mapFindFB m (n ++ c) = some e) :
    (canTreatTargetFB m n c).2 = m ∧
    ((canTreatTargetFB m n c).1 = true ↔
      (e.number_untrated_deps ≤ 0 ∧ e.is_treated = false)) := by
  unfold canTreatTargetFB mapIndexFB
  dsimp only
  rw [h]
  dsimp only
  by_cases hb : (decide (e.number_untrated_deps > 0) || e.is_treated) = true
  · rw [if_pos hb]
    refine ⟨rfl, ?_⟩
    simp only [Bool.or_eq_true, decide_eq_true_eq] at hb
    constructor
    · intro hf; cases hf
    · rintro ⟨h1, h2⟩
      rcases hb with hb | hb
      · omega
      · rw [h2] at hb; cases hb
  · rw [if_neg hb]
    refine ⟨rfl, ?_⟩
    simp only [Bool.or_eq_true, decide_eq_true_eq, not_or, Bool.not_eq_true] at hb
    constructor
    · intro _
      exact ⟨by omega, hb.2⟩
    · intro _
      rfl

/-- Registration of a fresh key preserves the (pre-sweep) invariant. -/
theorem register_preserves {m : Ledger} {D : String → Nat} {T : List Ev}
    {gt : CmTarget} {config : String}
    (inv : SchedInv false m D T)
    (habs : mapFindFB m (gt.name ++ config) = none)
    (hlang : gt.linkLangEmpty = false)
    (hD : D (gt.name ++ config) = 0) :
    SchedInv false (addFastbuildInfoTarget m gt gt.deps config) D T ∧
    mapFindFB (addFastbuildInfoTarget m gt gt.deps config) (gt.name ++ config)
      = some { is_treated := false, config := config, name_target_deps := gt.deps,
               number_untrated_deps :=
                 getNumberUntratedDepsTarget m (gt.name ++ config) gt.deps,
               gt := gt } ∧
    (∀ j e, mapFindFB m j = some e →
      mapFindFB (addFastbuildInfoTarget m gt gt.deps config) j = some e) ∧
    untreatedCount (addFastbuildInfoTarget m gt gt.deps config)
      = untreatedCount m + 1 := by
  set k0 := gt.name ++ config with hk0
  set v0 : FbInfoTarget :=
    { is_treated := false, config := config, name_target_deps := gt.deps,
      number_untrated_deps := getNumberUntratedDepsTarget m k0 gt.deps,
      gt := gt } with hv0
  have hadd : addFastbuildInfoTarget m gt gt.deps config = mapInsertFB k0 v0 m := by
    unfold addFastbuildInfoTarget
    dsimp only
    rw [habs]
  rw [hadd]
  have hfind_self : mapFindFB (mapInsertFB k0 v0 m) k0 = some v0 :=
    mapFindFB_insert_self habs
  have hfind_ne : ∀ j, j ≠ k0 → mapFindFB (mapInsertFB k0 v0 m) j = mapFindFB m j :=
    fun j hj => mapFindFB_insert_ne hj
  have hold : ∀ j e, mapFindFB m j = some e → mapFindFB (mapInsertFB k0 v0 m) j = some e := by
    intro j e hje
    by_cases hj : j = k0
    · rw [hj] at hje
      rw [habs] at hje
      cases hje
    · rw [hfind_ne j hj]
      exact hje
  have hmem_char : ∀ p, p ∈ mapInsertFB k0 v0 m ↔ p = (k0, v0) ∨ p ∈ m := by
    intro p
    rw [(mapInsertFB_perm habs).mem_iff]
    simp
  have htreat_eq : ∀ j, isTreatedIn (mapInsertFB k0 v0 m) j = isTreatedIn m j := by
    intro j
    unfold isTreatedIn
    by_cases hj : j = k0
    · rw [hj, hfind_self, habs]
    · rw [hfind_ne j hj]
  refine ⟨?_, ?_, hold, ?_⟩
  · constructor
    · exact nodup_keys_mapInsertFB habs inv.nodup
    · intro p hp
      rcases (hmem_char p).mp hp with rfl | hp2
      · exact ⟨hlang, rfl, rfl⟩
      · exact inv.wf p hp2
    · intro p hp
      rcases (hmem_char p).mp hp with rfl | hp2
      · unfold EntryInv
        simp only [if_neg (by simp : ¬ ((false : Bool) = true))]
        rw [hD]
        rw [getNumberUntratedDepsTarget_eq_countedOcc]
        rw [countedOcc_insert_untreated habs rfl]
        simp
      · have hq := inv.qinv p hp2
        unfold EntryInv at hq ⊢
        by_cases ht : p.2.is_treated
        · rw [if_pos ht] at hq ⊢
          refine ⟨hq.1, ?_⟩
          intro d hd hdk
          rw [countedDep_insert_untreated habs rfl rfl]
          exact hq.2 d hd hdk
        · rw [if_neg ht] at hq ⊢
          rw [countedOcc_insert_untreated habs rfl]
          exact hq
    · intro j
      rw [htreat_eq j]
      exact inv.begins j
    · exact inv.bodies
    · intro k e hke htr d hd hdk hpres
      by_cases hk : k = k0
      · rw [hk, hfind_self] at hke
        cases hke
        cases htr
      · rw [hfind_ne k hk] at hke
        by_cases hdk0 : d = k0
        · exfalso
          have hq := inv.qinv (k, e) (mem_of_mapFindFB hke)
          unfold EntryInv at hq
          rw [if_pos htr] at hq
          have := hq.2 d hd hdk
          rw [hdk0] at this
          unfold countedDep at this
          rw [habs] at this
          cases this
        · have hpres2 : presentIn m d = true := by
            unfold presentIn at hpres ⊢
            rw [hfind_ne d hdk0] at hpres
            exact hpres
          exact inv.ordOk k e hke htr d hd hdk hpres2
    · intro j v hjv hself
      apply inv.decsOk j v hjv
      intro e hje
      exact hself e (hold j e hje)
  · exact hfind_self
  · exact untreatedCount_insert habs rfl

theorem addFastbuildInfoTarget_present {m : Ledger} {gt : CmTarget}
    {deps : List String} {config : String} {e : FbInfoTarget}
    (h : mapFindFB m (gt.name ++ config) = some e) :
    addFastbuildInfoTarget m gt deps config = m := by
  unfold addFastbuildInfoTarget
  dsimp only
  rw [h]

theorem countedOcc_eq_zero_iff {ph : Bool} {m : Ledger} {selfKey : String}
    {deps : List String} :
    countedOcc ph m selfKey deps = 0 ↔
      ∀ d ∈ deps, d ≠ selfKey → countedDep ph m d = false := by
  unfold countedOcc
  rw [List.length_eq_zero, List.filter_eq_nil_iff]
  constructor
  · intro h d hd hdk
    have := h d hd
    simp only [Bool.and_eq_true, decide_eq_true_eq, not_and] at this
    exact Bool.not_eq_true _ ▸ by
      have := this hdk
      simpa using this
  · intro h d hd
    simp only [Bool.and_eq_true, decide_eq_true_eq, not_and]
    intro hdk
    simp [h d hd hdk]

/-- Fields of registered entries are stable across a scheduler step: the
dependency list, back-reference and configuration never change, the
outstanding count never increases, and the finished flag never reverts. -/
def StableTo (m m' : Ledger) : Prop :=
  ∀ k e, mapFindFB m k = some e → ∃ e', mapFindFB m' k = some e' ∧
    e'.name_target_deps = e.name_target_deps ∧ e'.gt = e.gt ∧ e'.config = e.config ∧
    e'.number_untrated_deps ≤ e.number_untrated_deps ∧
    (e.is_treated = true → e'.is_treated = true)

theorem StableTo.refl {m : Ledger} : StableTo m m :=
  fun _ e h => ⟨e, h, Eq.refl _, Eq.refl _, Eq.refl _, le_refl _, fun ht => ht⟩

theorem StableTo.trans {m1 m2 m3 : Ledger} (h12 : StableTo m1 m2)
    (h23 : StableTo m2 m3) : StableTo m1 m3 := by
  intro k e h1
  rcases h12 k e h1 with ⟨e2, hf2, hd2, hg2, hc2, hn2, ht2⟩
  rcases h23 k e2 hf2 with ⟨e3, hf3, hd3, hg3, hc3, hn3, ht3⟩
  exact ⟨e3, hf3, hd3.trans hd2, hg3.trans hg2, hc3.trans hc2, hn3.trans hn2,
    fun ht => ht3 (ht2 ht)⟩

theorem StableTo.pres {m m' : Ledger} (h : StableTo m m') {j : String}
    (hp : presentIn m j = true) : presentIn m' j = true := by
  unfold presentIn at hp ⊢
  cases hj : mapFindFB m j with
  | none => rw [hj] at hp; cases hp
  | some e =>
    rcases h j e hj with ⟨e', hf', -⟩
    rw [hf']
    rfl

theorem StableTo.trt {m m' : Ledger} (h : StableTo m m') {j : String}
    (hp : isTreatedIn m j = true) : isTreatedIn m' j = true := by
  unfold isTreatedIn at hp ⊢
  cases hj : mapFindFB m j with
  | none => rw [hj] at hp; cases hp
  | some e =>
    rw [hj] at hp
    rcases h j e hj with ⟨e', hf', -, -, -, -, ht⟩
    rw [hf']
    exact ht hp

/-- The debt added by the active `TargetTreatedFinish` frame for key `key`
with unvisited entries `rem`. -/
def DframeFun (m : Ledger) (D : String → Nat) (key : String) (rem : List String) :
    String → Nat :=
  fun j => D j + (if j ∈ rem then (depsOfKey m j).count key else 0)

theorem DframeFun_congr {m m' : Ledger} {D : String → Nat} {key : String}
    {rem : List String} (h : ∀ j, depsOfKey m' j = depsOfKey m j) :
    DframeFun m' D key rem = DframeFun m D key rem := by
  funext j
  unfold DframeFun
  rw [h j]

theorem depsOfKey_eq_of_stable {m m' : Ledger} (hst : StableTo m m')
    (hkeys : ∀ j, presentIn m' j = presentIn m j) (j : String) :
    depsOfKey m' j = depsOfKey m j := by
  unfold depsOfKey
  cases hj : mapFindFB m j with
  | none =>
    have : mapFindFB m' j = none := by
      have hp := hkeys j
      unfold presentIn at hp
      rw [hj] at hp
      cases hj' : mapFindFB m' j with
      | none => rfl
      | some e' => rw [hj'] at hp; cases hp
    rw [this]
  | some e =>
    rcases hst j e hj with ⟨e', hf', hd', -⟩
    rw [hf']
    dsimp only
    exact hd'

theorem presentIn_of_mem {m : Ledger} {p : String × FbInfoTarget} (hp : p ∈ m) :
    presentIn m p.1 = true := by
  induction m with
  | nil => cases hp
  | cons q t ih =>
    unfold presentIn mapFindFB
    by_cases hq : p.1 = q.1
    · obtain ⟨k', v'⟩ := q
      rw [if_pos hq]
      rfl
    · obtain ⟨k', v'⟩ := q
      rw [if_neg hq]
      rcases List.mem_cons.mp hp with rfl | hp2
      · exact absurd rfl hq
      · exact ih hp2

/-- The per-entry invariant only reads the debt function at the entry's
own key, so two debt functions agreeing on registered keys are
interchangeable. -/
theorem SchedInv_congr_D {ph : Bool} {m : Ledger} {D1 D2 : String → Nat}
    {T : List Ev} (hD : ∀ k, presentIn m k = true → D1 k = D2 k)
    (inv : SchedInv ph m D1 T) : SchedInv ph m D2 T := by
  refine ⟨inv.nodup, inv.wf, ?_, inv.begins, inv.bodies, inv.ordOk, inv.decsOk⟩
  intro p hp
  have hq := inv.qinv p hp
  have hDp := hD p.1 (presentIn_of_mem hp)
  unfold EntryInv at hq ⊢
  rw [← hDp]
  exact hq

/-- Appending events that are neither generation brackets nor decrements
preserves the invariant. -/
theorem SchedInv.append_neutral {ph : Bool} {m : Ledger} {D : String → Nat}
    {T : List Ev} (inv : SchedInv ph m D T) (E : List Ev)
    (hgb : ∀ j, E.count (Ev.genBegin j) = 0)
    (hgd : ∀ j, E.count (Ev.genBody j) = 0)
    (hdt : ∀ j v, Ev.decT j v ∉ E) :
    SchedInv ph m D (T ++ E) := by
  refine ⟨inv.nodup, inv.wf, inv.qinv, ?_, ?_, ?_, ?_⟩
  · intro j
    rw [List.count_append, hgb j, Nat.add_zero]
    exact inv.begins j
  · intro j
    rw [List.count_append, List.count_append, hgb j, hgd j]
    exact inv.bodies j
  · intro k e hke htr d hd hdk hpres
    exact mem_takeWhile_mono_append (inv.ordOk k e hke htr d hd hdk hpres)
  · intro j v hjv hself
    rcases List.mem_append.mp hjv with hjv | hjv
    · exact inv.decsOk j v hjv hself
    · exact absurd hjv (hdt j v)

theorem untreatedCount_pos_of_untreated {m : Ledger} {k : String} {e : FbInfoTarget}
    (hfind : mapFindFB m k = some e) (he : e.is_treated = false) :
    1 ≤ untreatedCount m := by
  have hmem : (k, e) ∈ m := mem_of_mapFindFB hfind
  have : (k, e) ∈ m.filter (fun p => !p.2.is_treated) := by
    rw [List.mem_filter]
    exact ⟨hmem, by simp [he]⟩
  have hlen := List.length_pos.mpr (List.ne_nil_of_mem this)
  unfold untreatedCount
  omega

theorem presentIn_set {m : Ledger} {k : String} {f : FbInfoTarget → FbInfoTarget}
    (j : String) : presentIn (mapSetFB m k f) j = presentIn m j := by
  unfold presentIn
  by_cases hj : j = k
  · subst hj
    rw [mapFindFB_set_self]
    cases mapFindFB m j <;> rfl
  · rw [mapFindFB_set_ne hj]

theorem isTreatedIn_set_count {m : Ledger} {k : String}
    {f : FbInfoTarget → FbInfoTarget} (hf : ∀ x, (f x).is_treated = x.is_treated)
    (j : String) : isTreatedIn (mapSetFB m k f) j = isTreatedIn m j := by
  unfold isTreatedIn
  by_cases hj : j = k
  · subst hj
    rw [mapFindFB_set_self]
    cases mapFindFB m j with
    | none => rfl
    | some e => simp [hf e]
  · rw [mapFindFB_set_ne hj]

theorem isTreatedIn_set_treated {m : Ledger} {k : String} {e : FbInfoTarget}
    (hfind : mapFindFB m k = some e) (j : String) :
    isTreatedIn (mapSetFB m k (fun x => { x with is_treated := true })) j
      = (if j = k then true else isTreatedIn m j) := by
  unfold isTreatedIn
  by_cases hj : j = k
  · subst hj
    rw [mapFindFB_set_self, hfind, if_pos rfl]
    rfl
  · rw [mapFindFB_set_ne hj, if_neg hj]

theorem depsOfKey_set {m : Ledger} {k : String} {f : FbInfoTarget → FbInfoTarget}
    (hf : ∀ x, (f x).name_target_deps = x.name_target_deps) (j : String) :
    depsOfKey (mapSetFB m k f) j = depsOfKey m j := by
  unfold depsOfKey
  by_cases hj : j = k
  · subst hj
    rw [mapFindFB_set_self]
    cases mapFindFB m j with
    | none => rfl
    | some e => simp [hf e]
  · rw [mapFindFB_set_ne hj]

theorem StableTo_insert {m : Ledger} {k0 : String} {v : FbInfoTarget}
    (habs : mapFindFB m k0 = none) : StableTo m (mapInsertFB k0 v m) := by
  intro k e hke
  have hk : k ≠ k0 := by
    intro hh
    rw [hh, habs] at hke
    cases hke
  exact ⟨e, by rw [mapFindFB_insert_ne hk]; exact hke, Eq.refl _, Eq.refl _, Eq.refl _,
    le_refl _, fun ht => ht⟩

theorem presentIn_insert_elim {m : Ledger} {k0 : String} {v : FbInfoTarget}
    {j : String} (hp : presentIn (mapInsertFB k0 v m) j = true) :
    presentIn m j = true ∨ j = k0 := by
  by_cases hj : j = k0
  · exact Or.inr hj
  · unfold presentIn at hp ⊢
    rw [mapFindFB_insert_ne hj] at hp
    exact Or.inl hp

/-! ### The scheduler master specifications -/

/-- Specification of `generateFB` at a given fuel. -/
def GenSpec (fuel : Nat) : Prop :=
  ∀ (ph : Bool) (m : Ledger) (D : String → Nat) (T : List Ev)
    (gt : CmTarget) (config : String),
  SchedInv ph m D T →
  (mapFindFB m (gt.name ++ config) = none → gt.linkLangEmpty = false →
    ph = false ∧ untreatedCount m + 1 ≤ fuel ∧ D (gt.name ++ config) = 0) →
  ((∃ e, mapFindFB m (gt.name ++ config) = some e) → untreatedCount m ≤ fuel) →
  SchedInv ph (generateFB fuel m gt config).1 D (T ++ (generateFB fuel m gt config).2) ∧
  StableTo m (generateFB fuel m gt config).1 ∧
  (∀ j, presentIn (generateFB fuel m gt config).1 j = true →
    presentIn m j = true ∨ j = gt.name ++ config) ∧
  ((∃ e, mapFindFB m (gt.name ++ config) = some e) →
    (∀ j, presentIn (generateFB fuel m gt config).1 j = presentIn m j) ∧
    untreatedCount (generateFB fuel m gt config).1 ≤ untreatedCount m) ∧
  (mapFindFB m (gt.name ++ config) = none →
    untreatedCount (generateFB fuel m gt config).1 ≤ untreatedCount m + 1) ∧
  (∀ e, mapFindFB m (gt.name ++ config) = some e → e.is_treated = false →
    e.number_untrated_deps ≤ 0 → gt.linkLangEmpty = false →
    isTreatedIn (generateFB fuel m gt config).1 (gt.name ++ config) = true)

/-- Specification of `writeTargetFB` at a given fuel. -/
def WriteSpec (fuel : Nat) : Prop :=
  ∀ (ph : Bool) (m : Ledger) (D : String → Nat) (T : List Ev)
    (gt : CmTarget) (config : String) (e : FbInfoTarget),
  SchedInv ph m D T →
  mapFindFB m (gt.name ++ config) = some e →
  e.is_treated = false →
  e.number_untrated_deps ≤ 0 →
  untreatedCount m ≤ fuel →
  SchedInv ph (writeTargetFB fuel m gt config).1 D (T ++ (writeTargetFB fuel m gt config).2) ∧
  StableTo m (writeTargetFB fuel m gt config).1 ∧
  (∀ j, presentIn (writeTargetFB fuel m gt config).1 j = presentIn m j) ∧
  untreatedCount (writeTargetFB fuel m gt config).1 + 1 ≤ untreatedCount m ∧
  isTreatedIn (writeTargetFB fuel m gt config).1 (gt.name ++ config) = true

/-- Specification of `targetTreatedFinish` at a given fuel: the trace so
far already contains this target's `genBegin`/`genBody`. -/
def FinishSpec (fuel : Nat) : Prop :=
  ∀ (ph : Bool) (m : Ledger) (D : String → Nat) (T : List Ev)
    (gt : CmTarget) (config : String) (e : FbInfoTarget),
  (m.map Prod.fst).Nodup →
  (∀ p ∈ m, p.2.gt.linkLangEmpty = false ∧ p.1 = p.2.gt.name ++ p.2.config ∧
      p.2.name_target_deps = p.2.gt.deps) →
  (∀ p ∈ m, EntryInv ph m D p.1 p.2) →
  (∀ j, T.count (Ev.genBegin j)
      = (if j = gt.name ++ config ∨ isTreatedIn m j = true then 1 else 0)) →
  (∀ j, T.count (Ev.genBody j) = T.count (Ev.genBegin j)) →
  (∀ k e2, mapFindFB m k = some e2 → e2.is_treated = true →
      ∀ d ∈ e2.name_target_deps, d ≠ k → presentIn m d = true →
      Ev.genBegin d ∈ T.takeWhile (fun ev => ev ≠ Ev.genBegin k)) →
  (∀ j v, Ev.decT j v ∈ T →
      (∀ e2, mapFindFB m j = some e2 → j ∉ e2.name_target_deps) → 0 ≤ v) →
  (∀ d ∈ e.name_target_deps, d ≠ gt.name ++ config → presentIn m d = true →
      Ev.genBegin d ∈ T.takeWhile (fun ev => ev ≠ Ev.genBegin (gt.name ++ config))) →
  mapFindFB m (gt.name ++ config) = some e →
  e.is_treated = false →
  e.number_untrated_deps ≤ 0 →
  untreatedCount m ≤ fuel →
  SchedInv ph (targetTreatedFinish fuel m gt config).1 D
    (T ++ (targetTreatedFinish fuel m gt config).2) ∧
  StableTo m (targetTreatedFinish fuel m gt config).1 ∧
  (∀ j, presentIn (targetTreatedFinish fuel m gt config).1 j = presentIn m j) ∧
  untreatedCount (targetTreatedFinish fuel m gt config).1 + 1 ≤ untreatedCount m ∧
  isTreatedIn (targetTreatedFinish fuel m gt config).1 (gt.name ++ config) = true

theorem DframeFun_cons_ne {m : Ledger} {D : String → Nat} {key f : String}
    {rest : List String} {j : String} (hj : j ≠ f) :
    DframeFun m D key (f :: rest) j = DframeFun m D key rest j := by
  unfold DframeFun
  congr 1
  by_cases hjr : j ∈ rest
  · rw [if_pos (List.mem_cons_of_mem _ hjr), if_pos hjr]
  · rw [if_neg (by simp [hj, hjr]), if_neg hjr]

/-- One visit of the `TargetTreatedFinish` loop, first half: the decrement
of the visited entry consumes exactly its frame debt for the finished key,
preserving the invariant with the remaining frame. -/
theorem loopStep_dec {ph : Bool} {m m1 : Ledger} {D : String → Nat} {T : List Ev}
    {key f : String} {rest : List String} {fit : FbInfoTarget}
    (inv : SchedInv ph m (DframeFun m D key (f :: rest)) T)
    (hfit : mapFindFB m f = some fit)
    (hfr : f ∉ rest)
    (hm1 : m1 = mapSetFB m f (fun x => { x with number_untrated_deps :=
      (decDepsFold key f fit.number_untrated_deps fit.name_target_deps).1 })) :
    SchedInv ph m1 (DframeFun m1 D key rest)
      (T ++ (decDepsFold key f fit.number_untrated_deps fit.name_target_deps).2) ∧
    mapFindFB m1 f = some { fit with number_untrated_deps :=
      (decDepsFold key f fit.number_untrated_deps fit.name_target_deps).1 } ∧
    StableTo m m1 ∧
    (∀ j, presentIn m1 j = presentIn m j) ∧
    (∀ j, isTreatedIn m1 j = isTreatedIn m j) ∧
    untreatedCount m1 = untreatedCount m := by
  obtain ⟨ftr, fcfg, fdeps, fnum, fgt⟩ := fit
  subst hm1
  have hupd_tr : ∀ x : FbInfoTarget,
      ((fun x : FbInfoTarget => { x with number_untrated_deps :=
        (decDepsFold key f fnum fdeps).1 }) x).is_treated = x.is_treated :=
    fun x => rfl
  have hupd_deps : ∀ x : FbInfoTarget,
      ((fun x : FbInfoTarget => { x with number_untrated_deps :=
        (decDepsFold key f fnum fdeps).1 }) x).name_target_deps = x.name_target_deps :=
    fun x => rfl
  have hdc : (decDepsFold key f fnum fdeps).1 = fnum - (fdeps.count key : Int) :=
    decDepsFold_fst key f fdeps fnum
  have hfind_self : mapFindFB (mapSetFB m f (fun x => { x with number_untrated_deps :=
      (decDepsFold key f fnum fdeps).1 })) f
      = some ⟨ftr, fcfg, fdeps, (decDepsFold key f fnum fdeps).1, fgt⟩ := by
    rw [mapFindFB_set_self, hfit]
    rfl
  have hpres_eq : ∀ j, presentIn (mapSetFB m f (fun x => { x with number_untrated_deps :=
      (decDepsFold key f fnum fdeps).1 })) j = presentIn m j :=
    fun j => presentIn_set j
  have htr_eq : ∀ j, isTreatedIn (mapSetFB m f (fun x => { x with number_untrated_deps :=
      (decDepsFold key f fnum fdeps).1 })) j = isTreatedIn m j :=
    fun j => isTreatedIn_set_count hupd_tr j
  have hdeps_eq : ∀ j, depsOfKey (mapSetFB m f (fun x => { x with number_untrated_deps :=
      (decDepsFold key f fnum fdeps).1 })) j = depsOfKey m j :=
    fun j => depsOfKey_set hupd_deps j
  have hDfr : DframeFun (mapSetFB m f (fun x => { x with number_untrated_deps :=
      (decDepsFold key f fnum fdeps).1 })) D key rest = DframeFun m D key rest :=
    DframeFun_congr hdeps_eq
  have hdepsf : depsOfKey m f = fdeps := by
    unfold depsOfKey
    rw [hfit]
  have hqf := inv.qinv (f, ⟨ftr, fcfg, fdeps, fnum, fgt⟩) (mem_of_mapFindFB hfit)
  refine ⟨?_, hfind_self, ?_, hpres_eq, htr_eq, untreatedCount_set_count hupd_tr⟩
  · rw [hDfr]
    refine ⟨nodup_keys_mapSetFB inv.nodup, ?_, ?_, ?_, ?_, ?_, ?_⟩
    · intro p hp
      unfold mapSetFB at hp
      rcases List.mem_map.mp hp with ⟨q, hq, hgq⟩
      by_cases hq1 : q.1 = f
      · rw [if_pos hq1] at hgq
        have hwq := inv.wf q hq
        subst hgq
        exact ⟨hwq.1, by rw [hq1] at hwq ⊢; exact hwq.2.1, hwq.2.2⟩
      · rw [if_neg hq1] at hgq
        subst hgq
        exact inv.wf q hq
    · intro p hp
      unfold mapSetFB at hp
      rcases List.mem_map.mp hp with ⟨q, hq, hgq⟩
      by_cases hq1 : q.1 = f
      · rw [if_pos hq1] at hgq
        have hq2 : q.2 = ⟨ftr, fcfg, fdeps, fnum, fgt⟩ := by
          have := mapFindFB_of_mem inv.nodup hq
          rw [hq1, hfit] at this
          exact Option.some_injective _ this.symm
        subst hgq
        dsimp only
        rw [hq1, hq2]
        unfold EntryInv
        dsimp only
        unfold DframeFun
        rw [if_neg hfr]
        unfold EntryInv at hqf
        dsimp only at hqf
        unfold DframeFun at hqf
        rw [hdepsf, if_pos (List.mem_cons_self _ _)] at hqf
        by_cases ht : ftr = true
        · rw [if_pos ht] at hqf ⊢
          refine ⟨?_, ?_⟩
          · rw [hdc, hqf.1]
            push_cast
            ring
          · intro d hd hdk
            rw [countedDep_set_count hupd_tr]
            exact hqf.2 d hd hdk
        · rw [if_neg ht] at hqf ⊢
          rw [countedOcc_set_count hupd_tr]
          rw [hdc, hqf]
          push_cast
          ring
      · rw [if_neg hq1] at hgq
        subst hgq
        have hq' := inv.qinv q hq
        unfold EntryInv at hq' ⊢
        rw [DframeFun_cons_ne hq1] at hq'
        by_cases ht : q.2.is_treated = true
        · rw [if_pos ht] at hq' ⊢
          refine ⟨hq'.1, ?_⟩
          intro d hd hdk
          rw [countedDep_set_count hupd_tr]
          exact hq'.2 d hd hdk
        · rw [if_neg ht] at hq' ⊢
          rw [countedOcc_set_count hupd_tr]
          exact hq'
    · intro j
      rw [List.count_append, (decDepsFold_no_gen key f fdeps fnum j).1, Nat.add_zero,
        htr_eq j]
      exact inv.begins j
    · intro j
      rw [List.count_append, List.count_append,
        (decDepsFold_no_gen key f fdeps fnum j).1,
        (decDepsFold_no_gen key f fdeps fnum j).2]
      exact inv.bodies j
    · intro k e hke htrt d hd hdk hpres
      rw [hpres_eq d] at hpres
      by_cases hkf : k = f
      · subst hkf
        rw [hfind_self] at hke
        cases hke
        exact mem_takeWhile_mono_append
          (inv.ordOk k ⟨ftr, fcfg, fdeps, fnum, fgt⟩ hfit htrt d hd hdk hpres)
      · rw [mapFindFB_set_ne hkf] at hke
        exact mem_takeWhile_mono_append (inv.ordOk k e hke htrt d hd hdk hpres)
    · intro j v hjv hself
      have hself_m : ∀ e, mapFindFB m j = some e → j ∉ e.name_target_deps := by
        intro e hje
        by_cases hjf : j = f
        · rw [hjf, hfit] at hje
          cases hje
          exact hself ⟨ftr, fcfg, fdeps, (decDepsFold key f fnum fdeps).1, fgt⟩
            (by rw [hjf]; exact hfind_self)
        · exact hself e (by rw [mapFindFB_set_ne hjf]; exact hje)
      rcases List.mem_append.mp hjv with hjv | hjv
      · exact inv.decsOk j v hjv hself_m
      · rcases decDepsFold_events key f fdeps fnum _ hjv with ⟨v', heq, hge⟩
        cases heq
        have hnself : f ∉ fdeps := hself _ hfind_self
        have hc0 : fdeps.count f = 0 := List.count_eq_zero.mpr hnself
        unfold EntryInv at hqf
        dsimp only at hqf
        unfold DframeFun at hqf
        rw [hdepsf, if_pos (List.mem_cons_self _ _)] at hqf
        by_cases ht : ftr = true
        · rw [if_pos ht] at hqf
          have h1 := hqf.1
          rw [hc0] at h1
          have h2 : (0 : Int) ≤ (fdeps.count key : Int) := Int.natCast_nonneg _
          have h3 : (0 : Int) ≤ (D f : Int) := Int.natCast_nonneg _
          push_cast at h1
          omega
        · rw [if_neg ht] at hqf
          have h2 : (0 : Int) ≤ (countedOcc ph m f fdeps : Int) := Int.natCast_nonneg _
          have h3 : (0 : Int) ≤ (D f : Int) := Int.natCast_nonneg _
          push_cast at hqf
          omega
  · intro k e hke
    by_cases hkf : k = f
    · subst hkf
      rw [hfit] at hke
      cases hke
      refine ⟨_, hfind_self, Eq.refl _, Eq.refl _, Eq.refl _, ?_, fun ht => ht⟩
      rw [hdc]
      have : (0 : Int) ≤ (fdeps.count key : Int) := Int.natCast_nonneg _
      dsimp only
      omega
    · exact ⟨e, by rw [mapFindFB_set_ne hkf]; exact hke, Eq.refl _, Eq.refl _, Eq.refl _,
        le_refl _, fun ht => ht⟩

/-- Marking a ready target as treated installs the full decrement frame:
the invariant with the frame debt over all registered keys holds for the
updated ledger, ready for the `TargetTreatedFinish` walk. -/
theorem mark_treated {ph : Bool} {m m2 : Ledger} {D : String → Nat} {T : List Ev}
    {key : String} {e : FbInfoTarget}
    (hnodup : (m.map Prod.fst).Nodup)
    (hwf : ∀ p ∈ m, p.2.gt.linkLangEmpty = false ∧ p.1 = p.2.gt.name ++ p.2.config ∧
        p.2.name_target_deps = p.2.gt.deps)
    (hqinv : ∀ p ∈ m, EntryInv ph m D p.1 p.2)
    (hbegins2 : ∀ j, T.count (Ev.genBegin j)
        = (if j = key ∨ isTreatedIn m j = true then 1 else 0))
    (hbodies : ∀ j, T.count (Ev.genBody j) = T.count (Ev.genBegin j))
    (hordOk : ∀ k e2, mapFindFB m k = some e2 → e2.is_treated = true →
        ∀ d ∈ e2.name_target_deps, d ≠ k → presentIn m d = true →
        Ev.genBegin d ∈ T.takeWhile (fun ev => ev ≠ Ev.genBegin k))
    (hdecsOk : ∀ j v, Ev.decT j v ∈ T →
        (∀ e2, mapFindFB m j = some e2 → j ∉ e2.name_target_deps) → 0 ≤ v)
    (hordKey : ∀ d ∈ e.name_target_deps, d ≠ key → presentIn m d = true →
        Ev.genBegin d ∈ T.takeWhile (fun ev => ev ≠ Ev.genBegin key))
    (hfind : mapFindFB m key = some e)
    (huntr : e.is_treated = false)
    (hcnt : e.number_untrated_deps ≤ 0)
    (hm2 : m2 = mapSetFB m key (fun x => { x with is_treated := true })) :
    SchedInv ph m2 (DframeFun m2 D key (m2.map Prod.fst)) T ∧
    isTreatedIn m2 key = true ∧
    StableTo m m2 ∧
    (∀ j, presentIn m2 j = presentIn m j) ∧
    untreatedCount m = untreatedCount m2 + 1 := by
  obtain ⟨etr, ecfg, edeps, enum, egt⟩ := e
  dsimp only at huntr hcnt hordKey
  subst huntr
  subst hm2
  have hq_key := hqinv (key, ⟨false, ecfg, edeps, enum, egt⟩) (mem_of_mapFindFB hfind)
  unfold EntryInv at hq_key
  dsimp only at hq_key
  rw [if_neg (by simp : ¬ ((false : Bool) = true))] at hq_key
  have hco : countedOcc ph m key edeps = 0 := by
    rw [hq_key] at hcnt
    omega
  have hDk : D key = 0 := by
    rw [hq_key] at hcnt
    omega
  have henum : enum = 0 := by
    rw [hq_key, hco, hDk]
    rfl
  have hdisch : ∀ d ∈ edeps, d ≠ key → countedDep ph m d = false :=
    countedOcc_eq_zero_iff.mp hco
  have hfind2_self : mapFindFB (mapSetFB m key (fun x => { x with is_treated := true })) key
      = some ⟨true, ecfg, edeps, enum, egt⟩ := by
    rw [mapFindFB_set_self, hfind]
    rfl
  have hpres2 : ∀ j, presentIn (mapSetFB m key (fun x => { x with is_treated := true })) j
      = presentIn m j := fun j => presentIn_set j
  have htr2 : ∀ j, isTreatedIn (mapSetFB m key (fun x => { x with is_treated := true })) j
      = (if j = key then true else isTreatedIn m j) :=
    fun j => isTreatedIn_set_treated hfind j
  have hdeps2 : ∀ j, depsOfKey (mapSetFB m key (fun x => { x with is_treated := true })) j
      = depsOfKey m j := fun j =>
    @depsOfKey_set m key (fun x => { x with is_treated := true }) (fun _ => rfl) j
  have hcd_key_true : countedDep ph m key = true := by
    unfold countedDep
    rw [hfind]
    rfl
  have hdk2 : depsOfKey (mapSetFB m key (fun x => { x with is_treated := true })) key
      = edeps := by
    unfold depsOfKey
    rw [hfind2_self]
  refine ⟨?_, ?_, ?_, hpres2, ?_⟩
  · refine ⟨nodup_keys_mapSetFB hnodup, ?_, ?_, ?_, hbodies, ?_, ?_⟩
    · intro p hp
      unfold mapSetFB at hp
      rcases List.mem_map.mp hp with ⟨q, hq, hgq⟩
      by_cases hq1 : q.1 = key
      · rw [if_pos hq1] at hgq
        have hwq := hwf q hq
        subst hgq
        exact ⟨hwq.1, hwq.2.1, hwq.2.2⟩
      · rw [if_neg hq1] at hgq
        subst hgq
        exact hwf q hq
    · intro p hp
      unfold mapSetFB at hp
      rcases List.mem_map.mp hp with ⟨q, hq, hgq⟩
      by_cases hq1 : q.1 = key
      · have hq2 : q.2 = ⟨false, ecfg, edeps, enum, egt⟩ := by
          have := mapFindFB_of_mem hnodup hq
          rw [hq1, hfind] at this
          exact Option.some_injective _ this.symm
        rw [if_pos hq1] at hgq
        subst hgq
        dsimp only
        rw [hq1, hq2]
        have hkeymem : key ∈ (mapSetFB m key
            (fun x => { x with is_treated := true })).map Prod.fst :=
          List.mem_map.mpr ⟨_, mem_of_mapFindFB hfind2_self, rfl⟩
        unfold EntryInv
        dsimp only
        rw [if_pos rfl]
        unfold DframeFun
        rw [if_pos hkeymem, hdk2]
        refine ⟨?_, ?_⟩
        · rw [henum, hDk]
          push_cast
          ring
        · intro d hd hdk
          rw [countedDep_set_treated, if_neg hdk]
          exact hdisch d hd hdk
      · rw [if_neg hq1] at hgq
        subst hgq
        have hq' := hqinv q hq
        have hqfind := mapFindFB_of_mem hnodup hq
        have hq1mem : q.1 ∈ (mapSetFB m key
            (fun x => { x with is_treated := true })).map Prod.fst := by
          rw [keys_mapSetFB]
          exact List.mem_map.mpr ⟨q, hq, rfl⟩
        have hqdeps : depsOfKey m q.1 = q.2.name_target_deps := by
          unfold depsOfKey
          rw [hqfind]
        unfold EntryInv at hq' ⊢
        unfold DframeFun
        rw [if_pos hq1mem, hdeps2 q.1, hqdeps]
        by_cases ht : q.2.is_treated = true
        · rw [if_pos ht] at hq' ⊢
          have hkeynot : key ∉ q.2.name_target_deps := by
            intro hmem
            have := hq'.2 key hmem (fun hh => hq1 hh.symm)
            rw [hcd_key_true] at this
            cases this
          have hc0 : q.2.name_target_deps.count key = 0 := List.count_eq_zero.mpr hkeynot
          refine ⟨?_, ?_⟩
          · rw [hc0, hq'.1]
            push_cast
            ring
          · intro d hd hdk
            have hdkey : d ≠ key := fun hh => hkeynot (hh ▸ hd)
            rw [countedDep_set_treated, if_neg hdkey]
            exact hq'.2 d hd hdk
        · rw [if_neg ht] at hq' ⊢
          have hcoq := @countedOcc_set_treated ph m key ⟨false, ecfg, edeps, enum, egt⟩
            hfind rfl q.1 q.2.name_target_deps
          rw [if_neg (fun hh => hq1 hh.symm)] at hcoq
          rw [hq']
          rw [hcoq]
          push_cast
          ring
    · intro j
      rw [htr2 j]
      by_cases hj : j = key
      · rw [hbegins2 j, if_pos (Or.inl hj), if_pos hj]
        rfl
      · rw [hbegins2 j, if_neg hj]
        by_cases hjt : isTreatedIn m j = true
        · rw [if_pos (Or.inr hjt), hjt]
          rfl
        · rw [if_neg (by
            rintro (hh | hh)
            · exact hj hh
            · exact hjt hh)]
          rw [Bool.not_eq_true] at hjt
          rw [hjt]
          rfl
    · intro k2 e2 hke2 htr2' d hd hdk hpres
      rw [hpres2 d] at hpres
      by_cases hk2 : k2 = key
      · subst hk2
        rw [hfind2_self] at hke2
        cases hke2
        exact hordKey d hd hdk hpres
      · rw [mapFindFB_set_ne hk2] at hke2
        exact hordOk k2 e2 hke2 htr2' d hd hdk hpres
    · intro j v hjv hprem
      apply hdecsOk j v hjv
      intro e2 hje2
      by_cases hj : j = key
      · rw [hj, hfind] at hje2
        cases hje2
        have := hprem ⟨true, ecfg, edeps, enum, egt⟩ (by rw [hj]; exact hfind2_self)
        exact this
      · exact hprem e2 (by rw [mapFindFB_set_ne hj]; exact hje2)
  · rw [htr2 key, if_pos rfl]
  · intro k3 e3 hke3
    by_cases hk3 : k3 = key
    · rw [hk3, hfind] at hke3
      cases hke3
      exact ⟨⟨true, ecfg, edeps, enum, egt⟩, by rw [hk3]; exact hfind2_self,
        Eq.refl _, Eq.refl _, Eq.refl _, le_refl _, fun _ => rfl⟩
    · exact ⟨e3, by rw [mapFindFB_set_ne hk3]; exact hke3, Eq.refl _, Eq.refl _,
        Eq.refl _, le_refl _, fun ht => ht⟩
  · exact untreatedCount_set_treated hnodup hfind rfl

/-- Specification of `finishLoop` at a given fuel. -/
def LoopSpec (fuel : Nat) : Prop :=
  ∀ (ph : Bool) (m : Ledger) (D : String → Nat) (T : List Ev)
    (key : String) (rem : List String),
  SchedInv ph m (DframeFun m D key rem) T →
  isTreatedIn m key = true →
  rem.Nodup →
  untreatedCount m ≤ fuel →
  SchedInv ph (finishLoop fuel m key rem).1 D (T ++ (finishLoop fuel m key rem).2) ∧
  StableTo m (finishLoop fuel m key rem).1 ∧
  (∀ j, presentIn (finishLoop fuel m key rem).1 j = presentIn m j) ∧
  untreatedCount (finishLoop fuel m key rem).1 ≤ untreatedCount m

theorem addFastbuildInfoTarget_find_ne {m : Ledger} {gt : CmTarget}
    {deps : List String} {config j : String}
    (habs : mapFindFB m (gt.name ++ config) = none) (hj : j ≠ gt.name ++ config) :
    mapFindFB (addFastbuildInfoTarget m gt deps config) j = mapFindFB m j := by
  unfold addFastbuildInfoTarget
  dsimp only
  rw [habs]
  exact mapFindFB_insert_ne hj

/-- Fuel exhaustion cannot occur: `targetTreatedFinish` at fuel zero would
need an untreated entry, contradicting the fuel bound. -/
theorem finishSpec_zero : FinishSpec 0 := by
  intro ph m D T gt config e _ _ _ _ _ _ _ _ hfind huntr _ hfuel
  exfalso
  have := untreatedCount_pos_of_untreated hfind huntr
  omega

theorem finishSpec_succ (f : Nat) (hLoop : LoopSpec f) : FinishSpec (f + 1) := by
  intro ph m D T gt config e hnodup hwf hqinv hbegins2 hbodies hordOk hdecsOk hordKey
    hfind huntr hcnt hfuel
  have hmark := mark_treated hnodup hwf hqinv hbegins2 hbodies hordOk hdecsOk hordKey
    hfind huntr hcnt rfl
  obtain ⟨minv, mtr, mstable, mpres, mcount⟩ := hmark
  have hres : targetTreatedFinish (f + 1) m gt config
      = finishLoop f
          (mapSetFB m (gt.name ++ config) (fun x => { x with is_treated := true }))
          (gt.name ++ config)
          ((mapSetFB m (gt.name ++ config)
            (fun x => { x with is_treated := true })).map Prod.fst) := by
    simp only [targetTreatedFinish, mapIndexFB]
    rw [hfind]
  rw [hres]
  have hnd2 : (((mapSetFB m (gt.name ++ config)
      (fun x => { x with is_treated := true })).map Prod.fst)).Nodup :=
    nodup_keys_mapSetFB hnodup
  have hcount2 : untreatedCount (mapSetFB m (gt.name ++ config)
      (fun x => { x with is_treated := true })) ≤ f := by omega
  have hloop := hLoop ph _ D T (gt.name ++ config) _ minv mtr
    (by rw [keys_mapSetFB]; exact hnodup) hcount2
  obtain ⟨linv, lstable, lpres, lcount⟩ := hloop
  refine ⟨linv, mstable.trans lstable, ?_, ?_, lstable.trt mtr⟩
  · intro j
    rw [lpres j, mpres j]
  · omega

theorem writeSpec_of_finish (f : Nat) (hFin : FinishSpec f) : WriteSpec f := by
  intro ph m D T gt config e inv hfind huntr hcnt hfuel
  have hkeyuntr : isTreatedIn m (gt.name ++ config) = false := by
    unfold isTreatedIn
    rw [hfind]
    exact huntr
  have hbeg0 : T.count (Ev.genBegin (gt.name ++ config)) = 0 := by
    rw [inv.begins, hkeyuntr]
    rfl
  have hnotmem : Ev.genBegin (gt.name ++ config) ∉ T := List.count_eq_zero.mp hbeg0
  have hq_key := inv.qinv (gt.name ++ config, e) (mem_of_mapFindFB hfind)
  unfold EntryInv at hq_key
  dsimp only at hq_key
  rw [if_neg (by rw [huntr]; simp)] at hq_key
  have hco : countedOcc ph m (gt.name ++ config) e.name_target_deps = 0 := by
    rw [hq_key] at hcnt
    omega
  have hdisch := countedOcc_eq_zero_iff.mp hco
  have hbegins2 : ∀ j,
      (T ++ [Ev.genBegin (gt.name ++ config), Ev.genBody (gt.name ++ config)]).count
        (Ev.genBegin j)
      = (if j = gt.name ++ config ∨ isTreatedIn m j = true then 1 else 0) := by
    intro j
    rw [List.count_append]
    by_cases hj : j = gt.name ++ config
    · rw [hj, hbeg0, if_pos (Or.inl rfl)]
      simp [List.count_cons]
    · have hj2 : gt.name ++ config ≠ j := fun hh => hj hh.symm
      have hsuf : ([Ev.genBegin (gt.name ++ config),
          Ev.genBody (gt.name ++ config)] : List Ev).count (Ev.genBegin j) = 0 := by
        simp [List.count_cons, hj2]
      rw [hsuf, Nat.add_zero, inv.begins j]
      by_cases hjt : isTreatedIn m j = true
      · rw [if_pos hjt, if_pos (Or.inr hjt)]
      · rw [if_neg hjt, if_neg (by
          rintro (hh | hh)
          · exact hj hh
          · exact hjt hh)]
  have hbodies2 : ∀ j,
      (T ++ [Ev.genBegin (gt.name ++ config), Ev.genBody (gt.name ++ config)]).count
        (Ev.genBody j)
      = (T ++ [Ev.genBegin (gt.name ++ config),
          Ev.genBody (gt.name ++ config)]).count (Ev.genBegin j) := by
    intro j
    rw [List.count_append, List.count_append, inv.bodies j]
    congr 1
    by_cases hj : j = gt.name ++ config
    · rw [hj]
      simp [List.count_cons]
    · have hj2 : gt.name ++ config ≠ j := fun hh => hj hh.symm
      simp [List.count_cons, hj2]
  have hordOk2 : ∀ k e2, mapFindFB m k = some e2 → e2.is_treated = true →
      ∀ d ∈ e2.name_target_deps, d ≠ k → presentIn m d = true →
      Ev.genBegin d ∈ (T ++ [Ev.genBegin (gt.name ++ config),
        Ev.genBody (gt.name ++ config)]).takeWhile (fun ev => ev ≠ Ev.genBegin k) :=
    fun k e2 hke2 htr2 d hd hdk hpres =>
      mem_takeWhile_mono_append (inv.ordOk k e2 hke2 htr2 d hd hdk hpres)
  have hdecsOk2 : ∀ j v, Ev.decT j v ∈ (T ++ [Ev.genBegin (gt.name ++ config),
        Ev.genBody (gt.name ++ config)]) →
      (∀ e2, mapFindFB m j = some e2 → j ∉ e2.name_target_deps) → 0 ≤ v := by
    intro j v hjv hprem
    rcases List.mem_append.mp hjv with hjv | hjv
    · exact inv.decsOk j v hjv hprem
    · simp at hjv
  have hordKey2 : ∀ d ∈ e.name_target_deps, d ≠ gt.name ++ config →
      presentIn m d = true →
      Ev.genBegin d ∈ (T ++ [Ev.genBegin (gt.name ++ config),
        Ev.genBody (gt.name ++ config)]).takeWhile
          (fun ev => ev ≠ Ev.genBegin (gt.name ++ config)) := by
    intro d hd hdk hpres
    have hcdd := hdisch d hd hdk
    have hdt : isTreatedIn m d = true := by
      unfold countedDep at hcdd
      unfold isTreatedIn
      unfold presentIn at hpres
      cases hfd : mapFindFB m d with
      | none =>
        rw [hfd] at hpres
        simp at hpres
      | some ed =>
        rw [hfd] at hcdd
        simpa using hcdd
    have hdbeg : Ev.genBegin d ∈ T := by
      have hcount := inv.begins d
      rw [hdt] at hcount
      have : 0 < T.count (Ev.genBegin d) := by rw [hcount]; simp
      exact List.count_pos_iff.mp this
    have hpre : (T ++ [Ev.genBegin (gt.name ++ config),
        Ev.genBody (gt.name ++ config)]).takeWhile
          (fun ev => ev ≠ Ev.genBegin (gt.name ++ config))
        = T ++ ([Ev.genBegin (gt.name ++ config),
            Ev.genBody (gt.name ++ config)].takeWhile
              (fun ev => ev ≠ Ev.genBegin (gt.name ++ config))) := by
      apply takeWhile_append_all
      intro y hy
      simp only [ne_eq, decide_eq_true_eq]
      intro hh
      exact hnotmem (hh ▸ hy)
    rw [hpre]
    have hsuf : ([Ev.genBegin (gt.name ++ config),
        Ev.genBody (gt.name ++ config)].takeWhile
          (fun ev => ev ≠ Ev.genBegin (gt.name ++ config))) = [] := by
      simp [List.takeWhile]
    rw [hsuf, List.append_nil]
    exact hdbeg
  have hfin := hFin ph m D
    (T ++ [Ev.genBegin (gt.name ++ config), Ev.genBody (gt.name ++ config)])
    gt config e inv.nodup inv.wf inv.qinv hbegins2 hbodies2 hordOk2 hdecsOk2 hordKey2
    hfind huntr hcnt hfuel
  obtain ⟨finv, fstable, fpres, fcount, ftr⟩ := hfin
  have hres : writeTargetFB f m gt config
      = ((targetTreatedFinish f m gt config).1,
         Ev.genBegin (gt.name ++ config) :: Ev.genBody (gt.name ++ config) ::
           (targetTreatedFinish f m gt config).2 ++ [Ev.genEnd (gt.name ++ config)]) := by
    simp only [writeTargetFB]
  rw [hres]
  refine ⟨?_, fstable, fpres, fcount, ftr⟩
  have hneutral := finv.append_neutral [Ev.genEnd (gt.name ++ config)]
    (fun j => by simp [List.count_cons]) (fun j => by simp [List.count_cons])
    (fun j v => by simp)
  have heq : ((T ++ [Ev.genBegin (gt.name ++ config), Ev.genBody (gt.name ++ config)])
        ++ (targetTreatedFinish f m gt config).2) ++ [Ev.genEnd (gt.name ++ config)]
      = T ++ (Ev.genBegin (gt.name ++ config) :: Ev.genBody (gt.name ++ config) ::
          (targetTreatedFinish f m gt config).2 ++ [Ev.genEnd (gt.name ++ config)]) := by
    simp
  rw [heq] at hneutral
  exact hneutral

theorem genSpec_of_write (f : Nat) (hW : WriteSpec f) : GenSpec f := by
  intro ph m D T gt config inv habsH hpresH
  cases hlang : gt.linkLangEmpty with
  | true =>
    have hres : generateFB f m gt config = (m, [Ev.errLang gt.name]) := by
      simp only [generateFB, hlang, if_true]
    rw [hres]
    refine ⟨?_, StableTo.refl, fun j hj => Or.inl hj, ?_, ?_, ?_⟩
    · exact inv.append_neutral [Ev.errLang gt.name]
        (fun j => by simp [List.count_cons]) (fun j => by simp [List.count_cons])
        (fun j v => by simp)
    · exact fun _ => ⟨fun j => rfl, le_refl _⟩
    · exact fun _ => Nat.le_succ _
    · intro e hfe _ _ hlang2
      exact Bool.noConfusion hlang2
  | false =>
    cases hf : mapFindFB m (gt.name ++ config) with
    | some e0 =>
      have hm1 : addFastbuildInfoTarget m gt gt.deps config = m :=
        addFastbuildInfoTarget_present hf
      have hcan := canTreatTargetFB_present hf
      by_cases hcm : (canTreatTargetFB m gt.name config).1 = true
      · have hres : generateFB f m gt config = writeTargetFB f m gt config := by
          simp only [generateFB, hlang, Bool.false_eq_true, if_false]
          rw [hm1, hcan.1, if_pos hcm]
        rw [hres]
        obtain ⟨hcnt0, huntr0⟩ := hcan.2.mp hcm
        have hw := hW ph m D T gt config e0 inv hf huntr0 hcnt0 (hpresH ⟨e0, hf⟩)
        obtain ⟨winv, wstable, wpres, wcount, wtr⟩ := hw
        refine ⟨winv, wstable, ?_, ?_, ?_, ?_⟩
        · intro j hj
          rw [wpres j] at hj
          exact Or.inl hj
        · exact fun _ => ⟨wpres, by omega⟩
        · intro habs
          exact Option.noConfusion habs
        · exact fun _ _ _ _ _ => wtr
      · have hres : generateFB f m gt config = (m, []) := by
          simp only [generateFB, hlang, Bool.false_eq_true, if_false]
          rw [hm1, hcan.1, if_neg hcm]
        rw [hres]
        refine ⟨?_, StableTo.refl, fun j hj => Or.inl hj, ?_, ?_, ?_⟩
        · rw [List.append_nil]
          exact inv
        · exact fun _ => ⟨fun j => rfl, le_refl _⟩
        · intro habs
          exact Option.noConfusion habs
        · intro e hfe htr2 hc2 _
          cases hfe
          exact absurd (hcan.2.mpr ⟨hc2, htr2⟩) hcm
    | none =>
      obtain ⟨hph, hfuelb, hD0⟩ := habsH hf hlang
      subst hph
      have hreg := register_preserves inv hf hlang hD0
      obtain ⟨inv1, hfind1, hold, hcnt1⟩ := hreg
      have hstable1 : StableTo m (addFastbuildInfoTarget m gt gt.deps config) :=
        fun k e h => ⟨e, hold k e h, Eq.refl _, Eq.refl _, Eq.refl _, le_refl _,
          fun ht => ht⟩
      have hpres1 : ∀ j, presentIn (addFastbuildInfoTarget m gt gt.deps config) j = true →
          presentIn m j = true ∨ j = gt.name ++ config := by
        intro j hj
        by_cases hjk : j = gt.name ++ config
        · exact Or.inr hjk
        · left
          unfold presentIn at hj ⊢
          rw [addFastbuildInfoTarget_find_ne hf hjk] at hj
          exact hj
      have hcan := canTreatTargetFB_present hfind1
      by_cases hcm : (canTreatTargetFB (addFastbuildInfoTarget m gt gt.deps config)
          gt.name config).1 = true
      · have hres : generateFB f m gt config
            = writeTargetFB f (addFastbuildInfoTarget m gt gt.deps config) gt config := by
          simp only [generateFB, hlang, Bool.false_eq_true, if_false]
          rw [hcan.1, if_pos hcm]
        rw [hres]
        obtain ⟨hcnt0, huntr0⟩ := hcan.2.mp hcm
        have hw := hW false (addFastbuildInfoTarget m gt gt.deps config) D T gt config _
          inv1 hfind1 huntr0 hcnt0 (by omega)
        obtain ⟨winv, wstable, wpres, wcount, wtr⟩ := hw
        refine ⟨winv, hstable1.trans wstable, ?_, ?_, ?_, ?_⟩
        · intro j hj
          rw [wpres j] at hj
          exact hpres1 j hj
        · rintro ⟨e, he⟩
          exact Option.noConfusion he
        · intro _
          omega
        · intro e hfe
          exact Option.noConfusion hfe
      · have hres : generateFB f m gt config
            = (addFastbuildInfoTarget m gt gt.deps config, []) := by
          simp only [generateFB, hlang, Bool.false_eq_true, if_false]
          rw [hcan.1, if_neg hcm]
        rw [hres]
        refine ⟨?_, hstable1, hpres1, ?_, ?_, ?_⟩
        · rw [List.append_nil]
          exact inv1
        · rintro ⟨e, he⟩
          exact Option.noConfusion he
        · intro _
          dsimp only
          omega
        · intro e hfe
          exact Option.noConfusion hfe

theorem loopSpec_of_gen (f : Nat) (hG : GenSpec f) : LoopSpec f := by
  intro ph m D T key rem
  induction rem generalizing m T with
  | nil =>
    intro hinv htr hnd hfuel
    have hres : finishLoop f m key [] = (m, []) := by
      simp only [finishLoop]
    rw [hres]
    refine ⟨?_, StableTo.refl, fun j => rfl, le_refl _⟩
    rw [List.append_nil]
    refine SchedInv_congr_D ?_ hinv
    intro k _
    unfold DframeFun
    simp
  | cons a rest ihr =>
    intro hinv htr hnd hfuel
    cases hfind : mapFindFB m a with
    | none =>
      have hres : finishLoop f m key (a :: rest) = finishLoop f m key rest := by
        simp only [finishLoop]
        rw [hfind]
      rw [hres]
      have hinv' : SchedInv ph m (DframeFun m D key rest) T := by
        refine SchedInv_congr_D ?_ hinv
        intro k hk
        have hkg : k ≠ a := by
          intro hh
          rw [hh] at hk
          unfold presentIn at hk
          rw [hfind] at hk
          simp at hk
        exact DframeFun_cons_ne hkg
      exact ihr _ _ hinv' htr (List.Nodup.of_cons hnd) hfuel
    | some fit =>
      have hgf : a ∉ rest := (List.nodup_cons.mp hnd).1
      have hstep := loopStep_dec hinv hfind hgf rfl
      obtain ⟨inv1, hfind1, hst1, hpres1, htr1, hcnt1⟩ := hstep
      have hwfg := hinv.wf (a, fit) (mem_of_mapFindFB hfind)
      have hka : a = fit.gt.name ++ fit.config := hwfg.2.1
      have hfind1' : mapFindFB (mapSetFB m a (fun x => { x with number_untrated_deps :=
          (decDepsFold key a fit.number_untrated_deps fit.name_target_deps).1 }))
          (fit.gt.name ++ fit.config)
          = some { fit with number_untrated_deps :=
              (decDepsFold key a fit.number_untrated_deps fit.name_target_deps).1 } := by
        rw [← hka]
        exact hfind1
      have hlive : (match mapFindFB (mapSetFB m a
            (fun x => { x with number_untrated_deps :=
              (decDepsFold key a fit.number_untrated_deps fit.name_target_deps).1 })) a with
          | some x => x.config
          | none => "") = fit.config := by
        rw [hfind1]
      have hcan := canTreatTargetFB_present hfind1'
      by_cases hcm : (canTreatTargetFB (mapSetFB m a
          (fun x => { x with number_untrated_deps :=
            (decDepsFold key a fit.number_untrated_deps fit.name_target_deps).1 }))
          fit.gt.name fit.config).1 = true
      · have hres : finishLoop f m key (a :: rest)
            = ((finishLoop f (generateFB f (mapSetFB m a
                (fun x => { x with number_untrated_deps :=
                  (decDepsFold key a fit.number_untrated_deps fit.name_target_deps).1 }))
                fit.gt fit.config).1 key rest).1,
               (decDepsFold key a fit.number_untrated_deps fit.name_target_deps).2
                 ++ (generateFB f (mapSetFB m a
                      (fun x => { x with number_untrated_deps :=
                        (decDepsFold key a fit.number_untrated_deps
                          fit.name_target_deps).1 }))
                      fit.gt fit.config).2
                 ++ (finishLoop f (generateFB f (mapSetFB m a
                      (fun x => { x with number_untrated_deps :=
                        (decDepsFold key a fit.number_untrated_deps
                          fit.name_target_deps).1 }))
                      fit.gt fit.config).1 key rest).2) := by
          simp only [finishLoop]
          rw [hfind]
          simp only [hlive, hcan.1]
          rw [if_pos hcm]
        rw [hres]
        have hgen := hG ph _ (DframeFun (mapSetFB m a
            (fun x => { x with number_untrated_deps :=
              (decDepsFold key a fit.number_untrated_deps fit.name_target_deps).1 }))
            D key rest)
          (T ++ (decDepsFold key a fit.number_untrated_deps fit.name_target_deps).2)
          fit.gt fit.config inv1
          (by
            intro habs _
            rw [habs] at hfind1'
            cases hfind1')
          (by
            intro _
            rw [hcnt1]
            exact hfuel)
        obtain ⟨ginv, gst, gpres_or, gpres_pres, gabs, gcons⟩ := hgen
        obtain ⟨gkeys, gcnt⟩ := gpres_pres ⟨_, hfind1'⟩
        have hinv2 : SchedInv ph (generateFB f (mapSetFB m a
            (fun x => { x with number_untrated_deps :=
              (decDepsFold key a fit.number_untrated_deps fit.name_target_deps).1 }))
            fit.gt fit.config).1
            (DframeFun (generateFB f (mapSetFB m a
              (fun x => { x with number_untrated_deps :=
                (decDepsFold key a fit.number_untrated_deps fit.name_target_deps).1 }))
              fit.gt fit.config).1 D key rest)
            ((T ++ (decDepsFold key a fit.number_untrated_deps
                fit.name_target_deps).2)
              ++ (generateFB f (mapSetFB m a
                  (fun x => { x with number_untrated_deps :=
                    (decDepsFold key a fit.number_untrated_deps
                      fit.name_target_deps).1 }))
                  fit.gt fit.config).2) := by
          refine SchedInv_congr_D ?_ ginv
          intro k _
          unfold DframeFun
          rw [depsOfKey_eq_of_stable gst gkeys k]
        have htr2 : isTreatedIn (generateFB f (mapSetFB m a
            (fun x => { x with number_untrated_deps :=
              (decDepsFold key a fit.number_untrated_deps fit.name_target_deps).1 }))
            fit.gt fit.config).1 key = true := by
          apply gst.trt
          rw [htr1 key]
          exact htr
        have hrec := ihr _ _ hinv2 htr2 (List.Nodup.of_cons hnd) (by omega)
        obtain ⟨rinv, rst, rpres, rcnt⟩ := hrec
        refine ⟨?_, hst1.trans (gst.trans rst), ?_, ?_⟩
        · have heq : ((T ++ (decDepsFold key a fit.number_untrated_deps
                fit.name_target_deps).2)
              ++ (generateFB f (mapSetFB m a
                  (fun x => { x with number_untrated_deps :=
                    (decDepsFold key a fit.number_untrated_deps
                      fit.name_target_deps).1 }))
                  fit.gt fit.config).2)
              ++ (finishLoop f (generateFB f (mapSetFB m a
                  (fun x => { x with number_untrated_deps :=
                    (decDepsFold key a fit.number_untrated_deps
                      fit.name_target_deps).1 }))
                  fit.gt fit.config).1 key rest).2
              = T ++ ((decDepsFold key a fit.number_untrated_deps
                  fit.name_target_deps).2
                ++ (generateFB f (mapSetFB m a
                    (fun x => { x with number_untrated_deps :=
                      (decDepsFold key a fit.number_untrated_deps
                        fit.name_target_deps).1 }))
                    fit.gt fit.config).2
                ++ (finishLoop f (generateFB f (mapSetFB m a
                    (fun x => { x with number_untrated_deps :=
                      (decDepsFold key a fit.number_untrated_deps
                        fit.name_target_deps).1 }))
                    fit.gt fit.config).1 key rest).2) := by
            simp [List.append_assoc]
          rw [← heq]
          exact rinv
        · intro j
          rw [rpres j, gkeys j, hpres1 j]
        · calc untreatedCount (finishLoop f (generateFB f (mapSetFB m a
                (fun x => { x with number_untrated_deps :=
                  (decDepsFold key a fit.number_untrated_deps
                    fit.name_target_deps).1 }))
                fit.gt fit.config).1 key rest).1 ≤ _ := rcnt
            _ ≤ _ := gcnt
            _ ≤ untreatedCount m := le_of_eq hcnt1
      · have hres : finishLoop f m key (a :: rest)
            = ((finishLoop f (mapSetFB m a
                (fun x => { x with number_untrated_deps :=
                  (decDepsFold key a fit.number_untrated_deps fit.name_target_deps).1 }))
                key rest).1,
               (decDepsFold key a fit.number_untrated_deps fit.name_target_deps).2
                 ++ (finishLoop f (mapSetFB m a
                      (fun x => { x with number_untrated_deps :=
                        (decDepsFold key a fit.number_untrated_deps
                          fit.name_target_deps).1 }))
                      key rest).2) := by
          simp only [finishLoop]
          rw [hfind]
          simp only [hlive, hcan.1]
          rw [if_neg hcm]
        rw [hres]
        have htr2 : isTreatedIn (mapSetFB m a
            (fun x => { x with number_untrated_deps :=
              (decDepsFold key a fit.number_untrated_deps fit.name_target_deps).1 }))
            key = true := by
          rw [htr1 key]
          exact htr
        have hrec := ihr _ _ inv1 htr2 (List.Nodup.of_cons hnd) (by omega)
        obtain ⟨rinv, rst, rpres, rcnt⟩ := hrec
        refine ⟨?_, hst1.trans rst, ?_, ?_⟩
        · have heq : (T ++ (decDepsFold key a fit.number_untrated_deps
                fit.name_target_deps).2)
              ++ (finishLoop f (mapSetFB m a
                  (fun x => { x with number_untrated_deps :=
                    (decDepsFold key a fit.number_untrated_deps
                      fit.name_target_deps).1 }))
                  key rest).2
              = T ++ ((decDepsFold key a fit.number_untrated_deps
                  fit.name_target_deps).2
                ++ (finishLoop f (mapSetFB m a
                    (fun x => { x with number_untrated_deps :=
                      (decDepsFold key a fit.number_untrated_deps
                        fit.name_target_deps).1 }))
                    key rest).2) := by
            simp [List.append_assoc]
          rw [← heq]
          exact rinv
        · intro j
          rw [rpres j, hpres1 j]
        · calc untreatedCount (finishLoop f (mapSetFB m a
                (fun x => { x with number_untrated_deps :=
                  (decDepsFold key a fit.number_untrated_deps
                    fit.name_target_deps).1 }))
                key rest).1 ≤ _ := rcnt
            _ ≤ untreatedCount m := le_of_eq hcnt1

/-- The master invariant theorem of the readiness scheduler: all four
mutually recursive operations satisfy their specifications at every
fuel. -/
theorem schedSpecs : ∀ fuel : Nat,
    GenSpec fuel ∧ WriteSpec fuel ∧ FinishSpec fuel ∧ LoopSpec fuel := by
  intro fuel
  induction fuel with
  | zero =>
    have hFin := finishSpec_zero
    have hW := writeSpec_of_finish 0 hFin
    have hG := genSpec_of_write 0 hW
    exact ⟨hG, hW, hFin, loopSpec_of_gen 0 hG⟩
  | succ f ihp =>
    have hFin := finishSpec_succ f ihp.2.2.2
    have hW := writeSpec_of_finish (f + 1) hFin
    have hG := genSpec_of_write (f + 1) hW
    exact ⟨hG, hW, hFin, loopSpec_of_gen (f + 1) hG⟩

theorem mapFindFB_set_isNone {m : Ledger} {k : String} {g : FbInfoTarget → FbInfoTarget}
    (d : String) : (mapFindFB (mapSetFB m k g) d).isNone = (mapFindFB m d).isNone := by
  by_cases hd : d = k
  · subst hd
    rw [mapFindFB_set_self]
    cases mapFindFB m d <;> rfl
  · rw [mapFindFB_set_ne hd]

/-- The walk of `DecrementNbDepsTargetUnexist` over a key list, as the
foldl it is written as. -/
def sweepWalk (st0 : Ledger × List Ev) (ks : List String) : Ledger × List Ev :=
  ks.foldl (fun (st : Ledger × List Ev) f =>
    let r := sweepEntry st.1 f
    (r.1, st.2 ++ r.2)) st0

theorem decrementNbDepsTargetUnexist_eq_sweepWalk (m : Ledger) :
    decrementNbDepsTargetUnexist m = sweepWalk (m, []) (m.map Prod.fst) := rfl

/-- Characterization of the unregistered-dependency decrement fold of
`DecrementNbDepsTargetUnexist` on one entry: the count drops by exactly
one per unregistered occurrence, and every recorded value is at least the
final count. -/
theorem sweepDecFold_char (mL : Ledger) (f : String) :
    ∀ (deps : List String) (c : Int) (E : List Ev),
    (deps.foldl (fun (st : Int × List Ev) dep =>
      match mapFindFB mL dep with
      | some _ => st
      | none => (st.1 - 1, st.2 ++ [Ev.decT f (st.1 - 1)])) (c, E)).1
      = c - ((deps.filter (fun d => (mapFindFB mL d).isNone)).length : Int) ∧
    ∀ ev ∈ (deps.foldl (fun (st : Int × List Ev) dep =>
      match mapFindFB mL dep with
      | some _ => st
      | none => (st.1 - 1, st.2 ++ [Ev.decT f (st.1 - 1)])) (c, E)).2,
      ev ∈ E ∨ ∃ v, ev = Ev.decT f v ∧
        c - ((deps.filter (fun d => (mapFindFB mL d).isNone)).length : Int) ≤ v := by
  intro deps
  induction deps with
  | nil =>
    intro c E
    exact ⟨by simp, fun ev hev => Or.inl hev⟩
  | cons d rest ih =>
    intro c E
    rw [List.foldl_cons, List.filter_cons]
    cases hfd : mapFindFB mL d with
    | some ed =>
      rw [if_neg (by simp)]
      dsimp only
      exact ih c E
    | none =>
      have hstep : (match (none : Option FbInfoTarget) with
          | some _ => (c, E)
          | none => ((c, E).1 - 1, (c, E).2 ++ [Ev.decT f ((c, E).1 - 1)]))
          = ((c - 1 : Int), E ++ [Ev.decT f (c - 1)]) := rfl
      have hfil : (if (none : Option FbInfoTarget).isNone = true
          then d :: List.filter (fun d => (mapFindFB mL d).isNone) rest
          else List.filter (fun d => (mapFindFB mL d).isNone) rest)
          = d :: List.filter (fun d => (mapFindFB mL d).isNone) rest := rfl
      rw [hstep, hfil]
      have hlen : (0 : Int) ≤ ((rest.filter (fun d => (mapFindFB mL d).isNone)).length : Int) :=
        Int.natCast_nonneg _
      refine ⟨?_, ?_⟩
      · rw [(ih (c - 1) (E ++ [Ev.decT f (c - 1)])).1]
        push_cast [List.length_cons]
        ring
      · intro ev hev
        rcases (ih (c - 1) (E ++ [Ev.decT f (c - 1)])).2 ev hev with hin | ⟨v, rfl, hv⟩
        · rcases List.mem_append.mp hin with hin | hin
          · exact Or.inl hin
          · rcases List.mem_singleton.mp hin with rfl
            refine Or.inr ⟨c - 1, rfl, ?_⟩
            push_cast [List.length_cons]
            omega
        · refine Or.inr ⟨v, rfl, ?_⟩
          push_cast [List.length_cons] at hv ⊢
          omega

/-- Characterization of the full `DecrementNbDepsTargetUnexist` walk: keys
and flags preserved, each unfinished visited entry's count drops by its
number of unregistered dependency occurrences, and every recorded value is
at least the final count of its entry. -/
theorem sweepWalk_char : ∀ (ks : List String) (mc : Ledger) (Tc : List Ev),
    ks.Nodup →
    (sweepWalk (mc, Tc) ks).1.map Prod.fst = mc.map Prod.fst ∧
    untreatedCount (sweepWalk (mc, Tc) ks).1 = untreatedCount mc ∧
    (∀ k e', mapFindFB mc k = some e' →
      ∃ e'', mapFindFB (sweepWalk (mc, Tc) ks).1 k = some e'' ∧
        e''.is_treated = e'.is_treated ∧
        e''.name_target_deps = e'.name_target_deps ∧
        e''.gt = e'.gt ∧ e''.config = e'.config ∧
        e''.number_untrated_deps = e'.number_untrated_deps -
          (if e'.is_treated = false ∧ k ∈ ks
           then ((e'.name_target_deps.filter
              (fun d => (mapFindFB mc d).isNone)).length : Int)
           else 0)) ∧
    (∀ ev ∈ (sweepWalk (mc, Tc) ks).2, ev ∈ Tc ∨ ∃ g v, ev = Ev.decT g v ∧
      ∃ e'', mapFindFB (sweepWalk (mc, Tc) ks).1 g = some e'' ∧
        e''.number_untrated_deps ≤ v) := by
  intro ks
  induction ks with
  | nil =>
    intro mc Tc _
    refine ⟨rfl, rfl, ?_, fun ev hev => Or.inl hev⟩
    intro k e' hk
    exact ⟨e', hk, rfl, rfl, rfl, rfl, by simp⟩
  | cons f rest ih =>
    intro mc Tc hnd
    have hfr : f ∉ rest := (List.nodup_cons.mp hnd).1
    have hndr : rest.Nodup := (List.nodup_cons.mp hnd).2
    have hunfold : sweepWalk (mc, Tc) (f :: rest)
        = sweepWalk ((sweepEntry mc f).1, Tc ++ (sweepEntry mc f).2) rest := rfl
    rw [hunfold]
    cases hfind : mapFindFB mc f with
    | none =>
      have hse : sweepEntry mc f = (mc, []) := by
        unfold sweepEntry
        rw [hfind]
      rw [hse]
      dsimp only
      rw [List.append_nil]
      have hresult := ih mc Tc hndr
      obtain ⟨h1, h2, h3, h4⟩ := hresult
      refine ⟨h1, h2, ?_, h4⟩
      intro k e' hk
      rcases h3 k e' hk with ⟨e'', hfind'', ht'', hd'', hg'', hc'', hn''⟩
      refine ⟨e'', hfind'', ht'', hd'', hg'', hc'', ?_⟩
      rw [hn'']
      congr 1
      by_cases hkr : e'.is_treated = false ∧ k ∈ rest
      · rw [if_pos hkr, if_pos ⟨hkr.1, List.mem_cons_of_mem _ hkr.2⟩]
      · rw [if_neg hkr, if_neg (by
          rintro ⟨htr, hmem⟩
          rcases List.mem_cons.mp hmem with rfl | hmem
          · rw [hk] at hfind
            cases hfind
          · exact hkr ⟨htr, hmem⟩)]
    | some fit =>
      by_cases htreat : fit.is_treated = true
      · have hse : sweepEntry mc f = (mc, []) := by
          unfold sweepEntry
          rw [hfind]
          dsimp only
          rw [if_pos htreat]
        rw [hse]
        dsimp only
        rw [List.append_nil]
        have hresult := ih mc Tc hndr
        obtain ⟨h1, h2, h3, h4⟩ := hresult
        refine ⟨h1, h2, ?_, h4⟩
        intro k e' hk
        rcases h3 k e' hk with ⟨e'', hfind'', ht'', hd'', hg'', hc'', hn''⟩
        refine ⟨e'', hfind'', ht'', hd'', hg'', hc'', ?_⟩
        rw [hn'']
        congr 1
        by_cases hkr : e'.is_treated = false ∧ k ∈ rest
        · rw [if_pos hkr, if_pos ⟨hkr.1, List.mem_cons_of_mem _ hkr.2⟩]
        · rw [if_neg hkr, if_neg (by
            rintro ⟨htr, hmem⟩
            rcases List.mem_cons.mp hmem with rfl | hmem
            · rw [hk] at hfind
              cases hfind
              rw [htr] at htreat
              cases htreat
            · exact hkr ⟨htr, hmem⟩)]
      · have htreat' : fit.is_treated = false := by
          cases h : fit.is_treated
          · rfl
          · exact absurd h htreat
        have hdc := sweepDecFold_char mc f fit.name_target_deps
          fit.number_untrated_deps []
        have hse : sweepEntry mc f
            = (mapSetFB mc f (fun x => { x with number_untrated_deps :=
                (fit.name_target_deps.foldl (fun (st : Int × List Ev) dep =>
                  match mapFindFB mc dep with
                  | some _ => st
                  | none => (st.1 - 1, st.2 ++ [Ev.decT f (st.1 - 1)]))
                  (fit.number_untrated_deps, [])).1 }),
               (fit.name_target_deps.foldl (fun (st : Int × List Ev) dep =>
                  match mapFindFB mc dep with
                  | some _ => st
                  | none => (st.1 - 1, st.2 ++ [Ev.decT f (st.1 - 1)]))
                  (fit.number_untrated_deps, [])).2) := by
          unfold sweepEntry
          rw [hfind]
          dsimp only
          rw [if_neg (by rw [htreat']; simp)]
        rw [hse]
        dsimp only
        have hpn : ∀ d, (mapFindFB (mapSetFB mc f
            (fun x => { x with number_untrated_deps :=
              (fit.name_target_deps.foldl (fun (st : Int × List Ev) dep =>
                match mapFindFB mc dep with
                | some _ => st
                | none => (st.1 - 1, st.2 ++ [Ev.decT f (st.1 - 1)]))
                (fit.number_untrated_deps, [])).1 })) d).isNone
            = (mapFindFB mc d).isNone := fun d => mapFindFB_set_isNone d
        have hresult := ih (mapSetFB mc f (fun x => { x with number_untrated_deps :=
            (fit.name_target_deps.foldl (fun (st : Int × List Ev) dep =>
              match mapFindFB mc dep with
              | some _ => st
              | none => (st.1 - 1, st.2 ++ [Ev.decT f (st.1 - 1)]))
              (fit.number_untrated_deps, [])).1 }))
          (Tc ++ (fit.name_target_deps.foldl (fun (st : Int × List Ev) dep =>
              match mapFindFB mc dep with
              | some _ => st
              | none => (st.1 - 1, st.2 ++ [Ev.decT f (st.1 - 1)]))
              (fit.number_untrated_deps, [])).2) hndr
        obtain ⟨h1, h2, h3, h4⟩ := hresult
        have hfind1 : mapFindFB (mapSetFB mc f
            (fun x => { x with number_untrated_deps :=
              (fit.name_target_deps.foldl (fun (st : Int × List Ev) dep =>
                match mapFindFB mc dep with
                | some _ => st
                | none => (st.1 - 1, st.2 ++ [Ev.decT f (st.1 - 1)]))
                (fit.number_untrated_deps, [])).1 })) f
            = some { fit with number_untrated_deps :=
                (fit.name_target_deps.foldl (fun (st : Int × List Ev) dep =>
                  match mapFindFB mc dep with
                  | some _ => st
                  | none => (st.1 - 1, st.2 ++ [Ev.decT f (st.1 - 1)]))
                  (fit.number_untrated_deps, [])).1 } := by
          rw [mapFindFB_set_self, hfind]
          rfl
        have hcnt_set : untreatedCount (mapSetFB mc f
            (fun x => { x with number_untrated_deps :=
              (fit.name_target_deps.foldl (fun (st : Int × List Ev) dep =>
                match mapFindFB mc dep with
                | some _ => st
                | none => (st.1 - 1, st.2 ++ [Ev.decT f (st.1 - 1)]))
                (fit.number_untrated_deps, [])).1 })) = untreatedCount mc :=
          untreatedCount_set_count (fun _ => rfl)
        refine ⟨by rw [h1, keys_mapSetFB], by rw [h2, hcnt_set], ?_, ?_⟩
        · intro k e' hk
          by_cases hkf : k = f
          · subst hkf
            rw [hfind] at hk
            cases hk
            rcases h3 k _ hfind1 with ⟨e'', hfind'', ht'', hd'', hg'', hc'', hn''⟩
            refine ⟨e'', hfind'', ht'', hd'', hg'', hc'', ?_⟩
            rw [hn'']
            dsimp only
            rw [if_neg (by
              rintro ⟨-, hmem⟩
              exact hfr hmem)]
            rw [hdc.1]
            rw [if_pos ⟨htreat', List.mem_cons_self _ _⟩]
            ring
          · have hk1 : mapFindFB (mapSetFB mc f
                (fun x => { x with number_untrated_deps :=
                  (fit.name_target_deps.foldl (fun (st : Int × List Ev) dep =>
                    match mapFindFB mc dep with
                    | some _ => st
                    | none => (st.1 - 1, st.2 ++ [Ev.decT f (st.1 - 1)]))
                    (fit.number_untrated_deps, [])).1 })) k = some e' := by
              rw [mapFindFB_set_ne hkf]
              exact hk
            rcases h3 k e' hk1 with ⟨e'', hfind'', ht'', hd'', hg'', hc'', hn''⟩
            refine ⟨e'', hfind'', ht'', hd'', hg'', hc'', ?_⟩
            rw [hn'']
            congr 1
            · by_cases hkr : e'.is_treated = false ∧ k ∈ rest
              · rw [if_pos hkr, if_pos ⟨hkr.1, List.mem_cons_of_mem _ hkr.2⟩]
                congr 1
                congr 1
                apply List.filter_congr
                intro d _
                rw [hpn d]
              · rw [if_neg hkr, if_neg (by
                  rintro ⟨htr, hmem⟩
                  rcases List.mem_cons.mp hmem with rfl | hmem
                  · exact hkf rfl
                  · exact hkr ⟨htr, hmem⟩)]
        · intro ev hev
          rcases h4 ev hev with hin | hout
          · rcases List.mem_append.mp hin with hin | hin
            · exact Or.inl hin
            · rcases hdc.2 ev hin with hnil | ⟨v, rfl, hv⟩
              · cases hnil
              · refine Or.inr ⟨f, v, rfl, ?_⟩
                rcases h3 f _ hfind1 with ⟨e'', hfind'', -, -, -, -, hn''⟩
                refine ⟨e'', hfind'', ?_⟩
                rw [hn'']
                dsimp only
                rw [if_neg (by
                  rintro ⟨-, hmem⟩
                  exact hfr hmem)]
                rw [hdc.1]
                omega
          · exact Or.inr hout

theorem countedDep_false_mono {m : Ledger} {d : String}
    (h : countedDep false m d = false) : countedDep true m d = false := by
  unfold countedDep at h ⊢
  cases hfd : mapFindFB m d with
  | none => rfl
  | some e =>
    rw [hfd] at h
    exact h

/-- The unregistered-dependency sweep carries the invariant from the
pre-sweep phase to the post-sweep phase: every unfinished entry's count
drops by exactly its number of unregistered dependency occurrences. -/
theorem sweep_spec {m : Ledger} {T : List Ev}
    (inv : SchedInv false m (fun _ => 0) T) :
    SchedInv true (decrementNbDepsTargetUnexist m).1 (fun _ => 0)
      (T ++ (decrementNbDepsTargetUnexist m).2) ∧
    ((decrementNbDepsTargetUnexist m).1.map Prod.fst = m.map Prod.fst) ∧
    (∀ j, isTreatedIn (decrementNbDepsTargetUnexist m).1 j = isTreatedIn m j) ∧
    untreatedCount (decrementNbDepsTargetUnexist m).1 = untreatedCount m ∧
    (∀ k e, mapFindFB m k = some e →
      ∃ e', mapFindFB (decrementNbDepsTargetUnexist m).1 k = some e' ∧
        e'.is_treated = e.is_treated ∧ e'.name_target_deps = e.name_target_deps ∧
        e'.gt = e.gt ∧ e'.config = e.config ∧
        e'.number_untrated_deps = e.number_untrated_deps -
          (if e.is_treated = false
           then ((e.name_target_deps.filter
              (fun d => (mapFindFB m d).isNone)).length : Int)
           else 0)) := by
  rw [decrementNbDepsTargetUnexist_eq_sweepWalk]
  obtain ⟨h1, h2, h3, h4⟩ := sweepWalk_char (m.map Prod.fst) m [] inv.nodup
  have hchar : ∀ k e, mapFindFB m k = some e →
      ∃ e', mapFindFB (sweepWalk (m, []) (m.map Prod.fst)).1 k = some e' ∧
        e'.is_treated = e.is_treated ∧ e'.name_target_deps = e.name_target_deps ∧
        e'.gt = e.gt ∧ e'.config = e.config ∧
        e'.number_untrated_deps = e.number_untrated_deps -
          (if e.is_treated = false
           then ((e.name_target_deps.filter
              (fun d => (mapFindFB m d).isNone)).length : Int)
           else 0) := by
    intro k e hk
    have hkmem : k ∈ m.map Prod.fst := List.mem_map.mpr ⟨_, mem_of_mapFindFB hk, rfl⟩
    rcases h3 k e hk with ⟨e', hfind', ht', hd', hg', hc', hn'⟩
    refine ⟨e', hfind', ht', hd', hg', hc', ?_⟩
    rw [hn']
    congr 1
    by_cases htr : e.is_treated = false
    · rw [if_pos ⟨htr, hkmem⟩, if_pos htr]
    · rw [if_neg (by rintro ⟨hh, -⟩; exact htr hh), if_neg htr]
  have hnone_iff : ∀ j, mapFindFB (sweepWalk (m, []) (m.map Prod.fst)).1 j = none
      ↔ mapFindFB m j = none := by
    intro j
    rw [mapFindFB_eq_none_iff, mapFindFB_eq_none_iff, h1]
  have hfind_rev : ∀ j e'', mapFindFB (sweepWalk (m, []) (m.map Prod.fst)).1 j = some e'' →
      ∃ e0, mapFindFB m j = some e0 := by
    intro j e'' hj
    cases h0 : mapFindFB m j with
    | none =>
      rw [← hnone_iff j] at h0
      rw [h0] at hj
      cases hj
    | some e0 => exact ⟨e0, rfl⟩
  have htr_eq : ∀ j, isTreatedIn (sweepWalk (m, []) (m.map Prod.fst)).1 j
      = isTreatedIn m j := by
    intro j
    unfold isTreatedIn
    cases h0 : mapFindFB m j with
    | none =>
      rw [(hnone_iff j).mpr h0]
    | some e0 =>
      rcases hchar j e0 h0 with ⟨e', hfind', ht', -⟩
      rw [hfind']
      dsimp only
      exact ht'
  have hpres_eq : ∀ j, presentIn (sweepWalk (m, []) (m.map Prod.fst)).1 j
      = presentIn m j := by
    intro j
    unfold presentIn
    cases h0 : mapFindFB m j with
    | none =>
      rw [(hnone_iff j).mpr h0]
    | some e0 =>
      rcases hchar j e0 h0 with ⟨e', hfind', -⟩
      rw [hfind']
      rfl
  have hcdW : ∀ d, countedDep true (sweepWalk (m, []) (m.map Prod.fst)).1 d
      = countedDep true m d := by
    intro d
    unfold countedDep
    cases h0 : mapFindFB m d with
    | none =>
      rw [(hnone_iff d).mpr h0]
    | some e0 =>
      rcases hchar d e0 h0 with ⟨e', hfind', ht', -⟩
      rw [hfind']
      dsimp only
      rw [ht']
  have hcoW : ∀ sk deps, countedOcc true (sweepWalk (m, []) (m.map Prod.fst)).1 sk deps
      = countedOcc true m sk deps := by
    intro sk deps
    unfold countedOcc
    congr 1
    apply List.filter_congr
    intro d _
    rw [hcdW d]
  have hndW : ((sweepWalk (m, []) (m.map Prod.fst)).1.map Prod.fst).Nodup := by
    rw [h1]
    exact inv.nodup
  have hE_decT : ∀ ev ∈ (sweepWalk (m, []) (m.map Prod.fst)).2, ∃ g v, ev = Ev.decT g v := by
    intro ev hev
    rcases h4 ev hev with hin | ⟨g, v, heq, -⟩
    · cases hin
    · exact ⟨g, v, heq⟩
  have horig : ∀ p, p ∈ (sweepWalk (m, []) (m.map Prod.fst)).1 →
      ∃ e0, mapFindFB m p.1 = some e0 ∧
        mapFindFB (sweepWalk (m, []) (m.map Prod.fst)).1 p.1 = some p.2 ∧
        p.2.is_treated = e0.is_treated ∧ p.2.name_target_deps = e0.name_target_deps ∧
        p.2.gt = e0.gt ∧ p.2.config = e0.config ∧
        p.2.number_untrated_deps = e0.number_untrated_deps -
          (if e0.is_treated = false
           then ((e0.name_target_deps.filter
              (fun d => (mapFindFB m d).isNone)).length : Int)
           else 0) := by
    intro p hp
    have hfp := mapFindFB_of_mem hndW hp
    rcases hfind_rev p.1 p.2 hfp with ⟨e0, h0⟩
    rcases hchar p.1 e0 h0 with ⟨e', hfind', hrest⟩
    rw [hfp] at hfind'
    cases hfind'
    exact ⟨e0, h0, hfp, hrest⟩
  have hqinvW : ∀ p ∈ (sweepWalk (m, []) (m.map Prod.fst)).1,
      EntryInv true (sweepWalk (m, []) (m.map Prod.fst)).1 (fun _ => 0) p.1 p.2 := by
    intro p hp
    rcases horig p hp with ⟨e0, h0, hfp, ht', hd', hg', hc', hn'⟩
    have hq0 := inv.qinv (p.1, e0) (mem_of_mapFindFB h0)
    unfold EntryInv at hq0 ⊢
    dsimp only at hq0
    rw [ht', hd', hn']
    by_cases htr : e0.is_treated = true
    · rw [if_pos htr] at hq0 ⊢
      rw [if_neg (by rw [htr]; simp)]
      refine ⟨by rw [hq0.1]; ring, ?_⟩
      intro d hd hdk
      rw [hcdW d]
      exact countedDep_false_mono (hq0.2 d hd hdk)
    · have htr' : e0.is_treated = false := by
        cases hh : e0.is_treated
        · rfl
        · exact absurd hh htr
      rw [if_neg htr] at hq0 ⊢
      rw [if_pos htr']
      rw [hcoW]
      have hpres0 : presentIn m p.1 = true := by
        unfold presentIn
        rw [h0]
        rfl
      have hps := countedOcc_phase_sweep hpres0 e0.name_target_deps
      rw [hq0, hps]
      push_cast
      ring
  have hinvW : SchedInv true (sweepWalk (m, []) (m.map Prod.fst)).1 (fun _ => 0)
      (T ++ (sweepWalk (m, []) (m.map Prod.fst)).2) := by
    refine ⟨hndW, ?_, hqinvW, ?_, ?_, ?_, ?_⟩
    · intro p hp
      rcases horig p hp with ⟨e0, h0, -, ht', hd', hg', hc', -⟩
      have hwf0 := inv.wf (p.1, e0) (mem_of_mapFindFB h0)
      refine ⟨?_, ?_, ?_⟩
      · rw [hg']
        exact hwf0.1
      · rw [hg', hc']
        exact hwf0.2.1
      · rw [hd', hg']
        exact hwf0.2.2
    · intro j
      rw [List.count_append, htr_eq j]
      have hz : (sweepWalk (m, []) (m.map Prod.fst)).2.count (Ev.genBegin j) = 0 := by
        rw [List.count_eq_zero]
        intro hmem
        rcases hE_decT _ hmem with ⟨g, v, heq⟩
        cases heq
      rw [hz, Nat.add_zero]
      exact inv.begins j
    · intro j
      rw [List.count_append, List.count_append]
      have hz1 : (sweepWalk (m, []) (m.map Prod.fst)).2.count (Ev.genBody j) = 0 := by
        rw [List.count_eq_zero]
        intro hmem
        rcases hE_decT _ hmem with ⟨g, v, heq⟩
        cases heq
      have hz2 : (sweepWalk (m, []) (m.map Prod.fst)).2.count (Ev.genBegin j) = 0 := by
        rw [List.count_eq_zero]
        intro hmem
        rcases hE_decT _ hmem with ⟨g, v, heq⟩
        cases heq
      rw [hz1, hz2, inv.bodies j]
    · intro k e2 hke2 htr2 d hd hdk hpres
      rcases hfind_rev k e2 hke2 with ⟨e0, h0⟩
      rcases hchar k e0 h0 with ⟨e', hfind', ht', hd', -⟩
      rw [hke2] at hfind'
      cases hfind'
      rw [hpres_eq d] at hpres
      apply mem_takeWhile_mono_append
      apply inv.ordOk k e0 h0 (by rw [← ht']; exact htr2) d (by rw [← hd']; exact hd)
        hdk hpres
    · intro j v hjv hprem
      rcases List.mem_append.mp hjv with hjv | hjv
      · apply inv.decsOk j v hjv
        intro e0 h0
        rcases hchar j e0 h0 with ⟨e', hfind', -, hd', -⟩
        have := hprem e' hfind'
        rw [hd'] at this
        exact this
      · rcases h4 _ hjv with hin | ⟨g, v', heq, e'', hfind'', hle⟩
        · cases hin
        · cases heq
          have hself := hprem e'' hfind''
          have hq := hqinvW (j, e'') (mem_of_mapFindFB hfind'')
          unfold EntryInv at hq
          dsimp only at hq
          by_cases htr : e''.is_treated = true
          · rw [if_pos htr] at hq
            have hc0 : e''.name_target_deps.count j = 0 := List.count_eq_zero.mpr hself
            rw [hc0] at hq
            have := hq.1
            omega
          · rw [if_neg htr] at hq
            have h2' : (0 : Int) ≤ (countedOcc true (sweepWalk (m, [])
                (m.map Prod.fst)).1 j e''.name_target_deps : Int) := Int.natCast_nonneg _
            omega
  exact ⟨hinvW, h1, htr_eq, h2, hchar⟩

theorem generateFB_langEmpty {fuel : Nat} {m : Ledger} {gt : CmTarget} {config : String}
    (h : gt.linkLangEmpty = true) :
    generateFB fuel m gt config = (m, [Ev.errLang gt.name]) := by
  simp only [generateFB, h, if_true]

/-- The organic per-target pass preserves the pre-sweep invariant; each
item adds at most one untreated entry, and every missing-language item
reports its error without stopping the walk. -/
theorem organicPass_spec (fuel : Nat) :
    ∀ (items : List OrganicItem) (m : Ledger) (T : List Ev),
    SchedInv false m (fun _ => 0) T →
    untreatedCount m + items.length ≤ fuel →
    SchedInv false (organicPass fuel m items).1 (fun _ => 0)
      (T ++ (organicPass fuel m items).2) ∧
    untreatedCount (organicPass fuel m items).1 ≤ untreatedCount m + items.length ∧
    (∀ it ∈ items, it.gt.linkLangEmpty = true →
      Ev.errLang it.gt.name ∈ (organicPass fuel m items).2) := by
  intro items
  induction items with
  | nil =>
    intro m T hinv hfuel
    refine ⟨?_, by simp [organicPass], by simp⟩
    rw [show organicPass fuel m [] = (m, []) from rfl, List.append_nil]
    exact hinv
  | cons it rest ih =>
    intro m T hinv hfuel
    have hG := (schedSpecs fuel).1
    have hgen := hG false m (fun _ => 0) T it.gt it.config hinv
      (by
        intro _ _
        refine ⟨rfl, ?_, rfl⟩
        simp only [List.length_cons] at hfuel
        omega)
      (by
        intro _
        simp only [List.length_cons] at hfuel
        omega)
    obtain ⟨ginv, gst, gpres_or, gpres_pres, gabs, -⟩ := hgen
    have hgcnt : untreatedCount (generateFB fuel m it.gt it.config).1
        ≤ untreatedCount m + 1 := by
      cases hf : mapFindFB m (it.gt.name ++ it.config) with
      | none => exact gabs hf
      | some e0 =>
        have := (gpres_pres ⟨e0, hf⟩).2
        omega
    have hrest := ih (generateFB fuel m it.gt it.config).1
      (T ++ (generateFB fuel m it.gt it.config).2) ginv
      (by
        simp only [List.length_cons] at hfuel
        omega)
    obtain ⟨rinv, rcnt, rerr⟩ := hrest
    have hres : organicPass fuel m (it :: rest)
        = ((organicPass fuel (generateFB fuel m it.gt it.config).1 rest).1,
           (generateFB fuel m it.gt it.config).2
             ++ (organicPass fuel (generateFB fuel m it.gt it.config).1 rest).2) := rfl
    rw [hres]
    refine ⟨?_, ?_, ?_⟩
    · rw [← List.append_assoc]
      exact rinv
    · simp only [List.length_cons]
      omega
    · intro it2 hit2 hlang2
      rcases List.mem_cons.mp hit2 with rfl | hit2
      · apply List.mem_append_left
        rw [generateFB_langEmpty hlang2]
        exact List.mem_singleton.mpr rfl
      · exact List.mem_append_right _ (rerr it2 hit2 hlang2)

/-- The forced loop of `lastChanceToTreatTargets`: the post-sweep
invariant is preserved and every visited key whose entry was ready
(outstanding count at most zero) ends up treated. -/
theorem lastChanceLoop_spec (fuel : Nat) :
    ∀ (ks : List String) (m : Ledger) (T : List Ev),
    SchedInv true m (fun _ => 0) T →
    untreatedCount m ≤ fuel →
    SchedInv true (lastChanceLoop fuel m ks).1 (fun _ => 0)
      (T ++ (lastChanceLoop fuel m ks).2) ∧
    StableTo m (lastChanceLoop fuel m ks).1 ∧
    (∀ k ∈ ks, ∀ e, mapFindFB m k = some e → e.number_untrated_deps ≤ 0 →
      isTreatedIn (lastChanceLoop fuel m ks).1 k = true) := by
  intro ks
  induction ks with
  | nil =>
    intro m T hinv hfuel
    refine ⟨?_, StableTo.refl, by simp⟩
    rw [show lastChanceLoop fuel m [] = (m, []) from rfl, List.append_nil]
    exact hinv
  | cons k rest ih =>
    intro m T hinv hfuel
    cases hfind : mapFindFB m k with
    | none =>
      have hres : lastChanceLoop fuel m (k :: rest) = lastChanceLoop fuel m rest := by
        simp only [lastChanceLoop]
        rw [hfind]
      rw [hres]
      obtain ⟨rinv, rst, rtr⟩ := ih m T hinv hfuel
      refine ⟨rinv, rst, ?_⟩
      intro k2 hk2 e hke hcnt
      rcases List.mem_cons.mp hk2 with rfl | hk2
      · rw [hfind] at hke
        cases hke
      · exact rtr k2 hk2 e hke hcnt
    | some fit =>
      have hwf := hinv.wf (k, fit) (mem_of_mapFindFB hfind)
      have hka : k = fit.gt.name ++ fit.config := hwf.2.1
      have hfind' : mapFindFB m (fit.gt.name ++ fit.config) = some fit := by
        rw [← hka]
        exact hfind
      by_cases htr : fit.is_treated = true
      · have hres : lastChanceLoop fuel m (k :: rest) = lastChanceLoop fuel m rest := by
          simp only [lastChanceLoop]
          rw [hfind]
          dsimp only
          rw [htr]
          rfl
        rw [hres]
        obtain ⟨rinv, rst, rtr⟩ := ih m T hinv hfuel
        refine ⟨rinv, rst, ?_⟩
        intro k2 hk2 e hke hcnt
        rcases List.mem_cons.mp hk2 with rfl | hk2
        · apply rst.trt
          unfold isTreatedIn
          rw [hke]
          rw [hfind] at hke
          cases hke
          exact htr
        · exact rtr k2 hk2 e hke hcnt
      · have htr' : fit.is_treated = false := by
          cases hh : fit.is_treated
          · rfl
          · exact absurd hh htr
        have hcan := canTreatTargetFB_present hfind'
        by_cases hcm : (canTreatTargetFB m fit.gt.name fit.config).1 = true
        · have hlive : mapFindFB (canTreatTargetFB m fit.gt.name fit.config).2 k
              = some fit := by
            rw [hcan.1]
            exact hfind
          have hres : lastChanceLoop fuel m (k :: rest)
              = ((lastChanceLoop fuel
                  (generateFB fuel m fit.gt fit.config).1 rest).1,
                 (generateFB fuel m fit.gt fit.config).2
                   ++ (lastChanceLoop fuel
                      (generateFB fuel m fit.gt fit.config).1 rest).2) := by
            simp only [lastChanceLoop]
            rw [hfind]
            dsimp only
            rw [if_pos (show (!fit.is_treated) = true by rw [htr']; rfl)]
            rw [if_pos hcm, hlive]
            dsimp only
            rw [hcan.1]
          rw [hres]
          obtain ⟨hcnt0, -⟩ := hcan.2.mp hcm
          have hG := (schedSpecs fuel).1
          have hgen := hG true m (fun _ => 0) T fit.gt fit.config hinv
            (by
              intro habs _
              rw [habs] at hfind'
              cases hfind')
            (by
              intro _
              exact hfuel)
          obtain ⟨ginv, gst, -, gpres_pres, -, gcons⟩ := hgen
          obtain ⟨gkeys, gcnt⟩ := gpres_pres ⟨fit, hfind'⟩
          have hgtr : isTreatedIn (generateFB fuel m fit.gt fit.config).1
              (fit.gt.name ++ fit.config) = true :=
            gcons fit hfind' htr' hcnt0 hwf.1
          obtain ⟨rinv, rst, rtr⟩ := ih (generateFB fuel m fit.gt fit.config).1
            (T ++ (generateFB fuel m fit.gt fit.config).2) ginv (by omega)
          refine ⟨?_, gst.trans rst, ?_⟩
          · rw [← List.append_assoc]
            exact rinv
          · intro k2 hk2 e hke hcnt
            rcases List.mem_cons.mp hk2 with rfl | hk2
            · apply rst.trt
              rw [hka]
              exact hgtr
            · rcases gst k2 e hke with ⟨e2, hke2, -, -, -, hle2, -⟩
              exact rtr k2 hk2 e2 hke2 (le_trans hle2 hcnt)
        · have hres : lastChanceLoop fuel m (k :: rest) = lastChanceLoop fuel m rest := by
            simp only [lastChanceLoop]
            rw [hfind]
            dsimp only
            rw [if_pos (show (!fit.is_treated) = true by rw [htr']; rfl)]
            rw [if_neg hcm, hcan.1]
          rw [hres]
          obtain ⟨rinv, rst, rtr⟩ := ih m T hinv hfuel
          refine ⟨rinv, rst, ?_⟩
          intro k2 hk2 e hke hcnt
          rcases List.mem_cons.mp hk2 with rfl | hk2
          · rw [hfind] at hke
            cases hke
            exact absurd (hcan.2.mpr ⟨hcnt, htr'⟩) hcm
          · exact rtr k2 hk2 e hke hcnt

/-- `lastChanceToTreatTargets`: after the unregistered-dependency sweep
and the forced loop, the post-sweep invariant holds over the full trace,
and every unfinished entry whose registered dependencies were all finished
ends up treated. -/
theorem lastChance_spec {m : Ledger} {T : List Ev} (fuel : Nat)
    (inv : SchedInv false m (fun _ => 0) T)
    (hfuel : untreatedCount m ≤ fuel) :
    SchedInv true (lastChanceToTreatTargets fuel m).1 (fun _ => 0)
      (T ++ (lastChanceToTreatTargets fuel m).2) ∧
    (∀ k e, mapFindFB m k = some e → e.is_treated = false →
      (∀ d ∈ e.name_target_deps, d ≠ k → presentIn m d = true →
        isTreatedIn m d = true) →
      isTreatedIn (lastChanceToTreatTargets fuel m).1 k = true) := by
  obtain ⟨sinv, skeys, str, scnt, schar⟩ := sweep_spec inv
  have hres : lastChanceToTreatTargets fuel m
      = ((lastChanceLoop fuel (decrementNbDepsTargetUnexist m).1
          ((decrementNbDepsTargetUnexist m).1.map Prod.fst)).1,
         (decrementNbDepsTargetUnexist m).2
           ++ (lastChanceLoop fuel (decrementNbDepsTargetUnexist m).1
              ((decrementNbDepsTargetUnexist m).1.map Prod.fst)).2) := rfl
  rw [hres]
  obtain ⟨linv, lst, ltr⟩ := lastChanceLoop_spec fuel
    ((decrementNbDepsTargetUnexist m).1.map Prod.fst)
    (decrementNbDepsTargetUnexist m).1
    (T ++ (decrementNbDepsTargetUnexist m).2) sinv (by omega)
  refine ⟨?_, ?_⟩
  · rw [← List.append_assoc]
    exact linv
  · intro k e hke huntr hready
    rcases schar k e hke with ⟨e', hfind', ht', hd', -, -, hn'⟩
    have hq := inv.qinv (k, e) (mem_of_mapFindFB hke)
    unfold EntryInv at hq
    dsimp only at hq
    rw [if_neg (by rw [huntr]; simp)] at hq
    have hpresk : presentIn m k = true := by
      unfold presentIn
      rw [hke]
      rfl
    have hco_true : countedOcc true m k e.name_target_deps = 0 := by
      rw [countedOcc_eq_zero_iff]
      intro d hd hdk
      unfold countedDep
      cases hfd : mapFindFB m d with
      | none => rfl
      | some ed =>
        have hpd : presentIn m d = true := by
          unfold presentIn
          rw [hfd]
          rfl
        have h5 := hready d hd hdk hpd
        unfold isTreatedIn at h5
        rw [hfd] at h5
        dsimp only at h5
        dsimp only
        rw [h5]
        rfl
    have hps := countedOcc_phase_sweep hpresk e.name_target_deps
    have hcnt' : e'.number_untrated_deps ≤ 0 := by
      rw [hn', if_pos huntr, hq, hps, hco_true]
      push_cast
      omega
    have hkmem : k ∈ (decrementNbDepsTargetUnexist m).1.map Prod.fst :=
      List.mem_map.mpr ⟨_, mem_of_mapFindFB hfind', rfl⟩
    exact ltr k hkmem e' hfind' hcnt'

/-- The empty ledger with the empty trace satisfies the pre-sweep
invariant. -/
theorem SchedInv_empty : SchedInv false ([] : Ledger) (fun _ => 0) ([] : List Ev) := by
  refine ⟨List.nodup_nil, ?_, ?_, ?_, ?_, ?_, ?_⟩
  · intro p hp
    cases hp
  · intro p hp
    cases hp
  · intro j
    rfl
  · intro j
    rfl
  · intro k e hke
    cases hke
  · intro j v hjv
    cases hjv

/-- The full generation pass: the post-sweep invariant holds of the final
ledger over the complete trace; every entry left by the organic pass whose
registered dependencies were all finished is treated at the end; every
missing-language item reports its error; and each unfinished entry's count
drops by exactly its unregistered occurrences during the sweep. -/
theorem runFB_spec (items : List OrganicItem) :
    SchedInv true (runFB items).1 (fun _ => 0) (runFB items).2 ∧
    (∀ k e, mapFindFB (organicPass (items.length + 1) [] items).1 k = some e →
      e.is_treated = false →
      (∀ d ∈ e.name_target_deps, d ≠ k →
        presentIn (organicPass (items.length + 1) [] items).1 d = true →
        isTreatedIn (organicPass (items.length + 1) [] items).1 d = true) →
      isTreatedIn (runFB items).1 k = true) ∧
    (∀ it ∈ items, it.gt.linkLangEmpty = true →
      Ev.errLang it.gt.name ∈ (runFB items).2) ∧
    (∀ k e, mapFindFB (organicPass (items.length + 1) [] items).1 k = some e →
      e.is_treated = false →
      ∃ e', mapFindFB
          (decrementNbDepsTargetUnexist
            (organicPass (items.length + 1) [] items).1).1 k = some e' ∧
        e'.number_untrated_deps = e.number_untrated_deps -
          ((e.name_target_deps.filter (fun d =>
            (mapFindFB (organicPass (items.length + 1) [] items).1 d).isNone)).length
              : Int)) := by
  obtain ⟨oinv, ocnt, oerr⟩ := organicPass_spec (items.length + 1) items [] []
    SchedInv_empty (by simp [untreatedCount])
  rw [List.nil_append] at oinv
  have hocnt : untreatedCount (organicPass (items.length + 1) [] items).1
      ≤ items.length := by
    have : untreatedCount ([] : Ledger) = 0 := rfl
    omega
  obtain ⟨linv, lready⟩ := lastChance_spec (items.length + 1) oinv (by omega)
  have hres : runFB items
      = ((lastChanceToTreatTargets (items.length + 1)
          (organicPass (items.length + 1) [] items).1).1,
         (organicPass (items.length + 1) [] items).2
           ++ (lastChanceToTreatTargets (items.length + 1)
              (organicPass (items.length + 1) [] items).1).2) := rfl
  rw [hres]
  refine ⟨linv, ?_, ?_, ?_⟩
  · intro k e hke huntr hready
    exact lready k e hke huntr hready
  · intro it hit hlang
    exact List.mem_append_left _ (oerr it hit hlang)
  · intro k e hke huntr
    obtain ⟨-, -, -, -, schar⟩ := sweep_spec oinv
    rcases schar k e hke with ⟨e', hfind', -, -, -, -, hn'⟩
    refine ⟨e', hfind', ?_⟩
    rw [hn', if_pos huntr]

/-! ## Final claim theorems over the full generation pass -/

/-- Direct registered dependency: `a`'s ledger entry lists `b` (a key
other than `a` itself) among its dependency keys, and `b` is registered. -/
def DepOn (m : Ledger) (a b : String) : Prop :=
  ∃ e, mapFindFB m a = some e ∧ b ∈ e.name_target_deps ∧ b ≠ a ∧ presentIn m b = true

theorem isTreatedIn_flag {m : Ledger} {k : String} {e : FbInfoTarget}
    (hfind : mapFindFB m k = some e) (h : isTreatedIn m k = true) :
    e.is_treated = true := by
  unfold isTreatedIn at h
  rw [hfind] at h
  exact h

theorem depOn_treated {ph : Bool} {m : Ledger} {D : String → Nat} {T : List Ev}
    (inv : SchedInv ph m D T) {a b : String}
    (h : DepOn m a b) (ha : isTreatedIn m a = true) : isTreatedIn m b = true := by
  rcases h with ⟨e, hfind, hmem, hne, hpres⟩
  have htr : e.is_treated = true := isTreatedIn_flag hfind ha
  have hq := inv.qinv (a, e) (mem_of_mapFindFB hfind)
  unfold EntryInv at hq
  dsimp only at hq
  rw [if_pos htr] at hq
  have hcd := hq.2 b hmem hne
  unfold countedDep at hcd
  unfold presentIn at hpres
  unfold isTreatedIn
  cases hfb : mapFindFB m b with
  | none =>
    rw [hfb] at hpres
    simp at hpres
  | some eb =>
    rw [hfb] at hcd
    dsimp only at hcd ⊢
    simpa using hcd

theorem chain_treated {ph : Bool} {m : Ledger} {D : String → Nat} {T : List Ev}
    (inv : SchedInv ph m D T) {a b : String}
    (hchain : Relation.TransGen (DepOn m) a b) (ha : isTreatedIn m a = true) :
    isTreatedIn m b = true := by
  induction hchain with
  | single h => exact depOn_treated inv h ha
  | tail hab hbc ih => exact depOn_treated inv hbc ih

/-- In any invariant state, a finished target's (transitive) registered
dependencies all began generation strictly before it did. -/
theorem chain_genBegin_before {ph : Bool} {m : Ledger} {D : String → Nat} {T : List Ev}
    (inv : SchedInv ph m D T) {a b : String}
    (hchain : Relation.TransGen (DepOn m) a b) (ha : isTreatedIn m a = true) :
    Ev.genBegin b ∈ T.takeWhile (fun ev => ev ≠ Ev.genBegin a) := by
  induction hchain with
  | single h =>
    rcases h with ⟨e, hfind, hmem, hne, hpres⟩
    exact inv.ordOk a e hfind (isTreatedIn_flag hfind ha) _ hmem hne hpres
  | tail hab hbc ih =>
    have hbt := chain_treated inv hab ha
    rcases hbc with ⟨e, hfind, hmem, hne, hpres⟩
    have h2 := inv.ordOk _ e hfind (isTreatedIn_flag hfind hbt) _ hmem hne hpres
    exact mem_takeWhile_ne_trans ih h2

/-- C1 amended: over any generation pass, for any two keys `a`, `b` with
`a`'s final entry finished and depending on `b` directly or through a
chain of registered targets, `b`'s Per-Target Generator invocation
*begins* strictly before `a`'s begins. (The original completes-before-
begins ordering is refuted by `claim_C1_counterexample`: a cascaded
dependant begins inside the dependency's own invocation, before it
completes.) -/
theorem claim_C1_amended (items : List OrganicItem) (a b : String)
    (ha : isTreatedIn (runFB items).1 a = true)
    (hchain : Relation.TransGen (DepOn (runFB items).1) a b) :
    Ev.genBegin b ∈ (runFB items).2.takeWhile (fun ev => ev ≠ Ev.genBegin a) :=
  chain_genBegin_before (runFB_spec items).1 hchain ha

/-- Witness for C1 amended on the two-target project of the
counterexample: `A` depends on `B` and is finished at the end, and `B`'s
`genBegin` precedes `A`'s in the trace. -/
theorem claim_C1_amended_witness :
    isTreatedIn (runFB [⟨⟨"A", false, ["B"]⟩, ""⟩, ⟨⟨"B", false, []⟩, ""⟩]).1 "A" = true ∧
    Ev.genBegin "B" ∈ (runFB [⟨⟨"A", false, ["B"]⟩, ""⟩,
      ⟨⟨"B", false, []⟩, ""⟩]).2.takeWhile (fun ev => ev ≠ Ev.genBegin "A") := by
  have hm : (runFB [⟨⟨"A", false, ["B"]⟩, ""⟩, ⟨⟨"B", false, []⟩, ""⟩]).1
      = [("A", ⟨true, "", ["B"], 0, ⟨"A", false, ["B"]⟩⟩),
         ("B", ⟨true, "", [], 0, ⟨"B", false, []⟩⟩)] := by
    simp +decide [runFB, organicPass, generateFB, writeTargetFB, targetTreatedFinish,
      finishLoop, canTreatTargetFB, mapIndexFB, addFastbuildInfoTarget,
      getNumberUntratedDepsTarget, mapFindFB, mapInsertFB, mapSetFB, decDepsFold,
      sweepEntry, decrementNbDepsTargetUnexist, lastChanceLoop, lastChanceToTreatTargets]
  refine ⟨by rw [hm]; decide, ?_⟩
  exact claim_C1_amended _ "A" "B" (by rw [hm]; decide)
    (Relation.TransGen.single ⟨⟨true, "", ["B"], 0, ⟨"A", false, ["B"]⟩⟩,
      by rw [hm]; decide, by decide, by decide, by rw [hm]; decide⟩)

/-- C2 confirmed: each `(target, config)` key's Per-Target Generator runs
at most once per pass — at most one `genBegin` and one emission body per
key over the complete trace, organic pass, recursive cascades and final
forced sweep included. -/
theorem claim_C2_no_double_generation (items : List OrganicItem) (j : String) :
    (runFB items).2.count (Ev.genBegin j) ≤ 1 ∧
    (runFB items).2.count (Ev.genBody j) ≤ 1 := by
  have hinv := (runFB_spec items).1
  have hb := hinv.begins j
  have hd := hinv.bodies j
  constructor
  · rw [hb]
    by_cases h : isTreatedIn (runFB items).1 j = true
    · rw [if_pos h]
    · rw [if_neg h]
      omega
  · rw [hd, hb]
    by_cases h : isTreatedIn (runFB items).1 j = true
    · rw [if_pos h]
    · rw [if_neg h]
      omega

/-- C4 amended: non-negativity of outstanding counts holds exactly for
the entries whose dependency list does not contain their own key: every
decrement recorded for such an entry leaves a non-negative value, and
such an entry's final count is non-negative. (`claim_C4_counterexample`
refutes the unconditional claim: a self-dependent target is driven
to `-1` by its own completion cascade.) -/
theorem claim_C4_amended (items : List OrganicItem) :
    (∀ j v, Ev.decT j v ∈ (runFB items).2 →
      (∀ e, mapFindFB (runFB items).1 j = some e → j ∉ e.name_target_deps) →
      0 ≤ v) ∧
    (∀ k e, mapFindFB (runFB items).1 k = some e → k ∉ e.name_target_deps →
      0 ≤ e.number_untrated_deps) := by
  have hinv := (runFB_spec items).1
  refine ⟨fun j v hjv hself => hinv.decsOk j v hjv hself, ?_⟩
  intro k e hke hself
  have hq := hinv.qinv (k, e) (mem_of_mapFindFB hke)
  unfold EntryInv at hq
  dsimp only at hq
  by_cases htr : e.is_treated = true
  · rw [if_pos htr] at hq
    rw [List.count_eq_zero.mpr hself] at hq
    have := hq.1
    omega
  · rw [if_neg htr] at hq
    have h2 : (0 : Int) ≤ (countedOcc true (runFB items).1 k e.name_target_deps : Int) :=
      Int.natCast_nonneg _
    omega

/-- Witness for C4 amended: in the counterexample project for C1, the
decrement recorded for the self-free entry `A` has value `0 ≥ 0`. -/
theorem claim_C4_amended_witness :
    Ev.decT "A" 0 ∈ (runFB [⟨⟨"A", false, ["B"]⟩, ""⟩, ⟨⟨"B", false, []⟩, ""⟩]).2 ∧
    (0 : Int) ≤ 0 := by
  have hm : (runFB [⟨⟨"A", false, ["B"]⟩, ""⟩, ⟨⟨"B", false, []⟩, ""⟩]).1
      = [("A", ⟨true, "", ["B"], 0, ⟨"A", false, ["B"]⟩⟩),
         ("B", ⟨true, "", [], 0, ⟨"B", false, []⟩⟩)] := by
    simp +decide [runFB, organicPass, generateFB, writeTargetFB, targetTreatedFinish,
      finishLoop, canTreatTargetFB, mapIndexFB, addFastbuildInfoTarget,
      getNumberUntratedDepsTarget, mapFindFB, mapInsertFB, mapSetFB, decDepsFold,
      sweepEntry, decrementNbDepsTargetUnexist, lastChanceLoop, lastChanceToTreatTargets]
  have hmem : Ev.decT "A" 0
      ∈ (runFB [⟨⟨"A", false, ["B"]⟩, ""⟩, ⟨⟨"B", false, []⟩, ""⟩]).2 := by
    simp +decide [runFB, organicPass, generateFB, writeTargetFB, targetTreatedFinish,
      finishLoop, canTreatTargetFB, mapIndexFB, addFastbuildInfoTarget,
      getNumberUntratedDepsTarget, mapFindFB, mapInsertFB, mapSetFB, decDepsFold,
      sweepEntry, decrementNbDepsTargetUnexist, lastChanceLoop, lastChanceToTreatTargets]
  refine ⟨hmem, ?_⟩
  exact (claim_C4_amended [⟨⟨"A", false, ["B"]⟩, ""⟩, ⟨⟨"B", false, []⟩, ""⟩]).1 "A" 0 hmem
    (by
      intro e he
      rw [hm] at he
      cases he
      decide)

/-- C5 confirmed: an entry left unfinished by the organic pass whose
outstanding dependencies are all unregistered (every registered
dependency already finished) has its count decremented by exactly one per
unregistered dependency occurrence by `DecrementNbDepsTargetUnexist`, and
is generated by the final forced sweep. -/
theorem claim_C5_unregistered_tolerance (items : List OrganicItem) (k : String)
    (e : FbInfoTarget)
    (hfind : mapFindFB (organicPass (items.length + 1) [] items).1 k = some e)
    (huntr : e.is_treated = false)
    (hready : ∀ d ∈ e.name_target_deps, d ≠ k →
      presentIn (organicPass (items.length + 1) [] items).1 d = true →
      isTreatedIn (organicPass (items.length + 1) [] items).1 d = true) :
    (∃ e', mapFindFB (decrementNbDepsTargetUnexist
        (organicPass (items.length + 1) [] items).1).1 k = some e' ∧
      e'.number_untrated_deps = e.number_untrated_deps -
        ((e.name_target_deps.filter (fun d =>
          (mapFindFB (organicPass (items.length + 1) [] items).1 d).isNone)).length
            : Int)) ∧
    isTreatedIn (runFB items).1 k = true := by
  obtain ⟨-, hready', -, hchar⟩ := runFB_spec items
  exact ⟨hchar k e hfind huntr, hready' k e hfind huntr hready⟩

/-- Witness for C5: the single target `A` depending only on the
never-registered name `X` is left with count `1` by the organic pass and
is finished by the end of the pass (the sweep brings the count to `0` and
the forced loop generates it). -/
theorem claim_C5_witness :
    mapFindFB (organicPass (([⟨⟨"A", false, ["X"]⟩, ""⟩] : List OrganicItem).length + 1)
        [] [⟨⟨"A", false, ["X"]⟩, ""⟩]).1 "A"
      = some ⟨false, "", ["X"], 1, ⟨"A", false, ["X"]⟩⟩ ∧
    isTreatedIn (runFB [⟨⟨"A", false, ["X"]⟩, ""⟩]).1 "A" = true := by
  have ho : (organicPass (([⟨⟨"A", false, ["X"]⟩, ""⟩] : List OrganicItem).length + 1)
        [] [⟨⟨"A", false, ["X"]⟩, ""⟩]).1
      = [("A", ⟨false, "", ["X"], 1, ⟨"A", false, ["X"]⟩⟩)] := by
    simp +decide [organicPass, generateFB, writeTargetFB, targetTreatedFinish,
      finishLoop, canTreatTargetFB, mapIndexFB, addFastbuildInfoTarget,
      getNumberUntratedDepsTarget, mapFindFB, mapInsertFB, mapSetFB, decDepsFold]
  refine ⟨by rw [ho]; rfl, ?_⟩
  refine (claim_C5_unregistered_tolerance [⟨⟨"A", false, ["X"]⟩, ""⟩] "A"
    ⟨false, "", ["X"], 1, ⟨"A", false, ["X"]⟩⟩ (by rw [ho]; rfl) rfl ?_).2
  intro d hd hdk hpres
  have hdx : d = "X" := by simpa using hd
  rw [hdx, ho] at hpres
  exact absurd hpres (by decide)

/-- C7 confirmed: a target with an empty resolved link language reports a
user-visible error naming it, touches neither the ledger nor the trace
otherwise, and returns; its key (if never registered by another item)
gets no generation events; the pass carries on and sibling targets
complete generation — shown concretely for a bad target followed by a
healthy sibling. -/
theorem claim_C7_missing_language :
    (∀ (fuel : Nat) (m : Ledger) (gt : CmTarget) (config : String),
      gt.linkLangEmpty = true →
      generateFB fuel m gt config = (m, [Ev.errLang gt.name])) ∧
    (∀ (items : List OrganicItem), ∀ it ∈ items, it.gt.linkLangEmpty = true →
      Ev.errLang it.gt.name ∈ (runFB items).2) ∧
    (∀ (items : List OrganicItem) (j : String),
      presentIn (runFB items).1 j = false →
      (runFB items).2.count (Ev.genBegin j) = 0 ∧
      (runFB items).2.count (Ev.genBody j) = 0) ∧
    ((runFB [⟨⟨"Bad", true, []⟩, ""⟩, ⟨⟨"Good", false, []⟩, ""⟩]).2
      = [Ev.errLang "Bad", Ev.genBegin "Good", Ev.genBody "Good", Ev.genEnd "Good"] ∧
     isTreatedIn (runFB [⟨⟨"Bad", true, []⟩, ""⟩, ⟨⟨"Good", false, []⟩, ""⟩]).1 "Good"
       = true ∧
     presentIn (runFB [⟨⟨"Bad", true, []⟩, ""⟩, ⟨⟨"Good", false, []⟩, ""⟩]).1 "Bad"
       = false) := by
  refine ⟨fun fuel m gt config h => generateFB_langEmpty h, ?_, ?_, ?_⟩
  · intro items it hit hlang
    exact (runFB_spec items).2.2.1 it hit hlang
  · intro items j hpres
    have hinv := (runFB_spec items).1
    have htr : isTreatedIn (runFB items).1 j = false := by
      unfold isTreatedIn
      unfold presentIn at hpres
      cases hf : mapFindFB (runFB items).1 j with
      | none => rfl
      | some e =>
        rw [hf] at hpres
        simp at hpres
    constructor
    · rw [hinv.begins j, htr]
      rfl
    · rw [hinv.bodies j, hinv.begins j, htr]
      rfl
  · refine ⟨?_, ?_, ?_⟩ <;>
      simp +decide [runFB, organicPass, generateFB, writeTargetFB, targetTreatedFinish,
        finishLoop, canTreatTargetFB, mapIndexFB, addFastbuildInfoTarget,
        getNumberUntratedDepsTarget, mapFindFB, mapInsertFB, mapSetFB, decDepsFold,
        sweepEntry, decrementNbDepsTargetUnexist, lastChanceLoop,
        lastChanceToTreatTargets, isTreatedIn, presentIn]

/-- Witness for C7 on the bad/sibling project: the error is reported for
`Bad`, which has no generation events, while `Good` completes. -/
theorem claim_C7_witness :
    generateFB 1 [] ⟨"Bad", true, []⟩ "" = ([], [Ev.errLang "Bad"]) ∧
    Ev.errLang "Bad" ∈ (runFB [⟨⟨"Bad", true, []⟩, ""⟩, ⟨⟨"Good", false, []⟩, ""⟩]).2 ∧
    ((runFB [⟨⟨"Bad", true, []⟩, ""⟩, ⟨⟨"Good", false, []⟩, ""⟩]).2.count
        (Ev.genBegin "Bad") = 0 ∧
     (runFB [⟨⟨"Bad", true, []⟩, ""⟩, ⟨⟨"Good", false, []⟩, ""⟩]).2.count
        (Ev.genBody "Bad") = 0) := by
  refine ⟨claim_C7_missing_language.1 1 [] ⟨"Bad", true, []⟩ "" rfl,
    claim_C7_missing_language.2.1 [⟨⟨"Bad", true, []⟩, ""⟩, ⟨⟨"Good", false, []⟩, ""⟩]
      ⟨⟨"Bad", true, []⟩, ""⟩ (by decide) rfl,
    claim_C7_missing_language.2.2.1 [⟨⟨"Bad", true, []⟩, ""⟩, ⟨⟨"Good", false, []⟩, ""⟩]
      "Bad" ?_⟩
  simp +decide [runFB, organicPass, generateFB, writeTargetFB, targetTreatedFinish,
    finishLoop, canTreatTargetFB, mapIndexFB, addFastbuildInfoTarget,
    getNumberUntratedDepsTarget, mapFindFB, mapInsertFB, mapSetFB, decDepsFold,
    sweepEntry, decrementNbDepsTargetUnexist, lastChanceLoop,
    lastChanceToTreatTargets, presentIn]

end FastbuildSpec
